import Mathlib

/-!
Verification development for the XcodeLibPlot dependency-graph engine
(`XcodeLibPlot.py`).  The Python graph core is shallowly embedded:

* Python `set` objects are modelled as duplicate-free lists in insertion
  order (`setAdd` models `set.add`);
* Python `dict` objects are modelled as association lists in insertion
  order (`aget` / `aset` model item access and assignment);
* compiled regular-expression patterns are modelled abstractly as boolean
  predicates on strings (`p.search(text)` truthiness);
* `sorted(...)` is modelled by an insertion sort over the code-point order
  on strings, which agrees with Python's string ordering;
* wall-clock values (`datetime.now()`) are passed in as explicit string
  parameters.
-/

namespace XcodeLibPlot

/-- Models `set.add` on an insertion-ordered duplicate-free list. -/
def setAdd {α : Type} [DecidableEq α] (xs : List α) (x : α) : List α :=
  if x ∈ xs then xs else xs ++ [x]

/-- Models Python dict item lookup (`m.get(k)`): first (unique) binding. -/
def aget {β : Type} (m : List (String × β)) (k : String) : Option β :=
  match m with
  | [] => none
  | (k', v) :: t => if k = k' then some v else aget t k

/-- Models Python dict assignment `m[k] = v`: update in place preserves
insertion order, a new key is appended. -/
def aset {β : Type} (m : List (String × β)) (k : String) (v : β) : List (String × β) :=
  match m with
  | [] => [(k, v)]
  | (k', v') :: t => if k = k' then (k, v) :: t else (k', v') :: aset t k v

/-- Code-point comparison on character lists (Python string `<=`). -/
def listLe : List Char → List Char → Bool
  | [], _ => true
  | _ :: _, [] => false
  | a :: as, b :: bs => if a < b then true else if b < a then false else listLe as bs

/-- Python's `<=` on strings: code-point lexicographic order. -/
def strLe (a b : String) : Bool := listLe a.toList b.toList

/-- Python's `<=` on `(str, str)` tuples: lexicographic. -/
def pairLe (a b : String × String) : Bool :=
  if a.1 = b.1 then strLe a.2 b.2 else strLe a.1 b.1

/-- Insert into a sorted list (auxiliary for `sortL`). -/
def insExt {α : Type} (le : α → α → Bool) (x : α) : List α → List α
  | [] => [x]
  | y :: ys => if le x y then x :: y :: ys else y :: insExt le x ys

/-- Models Python `sorted(...)`: a stable sort; on the duplicate-free lists
this development sorts, any sort computing the same ordered list is
behaviourally identical to Python's. -/
def sortL {α : Type} (le : α → α → Bool) (xs : List α) : List α :=
  xs.foldr (insExt le) []

/-- Character-list version of Python's `needle in hay` prefix test. -/
def startsL : List Char → List Char → Bool
  | _, [] => true
  | [], _ :: _ => false
  | a :: as, b :: bs => a = b && startsL as bs

/-- Character-list version of Python's substring test `needle in hay`. -/
def containsL : List Char → List Char → Bool
  | [], needle => needle.isEmpty
  | h :: t, needle => startsL (h :: t) needle || containsL t needle

/-- Python's `str.lower()` as used on suffix tokens and URLs (charwise
ASCII case mapping). -/
def strLower (s : String) : String := ⟨s.toList.map Char.toLower⟩

/-- Python's substring test `needle in hay` on strings. -/
def strContains (hay needle : String) : Bool := containsL hay.toList needle.toList

/-- Per-library metadata dictionary (`lib_meta` values): both keys may be
absent, which `Option` records (`none` = key not present). -/
structure LibMeta where
  is_system : Option Bool
  ext : Option String
deriving DecidableEq

/-- Empty metadata dictionary `{}`. -/
def LibMeta.empty : LibMeta := ⟨none, none⟩

/-- The graph model of class `Graph` (`XcodeLibPlot.py`, lines 197-210).
`annots` models the field `annotations` (node name → subtitle). -/
structure Graph where
  target_nodes : List String
  lib_nodes : List String
  edges : List (String × String)
  annots : List (String × String)
  lib_meta : List (String × LibMeta)
  cycle_nodes : List String
  cycle_edges : List (String × String)
  cycle_components : List (List String)
deriving DecidableEq

/-- A freshly constructed `Graph()`. -/
def Graph.empty : Graph := ⟨[], [], [], [], [], [], [], []⟩

/-- `Graph.add_target` (line 213). -/
def add_target (g : Graph) (name : String) : Graph :=
  { g with target_nodes := setAdd g.target_nodes name }

/-- `Graph.add_lib` (lines 216-228).  The subtitle is `Option String`; the
Python truthiness test `if subtitle:` stores only a non-empty string. -/
def add_lib (g : Graph) (name : String) (subtitle : Option String)
    (is_system : Bool) (ext : Option String) : Graph :=
  let g := { g with lib_nodes := setAdd g.lib_nodes name }
  let g :=
    match subtitle with
    | some s => if s ≠ "" then { g with annots := aset g.annots name s } else g
    | none => g
  let meta0 := (aget g.lib_meta name).getD LibMeta.empty
  let meta1 :=
    match ext with
    | some e => { meta0 with ext := some e }
    | none => meta0
  let meta2 :=
    match meta1.is_system with
    | none => { meta1 with is_system := some is_system }
    | some b => { meta1 with is_system := some (b || is_system) }
  { g with lib_meta := aset g.lib_meta name meta2 }

/-- `Graph.add_edge` (lines 230-232): empty endpoints are silently ignored. -/
def add_edge (g : Graph) (src dst : String) : Graph :=
  if src ≠ "" ∧ dst ≠ "" then { g with edges := setAdd g.edges (src, dst) } else g

/-- `match_any` (lines 265-266): some pattern matches the text. -/
def match_any (patterns : List (String → Bool)) (text : String) : Bool :=
  patterns.any (fun p => p text)

/-- `target_allowed` (lines 271-276): exclusion first, then inclusion. -/
def target_allowed (include_targets exclude_targets : List (String → Bool))
    (t : String) : Bool :=
  if !exclude_targets.isEmpty && match_any exclude_targets t then false
  else if !include_targets.isEmpty then match_any include_targets t
  else true

/-- The URL-marker test of `lib_allowed` (line 287):
`l in self.annotations and self.annotations[l] and "http" in
self.annotations[l].lower()`. -/
def urlCond (annots : List (String × String)) (l : String) : Bool :=
  match aget annots l with
  | some s => s ≠ "" && strContains (strLower s) "http"
  | none => false

/-- The suffix-key computation of `lib_allowed` (lines 283-293): returns
the effective suffix key (`ext_key`) together with the possibly updated
`lib_meta` map (the one-time `spm` inference, persisted at line 291). -/
def lib_allowed_core (annots : List (String × String))
    (lm : List (String × LibMeta)) (l : String) :
    String × List (String × LibMeta) :=
  let meta := (aget lm l).getD LibMeta.empty
  let ext := strLower (meta.ext.getD "")
  let ext_key := if ext ≠ "" then ext else ""
  if urlCond annots l then
    if meta.ext = none then ("spm", aset lm l { meta with ext := some "spm" })
    else (ext_key, lm)
  else if meta.ext = some "spm" then ("spm", lm)
  else (ext_key, lm)

/-- `lib_allowed` (lines 278-298).  The closure reads and mutates
`self.lib_meta` (the one-time `spm` inference), so it is embedded as a
state-passing step returning the decision together with the updated map. -/
def lib_allowed_step (include_libs exclude_libs : List (String → Bool))
    (inc_suf exc_suf : List String) (annots : List (String × String))
    (lm : List (String × LibMeta)) (l : String) : Bool × List (String × LibMeta) :=
  if !exclude_libs.isEmpty && match_any exclude_libs l then (false, lm)
  else if !include_libs.isEmpty && !match_any include_libs l then (false, lm)
  else
    let st := lib_allowed_core annots lm l
    if inc_suf ≠ [] ∧ st.1 ∉ inc_suf then (false, st.2)
    else if exc_suf ≠ [] ∧ st.1 ∈ exc_suf then (false, st.2)
    else (true, st.2)

/-- One iteration of the edge-pruning loop of `apply_filters`
(lines 300-309), threading the `lib_meta` state mutated by `lib_allowed`. -/
def filter_edge_step (g : Graph) (tA : String → Bool)
    (include_libs exclude_libs : List (String → Bool)) (inc_suf exc_suf : List String)
    (acc : List (String × String) × List (String × LibMeta)) (e : String × String) :
    List (String × String) × List (String × LibMeta) :=
  if e.1 ∈ g.target_nodes ∧ ¬ tA e.1 then acc
  else if e.2 ∈ g.target_nodes ∧ ¬ tA e.2 then acc
  else if e.2 ∈ g.lib_nodes then
    let r := lib_allowed_step include_libs exclude_libs inc_suf exc_suf g.annots acc.2 e.2
    if r.1 then (setAdd acc.1 e, r.2) else (acc.1, r.2)
  else (setAdd acc.1 e, acc.2)

/-- One iteration of the surviving-node collection loop (lines 311-319). -/
def kept_step (g : Graph) (acc : List String × List String) (e : String × String) :
    List String × List String :=
  let kt := if e.1 ∈ g.target_nodes then setAdd acc.1 e.1 else acc.1
  let kt := if e.2 ∈ g.target_nodes then setAdd kt e.2 else kt
  let kl := if e.2 ∈ g.lib_nodes then setAdd acc.2 e.2 else acc.2
  (kt, kl)

/-- One iteration of the isolated-allowed-target loop (lines 320-323). -/
def iso_step (tA : String → Bool) (kt : List String) (t : String) : List String :=
  if tA t ∧ t ∉ kt then kt ++ [t] else kt

/-- `Graph.apply_filters` (lines 254-328). -/
def apply_filters (g : Graph)
    (include_targets exclude_targets include_libs exclude_libs : List (String → Bool))
    (include_suffixes exclude_suffixes : List String)
    (keep_isolated_included_targets : Bool) : Graph :=
  let inc_suf := include_suffixes.map strLower
  let exc_suf := exclude_suffixes.map strLower
  let tA := target_allowed include_targets exclude_targets
  let pruned := g.edges.foldl
    (filter_edge_step g tA include_libs exclude_libs inc_suf exc_suf) ([], g.lib_meta)
  let kept := pruned.1.foldl (kept_step g) ([], [])
  let kept_targets :=
    if keep_isolated_included_targets then
      g.target_nodes.foldl (iso_step tA) kept.1
    else kept.1
  { g with
    edges := pruned.1,
    target_nodes := kept_targets,
    lib_nodes := kept.2,
    lib_meta := pruned.2.filter (fun kv => kv.1 ∈ kept.2),
    annots := g.annots.filter (fun kv => kv.1 ∈ kept.2) }

/-- Ensure an adjacency key exists (`adj.setdefault(n, set())`). -/
def adjEnsure (adj : List (String × List String)) (k : String) :
    List (String × List String) :=
  match aget adj k with
  | some _ => adj
  | none => adj ++ [(k, [])]

/-- Add `v` to the successor set of `k` (`adj.setdefault(k, set()).add(v)`). -/
def adjAdd (adj : List (String × List String)) (k v : String) :
    List (String × List String) :=
  match aget adj k with
  | some vs => aset adj k (setAdd vs v)
  | none => adj ++ [(k, [v])]

/-- `Graph._build_adjacency` (lines 235-242): every edge endpoint and every
known target/library node becomes a key, even at degree zero. -/
def _build_adjacency (g : Graph) : List (String × List String) :=
  let adj := g.edges.foldl (fun adj e => adjEnsure (adjAdd adj e.1 e.2) e.2) []
  (g.target_nodes ++ g.lib_nodes).foldl adjEnsure adj

/-- Successor list of a vertex (`adj.get(v, ())`). -/
def adjGet (adj : List (String × List String)) (v : String) : List String :=
  (aget adj v).getD []

/-- The mutable state of `mark_cycles` (lines 332-338): Tarjan's counter,
index and low-link maps, the explicit vertex stack (head = top of stack),
the on-stack set and the accumulated component list. -/
structure TarjanSt where
  index : Nat
  indices : List (String × Nat)
  low : List (String × Nat)
  stack : List String
  onstack : List String
  sccs : List (List String)
deriving DecidableEq

/-- Initial Tarjan state. -/
def TarjanSt.init : TarjanSt := ⟨0, [], [], [], [], []⟩

/-- `indices[x]` (total, defaulting to 0; the algorithm only reads indices
of visited vertices). -/
def idxOf (st : TarjanSt) (x : String) : Nat := (aget st.indices x).getD 0

/-- `low[x]` (total, defaulting to 0). -/
def lowOf (st : TarjanSt) (x : String) : Nat := (aget st.low x).getD 0

/-- The component-popping loop of `strongconnect` (lines 355-363): pop the
stack down to `v`, collecting the popped vertices in pop order. -/
def popUntil (v : String) : List String → List String → List String × List String
  | [], comp => (comp, [])
  | w :: rest, comp =>
    if w = v then (comp ++ [w], rest) else popUntil v rest (comp ++ [w])

/-- `strongconnect` (lines 340-363), with explicit fuel standing in for the
Python call stack.  The fuel passed by `tarjan_sccs` is large enough that
the zero-fuel branch is never reached (each nested call visits a previously
unvisited vertex). -/
def strongconnect (adj : List (String × List String)) :
    Nat → String → TarjanSt → TarjanSt
  | 0, _, st => st
  | fuel + 1, v, st =>
    let st1 := { st with
      indices := aset st.indices v st.index
      low := aset st.low v st.index
      index := st.index + 1
      stack := v :: st.stack
      onstack := setAdd st.onstack v }
    let st2 := (adjGet adj v).foldl (fun st w =>
      if aget st.indices w = none then
        let st' := strongconnect adj fuel w st
        { st' with low := aset st'.low v (min (lowOf st' v) (lowOf st' w)) }
      else if w ∈ st.onstack then
        { st with low := aset st.low v (min (lowOf st v) (idxOf st w)) }
      else st) st1
    if lowOf st2 v = idxOf st2 v then
      let p := popUntil v st2.stack []
      { st2 with
        stack := p.2
        onstack := st2.onstack.filter (fun x => x ∉ p.1)
        sccs := st2.sccs ++ [p.1] }
    else st2

/-- One iteration of the successor loop of `strongconnect` (lines
348-353), named for the verification. -/
def scStep (adj : List (String × List String)) (fuel : Nat) (v : String)
    (st : TarjanSt) (w : String) : TarjanSt :=
  if aget st.indices w = none then
    let st' := strongconnect adj fuel w st
    { st' with low := aset st'.low v (min (lowOf st' v) (lowOf st' w)) }
  else if w ∈ st.onstack then
    { st with low := aset st.low v (min (lowOf st v) (idxOf st w)) }
  else st

/-- The state pushed at the head of `strongconnect` (lines 341-346). -/
def scPush (v : String) (st : TarjanSt) : TarjanSt :=
  { st with
    indices := aset st.indices v st.index
    low := aset st.low v st.index
    index := st.index + 1
    stack := v :: st.stack
    onstack := setAdd st.onstack v }

/-- The final pop of `strongconnect` (lines 355-363). -/
def scPop (v : String) (st : TarjanSt) : TarjanSt :=
  if lowOf st v = idxOf st v then
    let p := popUntil v st.stack []
    { st with
      stack := p.2
      onstack := st.onstack.filter (fun x => x ∉ p.1)
      sccs := st.sccs ++ [p.1] }
  else st

/-- The SCC enumeration of `mark_cycles` (lines 331-367): run
`strongconnect` from every not-yet-visited adjacency key. -/
def tarjan_sccs (g : Graph) : List (List String) :=
  let adj := _build_adjacency g
  let keys := adj.map Prod.fst
  let st := keys.foldl
    (fun st v => if aget st.indices v = none then
        strongconnect adj (keys.length + 1) v st
      else st)
    TarjanSt.init
  st.sccs

/-- The cycle test of `mark_cycles` (lines 375-381): a component is a
cycle iff it has more than one member or its single member has a
self-loop. -/
def is_cycle_comp (adj : List (String × List String)) (comp : List String) : Bool :=
  if comp.length > 1 then true
  else
    match comp with
    | [v] => v ∈ adjGet adj v
    | _ => false

/-- The classification fold of `mark_cycles` (lines 369-388) applied to
one component. -/
def record_component (g0 : Graph) (adj : List (String × List String))
    (g : Graph) (comp : List String) : Graph :=
  if is_cycle_comp adj comp then
    let comp_sorted := sortL strLe comp
    { g with
      cycle_components := g.cycle_components ++ [comp_sorted]
      cycle_nodes := comp_sorted.foldl setAdd g.cycle_nodes
      cycle_edges := g0.edges.foldl
        (fun ce e => if e.1 ∈ comp ∧ e.2 ∈ comp then setAdd ce e else ce)
        g.cycle_edges }
  else g

/-- `Graph.mark_cycles` (lines 331-388). -/
def mark_cycles (g : Graph) : Graph :=
  let adj := _build_adjacency g
  let sccs := tarjan_sccs g
  sccs.foldl (record_component g adj)
    { g with cycle_nodes := [], cycle_edges := [], cycle_components := [] }

/-- `Graph.lib_in_degree` (lines 244-245). -/
def lib_in_degree (g : Graph) (lib : String) : Nat :=
  (g.edges.filter (fun e => decide (e.2 = lib ∧ e.1 ∈ g.target_nodes))).length

/-- One exported library record of `export_json` (lines 724-733). -/
structure LibEntry where
  name : String
  is_system : Bool
  ext : Option String
  subtitle : Option String
  in_degree : Nat
deriving DecidableEq

/-- The `filters` block of the JSON payload (lines 993-1003), passed
through verbatim. -/
structure FiltersMeta where
  include_target : List String
  exclude_target : List String
  include_lib : List String
  exclude_lib : List String
  include_suffix : List String
  exclude_suffix : List String
  highlight_cycles : Bool
  system_highlight : Bool
  split_only : Bool
deriving DecidableEq

/-- The structured JSON payload built by `export_json` (lines 716-742);
serialising this structure with the fixed `json.dump` settings is a
byte-deterministic function of it. -/
structure Payload where
  generated_at : String
  root : String
  has_cycles : Bool
  cycles_count : Nat
  targets : List String
  libraries : List LibEntry
  edges : List (String × String)
  cycles_components : List (List String)
  cycles_edges : List (String × String)
  filters : FiltersMeta
  colors : List (String × String)
deriving DecidableEq

/-- `export_json` (lines 716-742): the wall-clock value
`datetime.now().isoformat()` is the explicit `generated_at` parameter. -/
def export_json (g : Graph) (generated_at root : String) (filters : FiltersMeta)
    (colors : List (String × String)) : Payload :=
  { generated_at := generated_at
    root := root
    has_cycles := !g.cycle_components.isEmpty
    cycles_count := g.cycle_components.length
    targets := sortL strLe g.target_nodes
    libraries := (sortL strLe g.lib_nodes).map (fun name =>
      { name := name
        is_system := (((aget g.lib_meta name).getD LibMeta.empty).is_system).getD false
        ext := ((aget g.lib_meta name).getD LibMeta.empty).ext
        subtitle := aget g.annots name
        in_degree := lib_in_degree g name })
    edges := sortL pairLe g.edges
    cycles_components := g.cycle_components
    cycles_edges := sortL pairLe g.cycle_edges
    filters := filters
    colors := colors }

/-- DOT label escaping `t.replace('"', '\\"')` (e.g. line 410). -/
def dotEscape (s : String) : String :=
  ⟨s.toList.foldr (fun c acc => if c = '"' then '\\' :: '"' :: acc else c :: acc) []⟩

/-- Node label with optional subtitle, `f'{safe}\\n({sub})' if sub else safe`
(line 426). -/
def dotLabel (safe : String) (sub : Option String) : String :=
  match sub with
  | some s => if s ≠ "" then safe ++ "\\n(" ++ s ++ ")" else safe
  | none => safe

/-- `Graph.to_dot` (lines 391-471): the global DOT text.  The wall-clock
string `datetime.now().strftime(...)` is the explicit `now` parameter. -/
def to_dot (g : Graph) (colors : List (String × String))
    (highlight_cycles system_highlight : Bool) (now : String) : String :=
  let col := fun k => (aget colors k).getD ""
  let header : List String :=
    ["digraph XcodeDeps \x7b",
     "  rankdir=LR;",
     "  graph [fontname=\"SF Pro Text\", fontsize=10, labelloc=\"t\"];",
     "  node  [fontname=\"SF Pro Text\", fontsize=10];",
     "  edge  [fontname=\"SF Pro Text\", fontsize=9, color=\"" ++ col "edge" ++ "\"];",
     "  label=\"Xcode Dependencies Graph\\n" ++
       (if g.cycle_components.isEmpty then "Cycles: NO" else "Cycles: YES") ++
       "\\nGenerated: " ++ now ++ "\";",
     "",
     "  // Targets"]
  let targetLines := (sortL strLe g.target_nodes).map (fun t =>
    let safe := dotEscape t
    if highlight_cycles ∧ t ∈ g.cycle_nodes then
      "  \"" ++ safe ++ "\" [shape=ellipse, style=filled, fillcolor=\"" ++
        col "cycle_fill" ++ "\", color=\"" ++ col "cycle_stroke" ++ "\", penwidth=2.0];"
    else
      "  \"" ++ safe ++ "\" [shape=ellipse, style=filled, fillcolor=\"" ++
        col "target_fill" ++ "\", color=\"" ++ col "target_stroke" ++ "\"];")
  let libLines := (sortL strLe g.lib_nodes).map (fun l =>
    let safe := dotEscape l
    let label := dotLabel safe (aget g.annots l)
    let is_sys := (((aget g.lib_meta l).getD LibMeta.empty).is_system).getD false
    if highlight_cycles ∧ l ∈ g.cycle_nodes then
      "  \"" ++ safe ++ "\" [label=\"" ++ label ++
        "\", shape=box, style=filled, fillcolor=\"" ++ col "cycle_fill" ++
        "\", color=\"" ++ col "cycle_stroke" ++ "\", penwidth=2.0];"
    else if system_highlight ∧ is_sys then
      "  \"" ++ safe ++ "\" [label=\"" ++ label ++
        "\", shape=box, style=filled, fillcolor=\"" ++ col "libsys_fill" ++
        "\", color=\"" ++ col "libsys_stroke" ++ "\"];"
    else
      "  \"" ++ safe ++ "\" [label=\"" ++ label ++
        "\", shape=box, style=filled, fillcolor=\"" ++ col "lib3p_fill" ++
        "\", color=\"" ++ col "lib3p_stroke" ++ "\"];")
  let edgeLines := (sortL pairLe g.edges).map (fun e =>
    let sa := dotEscape e.1
    let sb := dotEscape e.2
    if highlight_cycles ∧ e ∈ g.cycle_edges then
      "  \"" ++ sa ++ "\" -> \"" ++ sb ++ "\" [color=\"" ++ col "edge_cycle" ++
        "\", penwidth=2.2];"
    else
      "  \"" ++ sa ++ "\" -> \"" ++ sb ++ "\";")
  let legend : List String :=
    ["",
     "  // Legend",
     "  subgraph cluster_legend \x7b",
     "    label=\"Legend\";",
     "    fontsize=11;",
     "    color=\"#cccccc\";",
     "    style=rounded;",
     "    \"LEG_Target\" [label=\"Target\", shape=ellipse, style=filled, fillcolor=\"" ++
       col "target_fill" ++ "\", color=\"" ++ col "target_stroke" ++ "\"];",
     "    \"LEG_Lib3P\"  [label=\"3rd-party Library/Framework\", shape=box, style=filled, fillcolor=\"" ++
       col "lib3p_fill" ++ "\", color=\"" ++ col "lib3p_stroke" ++ "\"];",
     "    \"LEG_LibSys\" [label=\"System Framework/Library\", shape=box, style=filled, fillcolor=\"" ++
       col "libsys_fill" ++ "\", color=\"" ++ col "libsys_stroke" ++ "\"];",
     "    \"LEG_CycleNode\" [label=\"Node in cycle\", shape=ellipse, style=filled, fillcolor=\"" ++
       col "cycle_fill" ++ "\", color=\"" ++ col "cycle_stroke" ++ "\", penwidth=2.0];",
     "    \"LEG_Target\" -> \"LEG_Lib3P\" [label=\"normal edge\", fontcolor=\"" ++
       col "edge" ++ "\", color=\"" ++ col "edge" ++ "\"];",
     "    \"LEG_Lib3P\" -> \"LEG_CycleNode\" [label=\"edge in cycle\", fontcolor=\"" ++
       col "edge_cycle" ++ "\", color=\"" ++ col "edge_cycle" ++ "\", penwidth=2.2];",
     "  \x7d",
     "\x7d"]
  String.intercalate "\n"
    (header ++ targetLines ++ ("" :: "  // Frameworks / Libraries / SPM" :: libLines)
      ++ ("" :: "  // Edges" :: edgeLines) ++ legend)

/-- A raw graph-construction fact as fed by the ingestion collaborator. -/
inductive Fact where
  | addTargetF (name : String)
  | addLibF (name : String) (subtitle : Option String) (is_system : Bool)
      (ext : Option String)
  | addEdgeF (src dst : String)
deriving DecidableEq

/-- Apply one ingestion fact to the graph. -/
def runFact (g : Graph) : Fact → Graph
  | .addTargetF n => add_target g n
  | .addLibF n s sys e => add_lib g n s sys e
  | .addEdgeF a b => add_edge g a b

/-- Construction phase: replay a list of ingestion facts on a fresh graph. -/
def runFacts (fs : List Fact) : Graph := fs.foldl runFact Graph.empty

/-- One directed step along an edge of the graph. -/
def EdgeStep (g : Graph) (a b : String) : Prop := (a, b) ∈ g.edges

/-- Reachability along directed edges (reflexive-transitive closure). -/
def Reaches (g : Graph) : String → String → Prop :=
  Relation.ReflTransGen (EdgeStep g)

/-- Mutual reachability of two nodes over the current edge set. -/
def MutualReach (g : Graph) (u v : String) : Prop :=
  Reaches g u v ∧ Reaches g v u

/-- The vertex set over which `mark_cycles` works: every adjacency key,
i.e. every edge endpoint and every known target or library node. -/
def vertices (g : Graph) : List String := (_build_adjacency g).map Prod.fst

/-- A semantic strongly connected component: a nonempty, mutually
reachable, maximal set of vertices. -/
def IsSCC (g : Graph) (s : Set String) : Prop :=
  s.Nonempty ∧ (∀ u ∈ s, u ∈ vertices g) ∧
    (∀ u ∈ s, ∀ v ∈ s, MutualReach g u v) ∧
    ∀ u ∈ s, ∀ v, v ∈ vertices g → MutualReach g u v → v ∈ s

/-- One directed step in an adjacency structure. -/
def AdjE (adj : List (String × List String)) (a b : String) : Prop :=
  b ∈ adjGet adj a

/-- Reachability in an adjacency structure. -/
def AdjReach (adj : List (String × List String)) : String → String → Prop :=
  Relation.ReflTransGen (AdjE adj)

/-- The key list of an adjacency structure (its vertex set). -/
def adjKeys (adj : List (String × List String)) : List String :=
  adj.map Prod.fst

/-- Number of keys not yet visited by the traversal. -/
def unvisitedCount (adj : List (String × List String)) (st : TarjanSt) : Nat :=
  ((adjKeys adj).filter (fun x => (aget st.indices x).isNone)).length

/-- The state invariant of the embedded Tarjan traversal, holding at
every call boundary. -/
structure TInv (adj : List (String × List String)) (st : TarjanSt) : Prop where
  idx_lt : ∀ x n, aget st.indices x = some n → n < st.index
  idx_inj : ∀ x y n, aget st.indices x = some n → aget st.indices y = some n → x = y
  idx_keys : ∀ x, (aget st.indices x).isSome → x ∈ adjKeys adj
  stack_visited : ∀ x ∈ st.stack, (aget st.indices x).isSome
  onstack_iff : ∀ x, x ∈ st.onstack ↔ x ∈ st.stack
  stack_nodup : st.stack.Nodup
  stack_sorted : st.stack.Pairwise (fun a b => idxOf st b < idxOf st a)
  scc_visited : ∀ C ∈ st.sccs, ∀ x ∈ C, (aget st.indices x).isSome
  scc_stack_disjoint : ∀ C ∈ st.sccs, ∀ x ∈ C, x ∉ st.stack
  visited_split : ∀ x, (aget st.indices x).isSome → x ∈ st.stack ∨ ∃ C ∈ st.sccs, x ∈ C
  scc_closed : ∀ C ∈ st.sccs, ∀ x ∈ C, ∀ y, AdjE adj x y → ∃ C' ∈ st.sccs, y ∈ C'
  scc_nodup : ∀ C ∈ st.sccs, C.Nodup
  scc_exact : ∀ C ∈ st.sccs, ∃ u, u ∈ C ∧
    ∀ x, x ∈ C ↔ AdjReach adj u x ∧ AdjReach adj x u
  low_inv : ∀ x ∈ st.stack, lowOf st x ≤ idxOf st x ∧
    ∃ y ∈ st.stack, idxOf st y = lowOf st x ∧ AdjReach adj x y

/-- The postcondition of one completed `strongconnect` call on vertex `v`
from entry state `st`. -/
structure SCPost (adj : List (String × List String)) (st : TarjanSt) (v : String)
    (st' : TarjanSt) : Prop where
  inv : TInv adj st'
  idx_mono : ∀ x n, aget st.indices x = some n → aget st'.indices x = some n
  low_pres : ∀ x, (aget st.indices x).isSome → aget st'.low x = aget st.low x
  index_mono : st.index ≤ st'.index
  sccs_ext : ∃ Δ, st'.sccs = st.sccs ++ Δ
  v_vis : (aget st'.indices v).isSome
  idx_v : idxOf st' v = st.index
  new_idx_ge : ∀ w, aget st.indices w = none → (aget st'.indices w).isSome →
    st.index ≤ idxOf st' w
  new_reach : ∀ w, aget st.indices w = none → (aget st'.indices w).isSome →
    AdjReach adj v w
  new_succs_vis : ∀ p, aget st.indices p = none → (aget st'.indices p).isSome →
    ∀ y ∈ adjGet adj p, (aget st'.indices y).isSome
  new_old_low : ∀ p, aget st.indices p = none → (aget st'.indices p).isSome →
    ∀ y ∈ adjGet adj p, y ∈ st.stack → lowOf st' p ≤ idxOf st' y
  stack_rest : ∃ rest, st'.stack = rest ++ st.stack ∧
    (∀ w ∈ rest, aget st.indices w = none) ∧
    (∀ w ∈ rest, lowOf st' v ≤ lowOf st' w) ∧
    (∀ w ∈ rest, w ≠ v → lowOf st' w < idxOf st' w) ∧
    (rest = [] ∨ ∃ r0, rest = r0 ++ [v])
  v_stack_low : v ∈ st'.stack → lowOf st' v < idxOf st' v
  v_off_stack : v ∉ st'.stack → lowOf st' v = idxOf st' v
  count_le : unvisitedCount adj st' ≤ unvisitedCount adj st

/-- The invariant carried through the successor loop of a `strongconnect`
call on `v`, relating the entry state `st` to the current state `stc`. -/
structure SCLoop (adj : List (String × List String)) (st : TarjanSt) (v : String)
    (stc : TarjanSt) : Prop where
  inv : TInv adj stc
  idx_mono : ∀ x n, aget st.indices x = some n → aget stc.indices x = some n
  low_pres : ∀ x, (aget st.indices x).isSome → aget stc.low x = aget st.low x
  index_mono : st.index < stc.index
  sccs_ext : ∃ Δ, stc.sccs = st.sccs ++ Δ
  v_new : aget st.indices v = none
  v_idx : aget stc.indices v = some st.index
  new_idx_ge : ∀ w, aget st.indices w = none → (aget stc.indices w).isSome →
    st.index ≤ idxOf stc w
  new_reach : ∀ w, aget st.indices w = none → (aget stc.indices w).isSome →
    AdjReach adj v w
  new_succs_vis : ∀ p, aget st.indices p = none → (aget stc.indices p).isSome →
    p ≠ v → ∀ y ∈ adjGet adj p, (aget stc.indices y).isSome
  new_old_low : ∀ p, aget st.indices p = none → (aget stc.indices p).isSome →
    p ≠ v → ∀ y ∈ adjGet adj p, y ∈ st.stack → lowOf stc p ≤ idxOf stc y
  stack_rest : ∃ r0, stc.stack = (r0 ++ [v]) ++ st.stack ∧
    (∀ w ∈ r0 ++ [v], aget st.indices w = none) ∧
    (∀ w ∈ r0 ++ [v], lowOf stc v ≤ lowOf stc w) ∧
    (∀ w ∈ r0 ++ [v], w ≠ v → lowOf stc w < idxOf stc w)
  count_lt : unvisitedCount adj stc < unvisitedCount adj st

/-- The effective suffix key a library is tested against in `lib_allowed`
(lines 283-293): the stored extension, with the one-time `spm`
pseudo-suffix inference applied. -/
def extKey (annots : List (String × String)) (lm : List (String × LibMeta))
    (l : String) : String :=
  let meta := (aget lm l).getD LibMeta.empty
  let ext := strLower (meta.ext.getD "")
  let ext_key := if ext ≠ "" then ext else ""
  if urlCond annots l then (if meta.ext = none then "spm" else ext_key)
  else if meta.ext = some "spm" then "spm"
  else ext_key

/-- The pure decision of `lib_allowed`, with the state mutation factored
out: exclusion first, then inclusion, then the suffix tests against the
effective suffix key. -/
def lib_allowed_pure (include_libs exclude_libs : List (String → Bool))
    (inc_suf exc_suf : List String) (annots : List (String × String))
    (lm : List (String × LibMeta)) (l : String) : Bool :=
  if !exclude_libs.isEmpty && match_any exclude_libs l then false
  else if !include_libs.isEmpty && !match_any include_libs l then false
  else if inc_suf ≠ [] ∧ extKey annots lm l ∉ inc_suf then false
  else if exc_suf ≠ [] ∧ extKey annots lm l ∈ exc_suf then false
  else true

/-- The edge-survival predicate of `apply_filters` (lines 300-308), as a
pure function of the original graph state. -/
def keepEdge (g : Graph) (tA : String → Bool)
    (include_libs exclude_libs : List (String → Bool)) (inc_suf exc_suf : List String)
    (e : String × String) : Bool :=
  if e.1 ∈ g.target_nodes ∧ ¬ tA e.1 then false
  else if e.2 ∈ g.target_nodes ∧ ¬ tA e.2 then false
  else if e.2 ∈ g.lib_nodes then
    lib_allowed_pure include_libs exclude_libs inc_suf exc_suf g.annots g.lib_meta e.2
  else true

/-- Concrete graph used by several witnesses: one target `T`, one library
`L` registered system with extension `.a` and subtitle `sub`. -/
def gWit : Graph :=
  add_edge (add_lib (add_target Graph.empty "T") "L" (some "sub") true (some ".a")) "T" "L"

/-- Scenario D graph: target `App` linking library `UnitTestKit`. -/
def gD : Graph :=
  add_edge (add_lib (add_target Graph.empty "App") "UnitTestKit" none false
    (some ".framework")) "App" "UnitTestKit"

/-- The semantics of the compiled pattern `.*Test.*` under `re.search`:
the name contains `Test`. -/
def predTest : String → Bool := fun s => strContains s "Test"

/-- Two registered libraries with an edge from one to the other (no target
involved): exercises edges whose source is not a target. -/
def gLib2 : Graph :=
  add_edge (add_lib (add_lib Graph.empty "L1" none false none) "L2" none false none)
    "L1" "L2"

/-- A target linking a static archive `L` (`ext = ".a"`): exercises the
suffix filters. -/
def gSuf : Graph :=
  add_edge (add_lib (add_target Graph.empty "T") "L" none false (some ".a")) "T" "L"

/-- A target linking a package product `P` whose subtitle is a repository
URL and whose extension was never set: exercises the `spm` inference. -/
def gSpm : Graph :=
  add_edge (add_lib (add_target Graph.empty "T") "P" (some "https://github.com/x/y")
    false none) "T" "P"

/-- Trivial filter-configuration metadata for a no-filter pipeline run. -/
def fmeta0 : FiltersMeta := ⟨[], [], [], [], [], [], true, true, false⟩

/-- The pipeline on a fact list: construction, (trivial) filtering, cycle
detection. -/
def pipeline (fs : List Fact) : Graph :=
  mark_cycles (apply_filters (runFacts fs) [] [] [] [] [] [] true)

/-- The JSON export of a pipeline run at a given generation time. -/
def pipelinePayload (fs : List Fact) (generated_at : String) : Payload :=
  export_json (pipeline fs) generated_at "/repo" fmeta0 []

/-- The global DOT export of a pipeline run at a given generation time. -/
def pipelineDot (fs : List Fact) (now : String) : String :=
  to_dot (pipeline fs) [] true true now

/-- Two two-cycles (`A↔B`, `C↔D`), edge facts in one order … -/
def factsOrd1 : List Fact :=
  [.addTargetF "A", .addTargetF "B", .addTargetF "C", .addTargetF "D",
   .addEdgeF "A" "B", .addEdgeF "B" "A", .addEdgeF "C" "D", .addEdgeF "D" "C"]

/-- … and the same facts with the edge pairs swapped. -/
def factsOrd2 : List Fact :=
  [.addTargetF "A", .addTargetF "B", .addTargetF "C", .addTargetF "D",
   .addEdgeF "C" "D", .addEdgeF "D" "C", .addEdgeF "A" "B", .addEdgeF "B" "A"]

/-- Scenario B graph: targets `X`, `Y` with edges both ways. -/
def gB : Graph :=
  add_edge (add_edge (add_target (add_target Graph.empty "X") "Y") "X" "Y") "Y" "X"

/-- Scenario C graph: target `Z` with a self-loop. -/
def gC : Graph := add_edge (add_target Graph.empty "Z") "Z" "Z"

/-- Unfolding equation for `strongconnect` in terms of the named pieces. -/
theorem strongconnect_eq (adj : List (String × List String)) (fuel : Nat)
    (v : String) (st : TarjanSt) :
    strongconnect adj (fuel + 1) v st =
      scPop v ((adjGet adj v).foldl (scStep adj fuel v) (scPush v st)) := rfl

/-! ### Basic lemmas about the container primitives -/

theorem mem_setAdd {α : Type} [DecidableEq α] {xs : List α} {x y : α} :
    y ∈ setAdd xs x ↔ y ∈ xs ∨ y = x := by
  unfold setAdd
  split
  · constructor
    · exact Or.inl
    · rintro (h | rfl) <;> assumption
  · simp [List.mem_append]

theorem setAdd_idem {α : Type} [DecidableEq α] (xs : List α) (x : α) :
    setAdd (setAdd xs x) x = setAdd xs x := by
  unfold setAdd
  split
  · simp [*]
  · simp

theorem aget_aset_self {β : Type} (m : List (String × β)) (k : String) (v : β) :
    aget (aset m k v) k = some v := by
  induction m with
  | nil => simp [aset, aget]
  | cons h t ih =>
    obtain ⟨k', v'⟩ := h
    by_cases hk : k = k'
    · simp [aset, aget, hk]
    · simp [aset, aget, hk, ih]

theorem aget_aset_ne {β : Type} (m : List (String × β)) {k k' : String} (v : β)
    (h : k ≠ k') : aget (aset m k' v) k = aget m k := by
  induction m with
  | nil => simp [aset, aget, h]
  | cons hd t ih =>
    obtain ⟨k'', v''⟩ := hd
    by_cases hk : k' = k''
    · subst hk
      simp [aset, aget, h]
    · by_cases hkk : k = k''
      · simp [aset, aget, hk, hkk]
      · simp [aset, aget, hk, hkk, ih]

theorem aset_aset_self {β : Type} (m : List (String × β)) (k : String) (v w : β) :
    aset (aset m k v) k w = aset m k w := by
  induction m with
  | nil => simp [aset]
  | cons hd t ih =>
    obtain ⟨k', v'⟩ := hd
    by_cases hk : k = k'
    · simp [aset, hk]
    · simp [aset, hk, ih]

/-! ### Claim C6: idempotent registration, monotonic metadata -/

/-- The metadata record stored for `name` right after any `add_lib` call. -/
theorem aget_add_lib_lib_meta (g : Graph) (name : String) (subtitle : Option String)
    (is_system : Bool) (ext : Option String) :
    aget (add_lib g name subtitle is_system ext).lib_meta name =
      some (let meta0 := (aget g.lib_meta name).getD LibMeta.empty
            let meta1 := match ext with
              | some e => { meta0 with ext := some e }
              | none => meta0
            match meta1.is_system with
            | none => { meta1 with is_system := some is_system }
            | some b => { meta1 with is_system := some (b || is_system) }) := by
  unfold add_lib
  cases subtitle with
  | none => simp [aget_aset_self]
  | some s =>
    by_cases hs : s = ""
    · simp [hs, aget_aset_self]
    · simp [hs, aget_aset_self]

/-- C6: calling `add_target`, `add_lib` or `add_edge` twice with identical
arguments yields the same graph as calling it once, and library metadata
accumulates monotonically: `is_system` OR-combines across registrations and
a stored `ext` is not overwritten by a later absent value. -/
theorem C6_registration_idempotent_and_monotonic
    (g : Graph) (n : String) (sub : Option String) (sys : Bool)
    (ext : Option String) (a b : String) :
    add_target (add_target g n) n = add_target g n ∧
    add_lib (add_lib g n sub sys ext) n sub sys ext = add_lib g n sub sys ext ∧
    add_edge (add_edge g a b) a b = add_edge g a b ∧
    (∀ m, aget g.lib_meta n = some m → m.is_system = some true →
      ∃ m', aget (add_lib g n sub sys ext).lib_meta n = some m' ∧
        m'.is_system = some true) ∧
    (sys = true →
      ∃ m', aget (add_lib g n sub sys ext).lib_meta n = some m' ∧
        m'.is_system = some true) ∧
    (∀ m e, aget g.lib_meta n = some m → m.ext = some e →
      ∃ m', aget (add_lib g n sub sys none).lib_meta n = some m' ∧
        m'.ext = some e) := by
  refine ⟨?_, ?_, ?_, ?_, ?_, ?_⟩
  · simp [add_target, setAdd_idem]
  · have hmeta := aget_add_lib_lib_meta g n sub sys ext
    unfold add_lib
    cases sub with
    | none =>
      simp only at hmeta ⊢
      cases hx : (aget g.lib_meta n).getD LibMeta.empty with
      | mk msys mext =>
        simp only [hx] at hmeta ⊢
        cases ext with
        | none =>
          cases msys with
          | none =>
            simp_all [setAdd_idem, aset_aset_self, aget_aset_self, Bool.or_assoc, Bool.or_self]
          | some bb =>
            simp_all [setAdd_idem, aset_aset_self, aget_aset_self, Bool.or_assoc, Bool.or_self]
        | some e =>
          cases msys with
          | none =>
            simp_all [setAdd_idem, aset_aset_self, aget_aset_self, Bool.or_assoc, Bool.or_self]
          | some bb =>
            simp_all [setAdd_idem, aset_aset_self, aget_aset_self, Bool.or_assoc, Bool.or_self]
    | some s =>
      by_cases hs : s = ""
      · simp only [hs] at hmeta ⊢
        simp only [ne_eq, not_true_eq_false, if_false] at hmeta ⊢
        cases hx : (aget g.lib_meta n).getD LibMeta.empty with
        | mk msys mext =>
          simp only [hx] at hmeta ⊢
          cases ext with
          | none =>
            cases msys with
            | none => simp_all [setAdd_idem, aset_aset_self, aget_aset_self, Bool.or_assoc, Bool.or_self]
            | some bb => simp_all [setAdd_idem, aset_aset_self, aget_aset_self, Bool.or_assoc, Bool.or_self]
          | some e =>
            cases msys with
            | none => simp_all [setAdd_idem, aset_aset_self, aget_aset_self, Bool.or_assoc, Bool.or_self]
            | some bb => simp_all [setAdd_idem, aset_aset_self, aget_aset_self, Bool.or_assoc, Bool.or_self]
      · simp only [hs] at hmeta ⊢
        simp only [ne_eq, not_false_eq_true, if_true] at hmeta ⊢
        cases hx : (aget g.lib_meta n).getD LibMeta.empty with
        | mk msys mext =>
          simp only [hx] at hmeta ⊢
          cases ext with
          | none =>
            cases msys with
            | none => simp_all [setAdd_idem, aset_aset_self, aget_aset_self, Bool.or_assoc, Bool.or_self]
            | some bb => simp_all [setAdd_idem, aset_aset_self, aget_aset_self, Bool.or_assoc, Bool.or_self]
          | some e =>
            cases msys with
            | none => simp_all [setAdd_idem, aset_aset_self, aget_aset_self, Bool.or_assoc, Bool.or_self]
            | some bb => simp_all [setAdd_idem, aset_aset_self, aget_aset_self, Bool.or_assoc, Bool.or_self]
  · unfold add_edge
    by_cases h : a ≠ "" ∧ b ≠ "" <;> simp [h, setAdd_idem]
  · intro m hm hsys
    rw [aget_add_lib_lib_meta]
    refine ⟨_, rfl, ?_⟩
    simp only [hm, Option.getD_some]
    cases ext with
    | none => simp [hsys]
    | some e => simp [hsys]
  · intro hsys
    rw [aget_add_lib_lib_meta]
    refine ⟨_, rfl, ?_⟩
    cases hx : ((aget g.lib_meta n).getD LibMeta.empty) with
    | mk msys mext =>
      cases ext with
      | none =>
        cases msys with
        | none => simp [hsys]
        | some bb => simp [hsys]
      | some e =>
        cases msys with
        | none => simp [hsys]
        | some bb => simp [hsys]
  · intro m e hm hext
    rw [aget_add_lib_lib_meta]
    refine ⟨_, rfl, ?_⟩
    simp only [hm, Option.getD_some]
    cases hms : m.is_system with
    | none => simp [hext]
    | some bb => simp [hext]

/-- Witness for C6 at a concrete graph: re-registering `L` as non-system
with no extension keeps `is_system = true` and `ext = ".a"`. -/
theorem C6_witness :
    (∃ m', aget (add_lib gWit "L" none false none).lib_meta "L" = some m' ∧
      m'.is_system = some true) ∧
    (∃ m', aget (add_lib gWit "L" none false none).lib_meta "L" = some m' ∧
      m'.ext = some ".a") := by
  have h := C6_registration_idempotent_and_monotonic gWit "L" none false none "T" "L"
  refine ⟨h.2.2.2.1 ⟨some true, some ".a"⟩ (by decide) (by decide), ?_⟩
  exact h.2.2.2.2.2 ⟨some true, some ".a"⟩ ".a" (by decide) (by decide)

/-! ### Claim C10: subtitle last-non-empty-writer semantics -/

/-- C10: a later `add_lib` with an empty or absent subtitle leaves the
stored subtitle unchanged; a later non-empty subtitle replaces it. -/
theorem C10_subtitle_last_nonempty_writer_wins
    (g : Graph) (n : String) (sys : Bool) (ext : Option String) (s : String) :
    (add_lib g n none sys ext).annots = g.annots ∧
    (add_lib g n (some "") sys ext).annots = g.annots ∧
    (s ≠ "" → aget (add_lib g n (some s) sys ext).annots n = some s) := by
  refine ⟨?_, ?_, ?_⟩
  · simp [add_lib]
  · simp [add_lib]
  · intro hs
    simp [add_lib, hs, aget_aset_self]

/-- Witness for C10: registering `L` again with subtitle `"new"` replaces
the stored subtitle, while an absent subtitle would have kept `"sub"`. -/
theorem C10_witness :
    aget (add_lib gWit "L" (some "new") false none).annots "L" = some "new" := by
  exact (C10_subtitle_last_nonempty_writer_wins gWit "L" false none "new").2.2 (by decide)

/-! ### Factoring the stateful `lib_allowed` closure -/

/-- The first component of `lib_allowed_core` is the effective suffix key. -/
theorem lib_allowed_core_fst (annots : List (String × String))
    (lm : List (String × LibMeta)) (l : String) :
    (lib_allowed_core annots lm l).1 = extKey annots lm l := by
  simp only [lib_allowed_core, extKey]
  split_ifs <;> rfl

/-- The state produced by `lib_allowed_core`: unchanged, or the one-time
`spm` inference applied at the evaluated library. -/
theorem lib_allowed_core_snd (annots : List (String × String))
    (lm : List (String × LibMeta)) (l : String) :
    (lib_allowed_core annots lm l).2 = lm ∨
    (urlCond annots l = true ∧ ((aget lm l).getD LibMeta.empty).ext = none ∧
      (lib_allowed_core annots lm l).2 =
        aset lm l { (aget lm l).getD LibMeta.empty with ext := some "spm" }) := by
  simp only [lib_allowed_core]
  split_ifs with hu hx
  · exact Or.inr ⟨by simpa using hu, hx, rfl⟩
  all_goals exact Or.inl rfl

/-- The `lib_allowed` step's returned state is that of `lib_allowed_core`
when the pattern checks pass, and unchanged otherwise. -/
theorem lib_allowed_step_snd (incL excL : List (String → Bool)) (is es : List String)
    (annots : List (String × String)) (lm : List (String × LibMeta)) (l : String) :
    (lib_allowed_step incL excL is es annots lm l).2 = lm ∨
    (urlCond annots l = true ∧ ((aget lm l).getD LibMeta.empty).ext = none ∧
      (lib_allowed_step incL excL is es annots lm l).2 =
        aset lm l { (aget lm l).getD LibMeta.empty with ext := some "spm" }) := by
  unfold lib_allowed_step
  by_cases h1 : (!excL.isEmpty && match_any excL l) = true
  · rw [if_pos h1]
    exact Or.inl rfl
  rw [if_neg h1]
  by_cases h2 : (!incL.isEmpty && !match_any incL l) = true
  · rw [if_pos h2]
    exact Or.inl rfl
  rw [if_neg h2]
  have h2nd :
      (if is ≠ [] ∧ (lib_allowed_core annots lm l).1 ∉ is then
          (false, (lib_allowed_core annots lm l).2)
        else if es ≠ [] ∧ (lib_allowed_core annots lm l).1 ∈ es then
          (false, (lib_allowed_core annots lm l).2)
        else (true, (lib_allowed_core annots lm l).2)).2 =
      (lib_allowed_core annots lm l).2 := by
    split_ifs <;> rfl
  rw [h2nd]
  exact lib_allowed_core_snd annots lm l

/-- The decision returned by one `lib_allowed` evaluation equals the pure
decision against the effective suffix key. -/
theorem lib_allowed_step_fst (incL excL : List (String → Bool)) (is es : List String)
    (annots : List (String × String)) (lm : List (String × LibMeta)) (l : String) :
    (lib_allowed_step incL excL is es annots lm l).1 =
      lib_allowed_pure incL excL is es annots lm l := by
  unfold lib_allowed_step lib_allowed_pure
  by_cases h1 : (!excL.isEmpty && match_any excL l) = true
  · rw [if_pos h1, if_pos h1]
  rw [if_neg h1, if_neg h1]
  by_cases h2 : (!incL.isEmpty && !match_any incL l) = true
  · rw [if_pos h2, if_pos h2]
  rw [if_neg h2, if_neg h2]
  rw [← lib_allowed_core_fst annots lm l]
  show (if is ≠ [] ∧ (lib_allowed_core annots lm l).1 ∉ is then
        (false, (lib_allowed_core annots lm l).2)
      else if es ≠ [] ∧ (lib_allowed_core annots lm l).1 ∈ es then
        (false, (lib_allowed_core annots lm l).2)
      else (true, (lib_allowed_core annots lm l).2)).1 = _
  split_ifs <;> rfl

/-- Applying the `spm` inference at one library does not change any
effective suffix key. -/
theorem extKey_aset_spm (annots : List (String × String))
    (lm : List (String × LibMeta)) (l : String)
    (hu : urlCond annots l = true)
    (hx : ((aget lm l).getD LibMeta.empty).ext = none) (x : String) :
    extKey annots (aset lm l { (aget lm l).getD LibMeta.empty with ext := some "spm" }) x
      = extKey annots lm x := by
  by_cases hxl : x = l
  · subst hxl
    have hs : strLower "spm" = "spm" := by decide
    unfold extKey
    simp [aget_aset_self, hu, hx, hs]
  · unfold extKey
    rw [aget_aset_ne _ _ hxl]

/-- The pure decision depends on the metadata state only through the
effective suffix key. -/
theorem lib_allowed_pure_congr (incL excL : List (String → Bool)) (is es : List String)
    (annots : List (String × String)) (lm lm' : List (String × LibMeta)) (l : String)
    (h : extKey annots lm l = extKey annots lm' l) :
    lib_allowed_pure incL excL is es annots lm l =
      lib_allowed_pure incL excL is es annots lm' l := by
  unfold lib_allowed_pure
  rw [h]

/-- One `lib_allowed` evaluation leaves every effective suffix key
unchanged. -/
theorem extKey_after_step (incL excL : List (String → Bool)) (is es : List String)
    (annots : List (String × String)) (lm : List (String × LibMeta)) (l x : String) :
    extKey annots ((lib_allowed_step incL excL is es annots lm l).2) x =
      extKey annots lm x := by
  rcases lib_allowed_step_snd incL excL is es annots lm l with h | ⟨hu, hx, h⟩
  · rw [h]
  · rw [h]
    exact extKey_aset_spm annots lm l hu hx x

/-- A decision of `true` means neither pattern check fired. -/
theorem lib_allowed_step_fst_true_no_pattern_veto
    (incL excL : List (String → Bool)) (is es : List String)
    (annots : List (String × String)) (lm : List (String × LibMeta)) (l : String)
    (h : (lib_allowed_step incL excL is es annots lm l).1 = true) :
    (!excL.isEmpty && match_any excL l) = false ∧
    (!incL.isEmpty && !match_any incL l) = false := by
  unfold lib_allowed_step at h
  by_cases h1 : (!excL.isEmpty && match_any excL l) = true
  · rw [if_pos h1] at h
    simp at h
  rw [if_neg h1] at h
  by_cases h2 : (!incL.isEmpty && !match_any incL l) = true
  · rw [if_pos h2] at h
    simp at h
  exact ⟨by simpa using h1, by simpa using h2⟩

/-- When the pattern checks pass and the library has a URL-marked subtitle
with no stored extension, the evaluation records `ext = "spm"`. -/
theorem lib_allowed_step_snd_mutates
    (incL excL : List (String → Bool)) (is es : List String)
    (annots : List (String × String)) (lm : List (String × LibMeta)) (l : String)
    (hu : urlCond annots l = true)
    (hx : ((aget lm l).getD LibMeta.empty).ext = none)
    (hexc : (!excL.isEmpty && match_any excL l) = false)
    (hinc : (!incL.isEmpty && !match_any incL l) = false) :
    aget (lib_allowed_step incL excL is es annots lm l).2 l =
      some { (aget lm l).getD LibMeta.empty with ext := some "spm" } := by
  have h1 : ¬(!excL.isEmpty && match_any excL l) = true := by simp [hexc]
  have h2 : ¬(!incL.isEmpty && !match_any incL l) = true := by simp [hinc]
  have hcore : (lib_allowed_core annots lm l).2 =
      aset lm l { (aget lm l).getD LibMeta.empty with ext := some "spm" } := by
    simp only [lib_allowed_core]
    rw [if_pos hu, if_pos hx]
  unfold lib_allowed_step
  rw [if_neg h1, if_neg h2]
  have h2nd :
      (if is ≠ [] ∧ (lib_allowed_core annots lm l).1 ∉ is then
          (false, (lib_allowed_core annots lm l).2)
        else if es ≠ [] ∧ (lib_allowed_core annots lm l).1 ∈ es then
          (false, (lib_allowed_core annots lm l).2)
        else (true, (lib_allowed_core annots lm l).2)).2 =
      (lib_allowed_core annots lm l).2 := by
    split_ifs <;> rfl
  rw [h2nd, hcore, aget_aset_self]

/-- A recorded `spm` extension survives any later evaluation. -/
theorem lib_allowed_step_preserves
    (incL excL : List (String → Bool)) (is es : List String)
    (annots : List (String × String)) (lm : List (String × LibMeta)) (x l : String)
    (m : LibMeta) (hm : aget lm l = some m) (hext : m.ext = some "spm") :
    aget (lib_allowed_step incL excL is es annots lm x).2 l = some m := by
  rcases lib_allowed_step_snd incL excL is es annots lm x with h | ⟨hu, hx, h⟩
  · rw [h, hm]
  · rw [h]
    by_cases hxl : l = x
    · subst hxl
      rw [hm] at hx
      simp [hext] at hx
    · rw [aget_aset_ne _ _ hxl]
      exact hm

/-! ### Characterizing the edge-pruning fold of `apply_filters` -/

/-- The edge-step's state is either untouched or that of one `lib_allowed`
evaluation. -/
theorem filter_edge_step_snd (g : Graph) (tA : String → Bool)
    (incL excL : List (String → Bool)) (is es : List String)
    (acc : List (String × String) × List (String × LibMeta)) (e : String × String) :
    (filter_edge_step g tA incL excL is es acc e).2 = acc.2 ∨
    (filter_edge_step g tA incL excL is es acc e).2 =
      (lib_allowed_step incL excL is es g.annots acc.2 e.2).2 := by
  simp only [filter_edge_step]
  split_ifs <;> first | exact Or.inl rfl | exact Or.inr rfl

/-- The edge-step's surviving-edge list either stays or gains the edge. -/
theorem filter_edge_step_fst_cases (g : Graph) (tA : String → Bool)
    (incL excL : List (String → Bool)) (is es : List String)
    (acc : List (String × String) × List (String × LibMeta)) (e : String × String) :
    (filter_edge_step g tA incL excL is es acc e).1 = acc.1 ∨
    (filter_edge_step g tA incL excL is es acc e).1 = setAdd acc.1 e := by
  simp only [filter_edge_step]
  split_ifs <;> first | exact Or.inl rfl | exact Or.inr rfl

/-- Membership in the edge-step's surviving-edge list, expressed through
the pure edge-survival predicate (assuming the threaded state has the same
effective suffix keys as the original `lib_meta`). -/
theorem filter_edge_step_fst_mem (g : Graph) (tA : String → Bool)
    (incL excL : List (String → Bool)) (is es : List String)
    (acc : List (String × String) × List (String × LibMeta)) (e : String × String)
    (hinv : ∀ x, extKey g.annots acc.2 x = extKey g.annots g.lib_meta x)
    (e' : String × String) :
    e' ∈ (filter_edge_step g tA incL excL is es acc e).1 ↔
      e' ∈ acc.1 ∨ (e' = e ∧ keepEdge g tA incL excL is es e = true) := by
  have hdec : (lib_allowed_step incL excL is es g.annots acc.2 e.2).1 =
      lib_allowed_pure incL excL is es g.annots g.lib_meta e.2 := by
    rw [lib_allowed_step_fst]
    exact lib_allowed_pure_congr incL excL is es g.annots acc.2 g.lib_meta e.2 (hinv e.2)
  simp only [filter_edge_step, keepEdge]
  by_cases hA : e.1 ∈ g.target_nodes ∧ ¬ tA e.1 = true
  · simp only [if_pos hA]
    simp
  simp only [if_neg hA]
  by_cases hB : e.2 ∈ g.target_nodes ∧ ¬ tA e.2 = true
  · simp only [if_pos hB]
    simp
  simp only [if_neg hB]
  by_cases hC : e.2 ∈ g.lib_nodes
  · simp only [if_pos hC]
    rw [← hdec]
    by_cases hD : (lib_allowed_step incL excL is es g.annots acc.2 e.2).1 = true
    · simp only [if_pos hD, hD]
      simp [mem_setAdd]
    · simp only [if_neg hD]
      have hD' : (lib_allowed_step incL excL is es g.annots acc.2 e.2).1 = false := by
        simpa using hD
      simp [hD']
  · simp only [if_neg hC]
    simp [mem_setAdd]

/-- The `spm`-closure invariant on the threaded metadata state is
preserved by each edge step. -/
theorem filter_edge_step_Q (g : Graph) (tA : String → Bool)
    (incL excL : List (String → Bool)) (is es : List String)
    (acc : List (String × String) × List (String × LibMeta)) (e : String × String)
    (hQ : ∀ x, aget acc.2 x = aget g.lib_meta x ∨
      aget acc.2 x =
        some { (aget g.lib_meta x).getD LibMeta.empty with ext := some "spm" }) :
    ∀ x, aget (filter_edge_step g tA incL excL is es acc e).2 x = aget g.lib_meta x ∨
      aget (filter_edge_step g tA incL excL is es acc e).2 x =
        some { (aget g.lib_meta x).getD LibMeta.empty with ext := some "spm" } := by
  intro x
  rcases filter_edge_step_snd g tA incL excL is es acc e with h | h
  · rw [h]
    exact hQ x
  rw [h]
  rcases lib_allowed_step_snd incL excL is es g.annots acc.2 e.2 with h2 | ⟨hu, hx, h2⟩
  · rw [h2]
    exact hQ x
  rw [h2]
  by_cases hxe : x = e.2
  · subst hxe
    rw [aget_aset_self]
    rcases hQ e.2 with hq | hq
    · rw [hq] at hx ⊢
      exact Or.inr rfl
    · rw [hq] at hx
      simp at hx
  · rw [aget_aset_ne _ _ hxe]
    exact hQ x

/-- If the processed edge itself was newly added and points to a library,
the evaluation returned `true` and the state is that evaluation's. -/
theorem filter_edge_step_added (g : Graph) (tA : String → Bool)
    (incL excL : List (String → Bool)) (is es : List String)
    (acc : List (String × String) × List (String × LibMeta)) (e : String × String)
    (hlib : e.2 ∈ g.lib_nodes)
    (hmem : e ∈ (filter_edge_step g tA incL excL is es acc e).1)
    (hnot : e ∉ acc.1) :
    (lib_allowed_step incL excL is es g.annots acc.2 e.2).1 = true ∧
    (filter_edge_step g tA incL excL is es acc e).2 =
      (lib_allowed_step incL excL is es g.annots acc.2 e.2).2 := by
  simp only [filter_edge_step] at hmem ⊢
  by_cases hA : e.1 ∈ g.target_nodes ∧ ¬ tA e.1 = true
  · rw [if_pos hA] at hmem
    exact absurd hmem hnot
  simp only [if_neg hA] at hmem ⊢
  by_cases hB : e.2 ∈ g.target_nodes ∧ ¬ tA e.2 = true
  · rw [if_pos hB] at hmem
    exact absurd hmem hnot
  simp only [if_neg hB] at hmem ⊢
  simp only [if_pos hlib] at hmem ⊢
  by_cases hD : (lib_allowed_step incL excL is es g.annots acc.2 e.2).1 = true
  · simp only [if_pos hD] at hmem ⊢
    exact ⟨hD, by trivial⟩
  · rw [if_neg hD] at hmem
    exact absurd hmem hnot

/-- The edge-pruning fold computes exactly the edges surviving the pure
edge predicate (surviving-edge membership). -/
theorem filter_fold_edges_mem (g : Graph) (tA : String → Bool)
    (incL excL : List (String → Bool)) (is es : List String) :
    ∀ (l : List (String × String)) (acc : List (String × String) × List (String × LibMeta)),
      (∀ x, extKey g.annots acc.2 x = extKey g.annots g.lib_meta x) →
      ∀ e, e ∈ (l.foldl (filter_edge_step g tA incL excL is es) acc).1 ↔
        e ∈ acc.1 ∨ (e ∈ l ∧ keepEdge g tA incL excL is es e = true) := by
  intro l
  induction l with
  | nil =>
    intro acc _ e
    simp
  | cons hd tl ih =>
    intro acc hinv e
    rw [List.foldl_cons]
    have hinv' : ∀ x,
        extKey g.annots ((filter_edge_step g tA incL excL is es acc hd).2) x =
          extKey g.annots g.lib_meta x := by
      intro x
      rcases filter_edge_step_snd g tA incL excL is es acc hd with h | h
      · rw [h]
        exact hinv x
      · rw [h, extKey_after_step]
        exact hinv x
    rw [ih _ hinv' e,
      filter_edge_step_fst_mem g tA incL excL is es acc hd hinv e]
    by_cases he : e = hd <;> simp [he, List.mem_cons] <;> tauto

/-- Membership in one surviving-node collection step. -/
theorem kept_step_mem (g : Graph) (acc : List String × List String)
    (e : String × String) (x : String) :
    (x ∈ (kept_step g acc e).1 ↔
      x ∈ acc.1 ∨ (x = e.1 ∧ e.1 ∈ g.target_nodes) ∨ (x = e.2 ∧ e.2 ∈ g.target_nodes)) ∧
    (x ∈ (kept_step g acc e).2 ↔
      x ∈ acc.2 ∨ (x = e.2 ∧ e.2 ∈ g.lib_nodes)) := by
  simp only [kept_step]
  constructor
  · split_ifs <;> simp_all [mem_setAdd] <;> tauto
  · split_ifs <;> simp_all [mem_setAdd] <;> tauto

/-- Membership in the surviving-node collection fold (lines 311-319):
surviving targets and libraries are exactly the respective endpoints of
the surviving edges. -/
theorem kept_fold_mem (g : Graph) :
    ∀ (l : List (String × String)) (acc : List String × List String) (x : String),
      (x ∈ (l.foldl (kept_step g) acc).1 ↔
        x ∈ acc.1 ∨ ∃ e ∈ l, (x = e.1 ∧ e.1 ∈ g.target_nodes) ∨
          (x = e.2 ∧ e.2 ∈ g.target_nodes)) ∧
      (x ∈ (l.foldl (kept_step g) acc).2 ↔
        x ∈ acc.2 ∨ ∃ e ∈ l, x = e.2 ∧ e.2 ∈ g.lib_nodes) := by
  intro l
  induction l with
  | nil =>
    intro acc x
    simp
  | cons hd tl ih =>
    intro acc x
    rw [List.foldl_cons]
    constructor
    · rw [(ih _ x).1, (kept_step_mem g acc hd x).1]
      simp only [List.mem_cons, exists_eq_or_imp]
      aesop
    · rw [(ih _ x).2, (kept_step_mem g acc hd x).2]
      simp only [List.mem_cons, exists_eq_or_imp]
      aesop

/-- Membership in the isolated-allowed-target fold (lines 320-323). -/
theorem iso_fold_mem (tA : String → Bool) :
    ∀ (l : List String) (kt : List String) (x : String),
      x ∈ l.foldl (iso_step tA) kt ↔
        x ∈ kt ∨ (x ∈ l ∧ tA x = true) := by
  intro l
  induction l with
  | nil =>
    intro kt x
    simp
  | cons hd tl ih =>
    intro kt x
    rw [List.foldl_cons, ih]
    have hstep : x ∈ iso_step tA kt hd ↔
        x ∈ kt ∨ (x = hd ∧ tA hd = true) := by
      unfold iso_step
      split_ifs with h
      · simp only [List.mem_append, List.mem_singleton]
        constructor
        · rintro (hx | rfl)
          · exact Or.inl hx
          · exact Or.inr ⟨rfl, h.1⟩
        · rintro (hx | ⟨rfl, _⟩)
          · exact Or.inl hx
          · exact Or.inr rfl
      · rw [not_and_or, not_not] at h
        constructor
        · exact Or.inl
        · rintro (hx | ⟨rfl, hta⟩)
          · exact hx
          · rcases h with h | h
            · exact absurd hta h
            · exact h
    rw [hstep]
    simp only [List.mem_cons]
    constructor
    · rintro ((hx | ⟨rfl, hta⟩) | ⟨hx, hta⟩)
      · exact Or.inl hx
      · exact Or.inr ⟨Or.inl rfl, hta⟩
      · exact Or.inr ⟨Or.inr hx, hta⟩
    · rintro (hx | ⟨(rfl | hx), hta⟩)
      · exact Or.inl (Or.inl hx)
      · exact Or.inl (Or.inr ⟨rfl, hta⟩)
      · exact Or.inr ⟨hx, hta⟩

/-- Lookup in a key-filtered association list. -/
theorem aget_filter {β : Type} (m : List (String × β)) (ks : List String) (k : String) :
    aget (m.filter (fun kv => decide (kv.1 ∈ ks))) k =
      if k ∈ ks then aget m k else none := by
  induction m with
  | nil => simp [aget]
  | cons hd t ih =>
    obtain ⟨k', v⟩ := hd
    by_cases hk' : k' ∈ ks
    · by_cases hkk : k = k'
      · subst hkk
        simp [List.filter_cons, hk', aget]
      · simp [List.filter_cons, hk', aget, hkk, ih]
    · by_cases hkk : k = k'
      · subst hkk
        simp [List.filter_cons, hk', aget, ih]
      · simp [List.filter_cons, hk', aget, hkk, ih]

/-! ### `apply_filters` component equations and membership lemmas -/

/-- The edge set after `apply_filters` is the first component of the
edge-pruning fold. -/
theorem apply_filters_edges_eq (g : Graph)
    (incT excT incL excL : List (String → Bool)) (incS excS : List String)
    (keep : Bool) :
    (apply_filters g incT excT incL excL incS excS keep).edges =
      (g.edges.foldl
        (filter_edge_step g (target_allowed incT excT) incL excL
          (incS.map strLower) (excS.map strLower)) ([], g.lib_meta)).1 := rfl

/-- The surviving-library set after `apply_filters`. -/
theorem apply_filters_lib_nodes_eq (g : Graph)
    (incT excT incL excL : List (String → Bool)) (incS excS : List String)
    (keep : Bool) :
    (apply_filters g incT excT incL excL incS excS keep).lib_nodes =
      ((g.edges.foldl
        (filter_edge_step g (target_allowed incT excT) incL excL
          (incS.map strLower) (excS.map strLower)) ([], g.lib_meta)).1.foldl
        (kept_step g) ([], [])).2 := rfl

/-- The surviving-target set after `apply_filters`. -/
theorem apply_filters_target_nodes_eq (g : Graph)
    (incT excT incL excL : List (String → Bool)) (incS excS : List String)
    (keep : Bool) :
    (apply_filters g incT excT incL excL incS excS keep).target_nodes =
      (if keep then
        g.target_nodes.foldl (iso_step (target_allowed incT excT))
          ((g.edges.foldl
            (filter_edge_step g (target_allowed incT excT) incL excL
              (incS.map strLower) (excS.map strLower)) ([], g.lib_meta)).1.foldl
            (kept_step g) ([], [])).1
      else
        ((g.edges.foldl
          (filter_edge_step g (target_allowed incT excT) incL excL
            (incS.map strLower) (excS.map strLower)) ([], g.lib_meta)).1.foldl
          (kept_step g) ([], [])).1) := rfl

/-- The metadata map after `apply_filters`: the threaded state, restricted
to the surviving libraries. -/
theorem apply_filters_lib_meta_eq (g : Graph)
    (incT excT incL excL : List (String → Bool)) (incS excS : List String)
    (keep : Bool) :
    (apply_filters g incT excT incL excL incS excS keep).lib_meta =
      (g.edges.foldl
        (filter_edge_step g (target_allowed incT excT) incL excL
          (incS.map strLower) (excS.map strLower)) ([], g.lib_meta)).2.filter
        (fun kv => decide (kv.1 ∈
          ((g.edges.foldl
            (filter_edge_step g (target_allowed incT excT) incL excL
              (incS.map strLower) (excS.map strLower)) ([], g.lib_meta)).1.foldl
            (kept_step g) ([], [])).2)) := rfl

/-- Membership in the filtered edge set: exactly the original edges that
survive the pure edge predicate. -/
theorem apply_filters_edges_mem (g : Graph)
    (incT excT incL excL : List (String → Bool)) (incS excS : List String)
    (keep : Bool) (e : String × String) :
    e ∈ (apply_filters g incT excT incL excL incS excS keep).edges ↔
      e ∈ g.edges ∧ keepEdge g (target_allowed incT excT) incL excL
        (incS.map strLower) (excS.map strLower) e = true := by
  rw [apply_filters_edges_eq,
    filter_fold_edges_mem g (target_allowed incT excT) incL excL
      (incS.map strLower) (excS.map strLower) g.edges ([], g.lib_meta)
      (fun _ => rfl) e]
  simp

/-- Membership in the filtered library set: exactly the library
destinations of surviving edges. -/
theorem apply_filters_lib_nodes_mem (g : Graph)
    (incT excT incL excL : List (String → Bool)) (incS excS : List String)
    (keep : Bool) (x : String) :
    x ∈ (apply_filters g incT excT incL excL incS excS keep).lib_nodes ↔
      ∃ e ∈ (apply_filters g incT excT incL excL incS excS keep).edges,
        x = e.2 ∧ e.2 ∈ g.lib_nodes := by
  rw [apply_filters_lib_nodes_eq, ← apply_filters_edges_eq g incT excT incL excL incS excS keep,
    (kept_fold_mem g _ ([], []) x).2]
  simp

/-- Membership in the filtered target set: the target endpoints of
surviving edges, plus (when requested) every allowed target. -/
theorem apply_filters_target_nodes_mem (g : Graph)
    (incT excT incL excL : List (String → Bool)) (incS excS : List String)
    (keep : Bool) (x : String) :
    x ∈ (apply_filters g incT excT incL excL incS excS keep).target_nodes ↔
      (∃ e ∈ (apply_filters g incT excT incL excL incS excS keep).edges,
        (x = e.1 ∧ e.1 ∈ g.target_nodes) ∨ (x = e.2 ∧ e.2 ∈ g.target_nodes)) ∨
      (keep = true ∧ x ∈ g.target_nodes ∧ target_allowed incT excT x = true) := by
  rw [apply_filters_target_nodes_eq, ← apply_filters_edges_eq g incT excT incL excL incS excS keep]
  cases keep with
  | false =>
    rw [if_neg (by simp)]
    rw [(kept_fold_mem g _ ([], []) x).1]
    simp
  | true =>
    rw [if_pos rfl]
    rw [iso_fold_mem, (kept_fold_mem g _ ([], []) x).1]
    simp

/-- The state-threading fold preserves the `spm`-closure invariant and
records the inference for every library with a surviving edge. -/
theorem filter_fold_PQ (g : Graph) (tA : String → Bool)
    (incL excL : List (String → Bool)) (is es : List String) :
    ∀ (l : List (String × String)) (acc : List (String × String) × List (String × LibMeta)),
      (∀ x, aget acc.2 x = aget g.lib_meta x ∨
        aget acc.2 x =
          some { (aget g.lib_meta x).getD LibMeta.empty with ext := some "spm" }) →
      (∀ lb, lb ∈ g.lib_nodes → urlCond g.annots lb = true →
        ((aget g.lib_meta lb).getD LibMeta.empty).ext = none →
        (∃ e ∈ acc.1, e.2 = lb) →
        aget acc.2 lb =
          some { (aget g.lib_meta lb).getD LibMeta.empty with ext := some "spm" }) →
      (∀ x, aget (l.foldl (filter_edge_step g tA incL excL is es) acc).2 x =
          aget g.lib_meta x ∨
        aget (l.foldl (filter_edge_step g tA incL excL is es) acc).2 x =
          some { (aget g.lib_meta x).getD LibMeta.empty with ext := some "spm" }) ∧
      (∀ lb, lb ∈ g.lib_nodes → urlCond g.annots lb = true →
        ((aget g.lib_meta lb).getD LibMeta.empty).ext = none →
        (∃ e ∈ (l.foldl (filter_edge_step g tA incL excL is es) acc).1, e.2 = lb) →
        aget (l.foldl (filter_edge_step g tA incL excL is es) acc).2 lb =
          some { (aget g.lib_meta lb).getD LibMeta.empty with ext := some "spm" }) := by
  intro l
  induction l with
  | nil =>
    intro acc hQ hP
    exact ⟨hQ, hP⟩
  | cons hd tl ih =>
    intro acc hQ hP
    rw [List.foldl_cons]
    have hQ' := filter_edge_step_Q g tA incL excL is es acc hd hQ
    have hP' : ∀ lb, lb ∈ g.lib_nodes → urlCond g.annots lb = true →
        ((aget g.lib_meta lb).getD LibMeta.empty).ext = none →
        (∃ e ∈ (filter_edge_step g tA incL excL is es acc hd).1, e.2 = lb) →
        aget (filter_edge_step g tA incL excL is es acc hd).2 lb =
          some { (aget g.lib_meta lb).getD LibMeta.empty with ext := some "spm" } := by
      intro lb hlib hurl hext ⟨e, hemem, he2⟩
      by_cases hacc : e ∈ acc.1
      · have hold := hP lb hlib hurl hext ⟨e, hacc, he2⟩
        rcases filter_edge_step_snd g tA incL excL is es acc hd with h | h
        · rw [h]
          exact hold
        · rw [h]
          exact lib_allowed_step_preserves incL excL is es g.annots acc.2 hd.2 lb
            _ hold rfl
      · have hehd : e = hd := by
          rcases filter_edge_step_fst_cases g tA incL excL is es acc hd with h | h
          · rw [h] at hemem
            exact absurd hemem hacc
          · rw [h] at hemem
            rcases mem_setAdd.mp hemem with h' | h'
            · exact absurd h' hacc
            · exact h'
        subst hehd
        subst he2
        have hadd := filter_edge_step_added g tA incL excL is es acc e hlib hemem hacc
        rw [hadd.2]
        have hveto := lib_allowed_step_fst_true_no_pattern_veto incL excL is es
          g.annots acc.2 e.2 hadd.1
        rcases hQ e.2 with hq | hq
        · have := lib_allowed_step_snd_mutates incL excL is es g.annots acc.2 e.2
            hurl (by rw [hq]; exact hext) hveto.1 hveto.2
          rw [this, hq]
        · exact lib_allowed_step_preserves incL excL is es g.annots acc.2 e.2 e.2
            _ hq rfl
    exact ih _ hQ' hP'

/-- After `apply_filters`, every surviving library that triggered the
`spm` inference carries the persisted `ext = "spm"` metadata. -/
theorem apply_filters_lib_meta_spm (g : Graph)
    (incT excT incL excL : List (String → Bool)) (incS excS : List String)
    (keep : Bool) (l : String)
    (hl : l ∈ (apply_filters g incT excT incL excL incS excS keep).lib_nodes)
    (hurl : urlCond g.annots l = true)
    (hext : ((aget g.lib_meta l).getD LibMeta.empty).ext = none) :
    aget (apply_filters g incT excT incL excL incS excS keep).lib_meta l =
      some { (aget g.lib_meta l).getD LibMeta.empty with ext := some "spm" } := by
  have hl' := hl
  rw [apply_filters_lib_nodes_mem] at hl'
  obtain ⟨e, hemem, he2, helib⟩ := hl'
  rw [apply_filters_lib_meta_eq, aget_filter]
  rw [apply_filters_lib_nodes_eq] at hl
  rw [if_pos hl]
  have hPQ := filter_fold_PQ g (target_allowed incT excT) incL excL
    (incS.map strLower) (excS.map strLower) g.edges ([], g.lib_meta)
    (fun _ => Or.inl rfl) (by intro lb _ _ _ h; simp at h)
  have hlib : l ∈ g.lib_nodes := he2 ▸ helib
  rw [apply_filters_edges_eq] at hemem
  exact hPQ.2 l hlib hurl hext ⟨e, hemem, he2.symm⟩

/-! ### Allow-predicate characterizations -/

/-- A target name matching an exclude pattern is always disallowed. -/
theorem target_allowed_of_excluded (incT excT : List (String → Bool)) (t : String)
    (h : match_any excT t = true) : target_allowed incT excT t = false := by
  have hne : excT.isEmpty = false := by
    cases excT with
    | nil => simp [match_any] at h
    | cons a as => rfl
  simp [target_allowed, h, hne]

/-- An unexcluded target name is allowed iff the include list is empty or
matched. -/
theorem target_allowed_of_not_excluded (incT excT : List (String → Bool)) (t : String)
    (h : match_any excT t = false) :
    target_allowed incT excT t = true ↔ (incT = [] ∨ match_any incT t = true) := by
  unfold target_allowed
  rw [h]
  simp only [Bool.and_false, Bool.false_eq_true, if_false]
  cases incT with
  | nil => simp
  | cons a as => simp

/-- A library name matching an exclude pattern always gets a `false`
decision. -/
theorem lib_allowed_pure_of_excluded (incL excL : List (String → Bool))
    (is es : List String) (annots : List (String × String))
    (lm : List (String × LibMeta)) (l : String)
    (h : match_any excL l = true) :
    lib_allowed_pure incL excL is es annots lm l = false := by
  have hne : excL.isEmpty = false := by
    cases excL with
    | nil => simp [match_any] at h
    | cons a as => rfl
  simp [lib_allowed_pure, h, hne]

/-- An unexcluded library name is allowed iff the include list passes and
the effective suffix key passes both suffix filters. -/
theorem lib_allowed_pure_of_not_excluded (incL excL : List (String → Bool))
    (is es : List String) (annots : List (String × String))
    (lm : List (String × LibMeta)) (l : String)
    (h : match_any excL l = false) :
    lib_allowed_pure incL excL is es annots lm l = true ↔
      ((incL = [] ∨ match_any incL l = true) ∧
       (is ≠ [] → extKey annots lm l ∈ is) ∧
       (es ≠ [] → extKey annots lm l ∉ es)) := by
  unfold lib_allowed_pure
  rw [h]
  simp only [Bool.and_false, Bool.false_eq_true, if_false]
  by_cases hm : match_any incL l = true
  · have hconds : ¬ (!incL.isEmpty && !match_any incL l) = true := by simp [hm]
    rw [if_neg hconds]
    split_ifs with h1 h2 <;> simp_all <;> tauto
  · have hm' : match_any incL l = false := by simpa using hm
    cases incL with
    | nil =>
      simp only [List.isEmpty_nil, Bool.not_true, Bool.false_and,
        Bool.false_eq_true, if_false]
      split_ifs with h1 h2 <;> simp_all <;> tauto
    | cons a as =>
      have hconds : (!(a :: as).isEmpty && !match_any (a :: as) l) = true := by
        simp [hm']
      rw [if_pos hconds]
      simp [hm']

/-! ### Claim C4: include/exclude precedence of the allow predicates -/

/-- C4 counterexample: with no exclude patterns and an empty include list
the claim says the library is allowed, but the code's `lib_allowed`
rejects `L` (stored extension `.a`) when `.a` is an excluded suffix; the
edge to `L` is pruned accordingly. -/
theorem C4_counterexample :
    match_any [] "L" = false ∧
    (lib_allowed_step [] [] [] [".a"] gSuf.annots gSuf.lib_meta "L").1 = false ∧
    ("T", "L") ∈ gSuf.edges ∧
    (apply_filters gSuf [] [] [] [] [] [".a"] true).edges = [] := by
  exact ⟨rfl, by decide, by decide, by decide⟩

/-- C4 (amended): the allow predicates evaluate exclusion before
inclusion, exclusion winning; an unexcluded target name is allowed iff the
include list is empty or matched, and an unexcluded library name is
additionally allowed only if its effective suffix key (the stored
extension, or the inferred `spm` pseudo-suffix) passes the nonempty
suffix filters. -/
theorem C4_exclude_wins_and_suffix_gate
    (incT excT incL excL : List (String → Bool)) (is es : List String)
    (annots : List (String × String)) (lm : List (String × LibMeta)) (t l : String) :
    (match_any excT t = true → target_allowed incT excT t = false) ∧
    (match_any excT t = false →
      (target_allowed incT excT t = true ↔ (incT = [] ∨ match_any incT t = true))) ∧
    (match_any excL l = true →
      (lib_allowed_step incL excL is es annots lm l).1 = false) ∧
    (match_any excL l = false →
      ((lib_allowed_step incL excL is es annots lm l).1 = true ↔
        ((incL = [] ∨ match_any incL l = true) ∧
         (is ≠ [] → extKey annots lm l ∈ is) ∧
         (es ≠ [] → extKey annots lm l ∉ es)))) := by
  refine ⟨fun h => target_allowed_of_excluded incT excT t h,
    fun h => target_allowed_of_not_excluded incT excT t h, fun h => ?_, fun h => ?_⟩
  · rw [lib_allowed_step_fst]
    exact lib_allowed_pure_of_excluded incL excL is es annots lm l h
  · rw [lib_allowed_step_fst]
    exact lib_allowed_pure_of_not_excluded incL excL is es annots lm l h

/-- Witness for C4 at concrete inputs: the excluded library
`UnitTestKit` is rejected, and with empty pattern lists the target `App`
is allowed. -/
theorem C4_witness :
    (lib_allowed_step [] [predTest] [] [] gD.annots gD.lib_meta "UnitTestKit").1 = false ∧
    target_allowed [] [] "App" = true := by
  have h := C4_exclude_wins_and_suffix_gate [] [] [] [predTest] [] []
    gD.annots gD.lib_meta "App" "UnitTestKit"
  exact ⟨h.2.2.1 (by decide), (h.2.1 (by decide)).mpr (Or.inl rfl)⟩

/-! ### Claim C3: isolated allowed targets kept, isolated libraries dropped -/

/-- C3: with `keep_isolated_included_targets = true` every allowed target
survives even with no edges; a surviving library always has a surviving
edge into it (libraries are never kept isolated).  Scenario D: excluding
`.*Test.*` removes `UnitTestKit` and its edge while `App` stays isolated. -/
theorem C3_keep_isolated_targets_never_isolated_libs
    (g : Graph) (incT excT incL excL : List (String → Bool))
    (incS excS : List String) (keep : Bool) :
    (∀ t, t ∈ g.target_nodes → target_allowed incT excT t = true →
      t ∈ (apply_filters g incT excT incL excL incS excS true).target_nodes) ∧
    (∀ l, l ∈ (apply_filters g incT excT incL excL incS excS keep).lib_nodes →
      l ∈ g.lib_nodes ∧
      ∃ e ∈ (apply_filters g incT excT incL excL incS excS keep).edges, e.2 = l) ∧
    (apply_filters gD [] [] [] [predTest] [] [] true).target_nodes = ["App"] ∧
    (apply_filters gD [] [] [] [predTest] [] [] true).lib_nodes = [] ∧
    (apply_filters gD [] [] [] [predTest] [] [] true).edges = [] := by
  refine ⟨?_, ?_, by decide, by decide, by decide⟩
  · intro t ht hA
    rw [apply_filters_target_nodes_mem]
    exact Or.inr ⟨rfl, ht, hA⟩
  · intro l hl
    rw [apply_filters_lib_nodes_mem] at hl
    obtain ⟨e, hemem, he2, helib⟩ := hl
    exact ⟨he2 ▸ helib, e, hemem, he2.symm⟩

/-- Witness for C3: `App` is retained as an isolated node in Scenario D. -/
theorem C3_witness :
    "App" ∈ (apply_filters gD [] [] [] [predTest] [] [] true).target_nodes := by
  exact (C3_keep_isolated_targets_never_isolated_libs gD [] [] [] [predTest]
    [] [] true).1 "App" (by decide) (by decide)

/-! ### Claim C2: filter soundness -/

/-- Equivalence of the pure edge predicate with the claim's
endpoint-by-endpoint reading. -/
theorem keepEdge_true_iff (g : Graph) (tA : String → Bool)
    (incL excL : List (String → Bool)) (is es : List String) (e : String × String) :
    keepEdge g tA incL excL is es e = true ↔
      ((e.1 ∈ g.target_nodes → tA e.1 = true) ∧
       (e.2 ∈ g.target_nodes → tA e.2 = true) ∧
       (e.2 ∈ g.lib_nodes →
         lib_allowed_pure incL excL is es g.annots g.lib_meta e.2 = true)) := by
  unfold keepEdge
  split_ifs with hA hB hC
  · simp only [Bool.false_eq_true, false_iff]
    rintro ⟨h1, -, -⟩
    exact hA.2 (h1 hA.1)
  · simp only [Bool.false_eq_true, false_iff]
    rintro ⟨-, h2, -⟩
    exact hB.2 (h2 hB.1)
  · have h1 : e.1 ∈ g.target_nodes → tA e.1 = true := by
      intro hm
      by_contra hcon
      exact hA ⟨hm, hcon⟩
    have h2 : e.2 ∈ g.target_nodes → tA e.2 = true := by
      intro hm
      by_contra hcon
      exact hB ⟨hm, hcon⟩
    constructor
    · intro hval
      exact ⟨h1, h2, fun _ => hval⟩
    · rintro ⟨-, -, h3⟩
      exact h3 hC
  · have h1 : e.1 ∈ g.target_nodes → tA e.1 = true := by
      intro hm
      by_contra hcon
      exact hA ⟨hm, hcon⟩
    have h2 : e.2 ∈ g.target_nodes → tA e.2 = true := by
      intro hm
      by_contra hcon
      exact hB ⟨hm, hcon⟩
    simp only [true_iff]
    exact ⟨h1, h2, fun hc => absurd hc hC⟩

/-- C2 counterexample: in a graph whose edge `("L1","L2")` runs between
two registered libraries, the edge survives trivial filters but its
source `L1` is dropped from both surviving node sets — a dangling edge,
refuting the claim as stated (all endpoints are registered here). -/
theorem C2_counterexample :
    gLib2.lib_nodes = ["L1", "L2"] ∧
    gLib2.target_nodes = [] ∧
    (apply_filters gLib2 [] [] [] [] [] [] true).edges = [("L1", "L2")] ∧
    (apply_filters gLib2 [] [] [] [] [] [] true).target_nodes = [] ∧
    (apply_filters gLib2 [] [] [] [] [] [] true).lib_nodes = ["L2"] := by
  exact ⟨by decide, by decide, by decide, by decide, by decide⟩

/-- C2 (amended): filter soundness under the data-model invariants (edge
sources are registered targets, destinations are registered, and the
target/library namespaces are disjoint): the surviving edges are exactly
the original edges whose endpoints pass the predicates, the surviving node
sets are exactly the endpoints of surviving edges (plus isolated allowed
targets when requested), and no surviving edge dangles. -/
theorem C2_filter_soundness
    (g : Graph) (incT excT incL excL : List (String → Bool))
    (incS excS : List String) (keep : Bool)
    (hsrc : ∀ e ∈ g.edges, e.1 ∈ g.target_nodes)
    (hdst : ∀ e ∈ g.edges, e.2 ∈ g.target_nodes ∨ e.2 ∈ g.lib_nodes)
    (hdisj : ∀ n, n ∈ g.target_nodes → n ∉ g.lib_nodes) :
    (∀ e, e ∈ (apply_filters g incT excT incL excL incS excS keep).edges ↔
      e ∈ g.edges ∧
      (e.1 ∈ g.target_nodes → target_allowed incT excT e.1 = true) ∧
      (e.2 ∈ g.target_nodes → target_allowed incT excT e.2 = true) ∧
      (e.2 ∈ g.lib_nodes → lib_allowed_pure incL excL (incS.map strLower)
        (excS.map strLower) g.annots g.lib_meta e.2 = true)) ∧
    (∀ x, x ∈ (apply_filters g incT excT incL excL incS excS keep).target_nodes ↔
      (x ∈ g.target_nodes ∧
        ∃ e ∈ (apply_filters g incT excT incL excL incS excS keep).edges,
          x = e.1 ∨ x = e.2) ∨
      (keep = true ∧ x ∈ g.target_nodes ∧ target_allowed incT excT x = true)) ∧
    (∀ x, x ∈ (apply_filters g incT excT incL excL incS excS keep).lib_nodes ↔
      x ∈ g.lib_nodes ∧
        ∃ e ∈ (apply_filters g incT excT incL excL incS excS keep).edges,
          x = e.1 ∨ x = e.2) ∧
    (∀ e ∈ (apply_filters g incT excT incL excL incS excS keep).edges,
      (e.1 ∈ (apply_filters g incT excT incL excL incS excS keep).target_nodes ∨
        e.1 ∈ (apply_filters g incT excT incL excL incS excS keep).lib_nodes) ∧
      (e.2 ∈ (apply_filters g incT excT incL excL incS excS keep).target_nodes ∨
        e.2 ∈ (apply_filters g incT excT incL excL incS excS keep).lib_nodes)) := by
  have hedge : ∀ e, e ∈ (apply_filters g incT excT incL excL incS excS keep).edges ↔
      e ∈ g.edges ∧
      (e.1 ∈ g.target_nodes → target_allowed incT excT e.1 = true) ∧
      (e.2 ∈ g.target_nodes → target_allowed incT excT e.2 = true) ∧
      (e.2 ∈ g.lib_nodes → lib_allowed_pure incL excL (incS.map strLower)
        (excS.map strLower) g.annots g.lib_meta e.2 = true) := by
    intro e
    rw [apply_filters_edges_mem, keepEdge_true_iff]
  have htgt : ∀ x, x ∈ (apply_filters g incT excT incL excL incS excS keep).target_nodes ↔
      (x ∈ g.target_nodes ∧
        ∃ e ∈ (apply_filters g incT excT incL excL incS excS keep).edges,
          x = e.1 ∨ x = e.2) ∨
      (keep = true ∧ x ∈ g.target_nodes ∧ target_allowed incT excT x = true) := by
    intro x
    rw [apply_filters_target_nodes_mem]
    constructor
    · rintro (⟨e, hemem, (⟨rfl, hT⟩ | ⟨rfl, hT⟩)⟩ | hiso)
      · exact Or.inl ⟨hT, e, hemem, Or.inl rfl⟩
      · exact Or.inl ⟨hT, e, hemem, Or.inr rfl⟩
      · exact Or.inr hiso
    · rintro (⟨hT, e, hemem, (rfl | rfl)⟩ | hiso)
      · exact Or.inl ⟨e, hemem, Or.inl ⟨rfl, hT⟩⟩
      · exact Or.inl ⟨e, hemem, Or.inr ⟨rfl, hT⟩⟩
      · exact Or.inr hiso
  have hlib : ∀ x, x ∈ (apply_filters g incT excT incL excL incS excS keep).lib_nodes ↔
      x ∈ g.lib_nodes ∧
        ∃ e ∈ (apply_filters g incT excT incL excL incS excS keep).edges,
          x = e.1 ∨ x = e.2 := by
    intro x
    rw [apply_filters_lib_nodes_mem]
    constructor
    · rintro ⟨e, hemem, rfl, hL⟩
      exact ⟨hL, e, hemem, Or.inr rfl⟩
    · rintro ⟨hL, e, hemem, (rfl | rfl)⟩
      · have hge : e ∈ g.edges := ((hedge e).mp hemem).1
        exact absurd hL (hdisj e.1 (hsrc e hge))
      · exact ⟨e, hemem, rfl, hL⟩
  refine ⟨hedge, htgt, hlib, ?_⟩
  intro e hemem
  have hge : e ∈ g.edges := ((hedge e).mp hemem).1
  constructor
  · exact Or.inl ((htgt e.1).mpr (Or.inl ⟨hsrc e hge, e, hemem, Or.inl rfl⟩))
  · rcases hdst e hge with hT | hL
    · exact Or.inl ((htgt e.2).mpr (Or.inl ⟨hT, e, hemem, Or.inr rfl⟩))
    · exact Or.inr ((hlib e.2).mpr ⟨hL, e, hemem, Or.inr rfl⟩)

/-- Witness for C2: in Scenario D's graph with trivial predicates the
edge survives and both endpoints remain present. -/
theorem C2_witness :
    ("App", "UnitTestKit") ∈ (apply_filters gD [] [] [] [] [] [] true).edges := by
  have h := C2_filter_soundness gD [] [] [] [] [] [] true
    (by decide) (by decide) (by decide)
  exact (h.1 ("App", "UnitTestKit")).mpr ⟨by decide, by decide, by decide, by decide⟩

/-! ### Claim C7: the `spm` pseudo-kind inference -/

/-- C7: a library whose subtitle carries a URL marker and whose extension
was never set is tested against the pseudo-suffix `"spm"`, the inference
is recorded in the metadata during the evaluation (when the pattern checks
pass), it changes no other effective key, and `apply_filters` persists it
for every surviving library. -/
theorem C7_spm_pseudo_kind_inference
    (g : Graph) (incT excT incL excL : List (String → Bool))
    (incS excS : List String) (is es : List String) (keep : Bool) (l : String)
    (hurl : urlCond g.annots l = true)
    (hext : ((aget g.lib_meta l).getD LibMeta.empty).ext = none) :
    extKey g.annots g.lib_meta l = "spm" ∧
    (lib_allowed_step incL excL is es g.annots g.lib_meta l).1 =
      lib_allowed_pure incL excL is es g.annots g.lib_meta l ∧
    (∀ x, extKey g.annots (lib_allowed_step incL excL is es g.annots g.lib_meta l).2 x =
      extKey g.annots g.lib_meta x) ∧
    ((!excL.isEmpty && match_any excL l) = false →
      (!incL.isEmpty && !match_any incL l) = false →
      aget (lib_allowed_step incL excL is es g.annots g.lib_meta l).2 l =
        some { (aget g.lib_meta l).getD LibMeta.empty with ext := some "spm" }) ∧
    (l ∈ (apply_filters g incT excT incL excL incS excS keep).lib_nodes →
      aget (apply_filters g incT excT incL excL incS excS keep).lib_meta l =
        some { (aget g.lib_meta l).getD LibMeta.empty with ext := some "spm" }) := by
  refine ⟨?_, lib_allowed_step_fst incL excL is es g.annots g.lib_meta l,
    fun x => extKey_after_step incL excL is es g.annots g.lib_meta l x,
    fun h1 h2 => lib_allowed_step_snd_mutates incL excL is es g.annots g.lib_meta l
      hurl hext h1 h2,
    fun hl => apply_filters_lib_meta_spm g incT excT incL excL incS excS keep l
      hl hurl hext⟩
  simp [extKey, hurl, hext]

/-- Witness for C7: the package product `P` of `gSpm` gets effective key
`spm`, survives an `include-suffix spm` filter, and afterwards carries the
persisted `ext = "spm"` metadata. -/
theorem C7_witness :
    extKey gSpm.annots gSpm.lib_meta "P" = "spm" ∧
    aget (apply_filters gSpm [] [] [] [] ["spm"] [] true).lib_meta "P" =
      some { (aget gSpm.lib_meta "P").getD LibMeta.empty with ext := some "spm" } := by
  have h := C7_spm_pseudo_kind_inference gSpm [] [] [] [] ["spm"] [] [] [] true "P"
    (by decide) (by decide)
  exact ⟨h.1, h.2.2.2.2 (by decide)⟩

/-! ### Sorting lemmas -/

theorem insExt_perm {α : Type} (le : α → α → Bool) (x : α) (xs : List α) :
    (insExt le x xs).Perm (x :: xs) := by
  induction xs with
  | nil => rfl
  | cons y ys ih =>
    unfold insExt
    split_ifs
    · rfl
    · exact ((ih.cons y).trans (List.Perm.swap x y ys))

theorem sortL_perm {α : Type} (le : α → α → Bool) (xs : List α) :
    (sortL le xs).Perm xs := by
  induction xs with
  | nil => rfl
  | cons x ys ih =>
    exact (insExt_perm le x (sortL le ys)).trans (ih.cons x)

theorem mem_sortL {α : Type} (le : α → α → Bool) (xs : List α) (x : α) :
    x ∈ sortL le xs ↔ x ∈ xs :=
  (sortL_perm le xs).mem_iff

/-! ### Claim C5: cycle edges are exactly the intra-component edges -/

/-- `record_component` leaves the `edges` field untouched. -/
theorem record_component_edges (g0 : Graph) (adj : List (String × List String))
    (g : Graph) (comp : List String) :
    (record_component g0 adj g comp).edges = g.edges := by
  unfold record_component
  split_ifs <;> rfl

/-- The classification fold leaves the `edges` field untouched. -/
theorem record_fold_edges (g0 : Graph) (adj : List (String × List String)) :
    ∀ (sccs : List (List String)) (gacc : Graph),
      (sccs.foldl (record_component g0 adj) gacc).edges = gacc.edges := by
  intro sccs
  induction sccs with
  | nil =>
    intro gacc
    rfl
  | cons hd tl ih =>
    intro gacc
    rw [List.foldl_cons, ih, record_component_edges]

/-- `mark_cycles` leaves the `edges` field untouched. -/
theorem mark_cycles_edges (g : Graph) : (mark_cycles g).edges = g.edges := by
  exact record_fold_edges g (_build_adjacency g) (tarjan_sccs g)
    { g with cycle_nodes := [], cycle_edges := [], cycle_components := [] }

/-- Membership in the per-component cycle-edge collection fold
(lines 386-388). -/
theorem cycle_edge_fold_mem (comp : List String) :
    ∀ (l : List (String × String)) (ce : List (String × String)) (e : String × String),
      e ∈ l.foldl (fun ce e => if e.1 ∈ comp ∧ e.2 ∈ comp then setAdd ce e else ce) ce ↔
        e ∈ ce ∨ (e ∈ l ∧ e.1 ∈ comp ∧ e.2 ∈ comp) := by
  intro l
  induction l with
  | nil =>
    intro ce e
    simp
  | cons hd tl ih =>
    intro ce e
    rw [List.foldl_cons, ih]
    have hstep : e ∈ (if hd.1 ∈ comp ∧ hd.2 ∈ comp then setAdd ce hd else ce) ↔
        e ∈ ce ∨ (e = hd ∧ hd.1 ∈ comp ∧ hd.2 ∈ comp) := by
      split_ifs with h
      · rw [mem_setAdd]
        constructor
        · rintro (hx | rfl)
          · exact Or.inl hx
          · exact Or.inr ⟨rfl, h⟩
        · rintro (hx | ⟨rfl, -⟩)
          · exact Or.inl hx
          · exact Or.inr rfl
      · constructor
        · exact Or.inl
        · rintro (hx | ⟨rfl, hc⟩)
          · exact hx
          · exact absurd hc h
    rw [hstep]
    simp only [List.mem_cons]
    constructor
    · rintro ((hx | ⟨rfl, hc⟩) | ⟨hx, hc⟩)
      · exact Or.inl hx
      · exact Or.inr ⟨Or.inl rfl, hc⟩
      · exact Or.inr ⟨Or.inr hx, hc⟩
    · rintro (hx | ⟨(rfl | hx), hc⟩)
      · exact Or.inl (Or.inl hx)
      · exact Or.inl (Or.inr ⟨rfl, hc⟩)
      · exact Or.inr ⟨hx, hc⟩

/-- The classification fold: accumulated cycle components. -/
theorem record_fold_components (g0 : Graph) (adj : List (String × List String)) :
    ∀ (sccs : List (List String)) (gacc : Graph),
      (sccs.foldl (record_component g0 adj) gacc).cycle_components =
        gacc.cycle_components ++
          (sccs.filter (is_cycle_comp adj)).map (sortL strLe) := by
  intro sccs
  induction sccs with
  | nil =>
    intro gacc
    simp
  | cons hd tl ih =>
    intro gacc
    rw [List.foldl_cons, ih, List.filter_cons]
    by_cases h : is_cycle_comp adj hd = true
    · rw [if_pos h]
      unfold record_component
      rw [if_pos h]
      simp
    · rw [if_neg (by simpa using h)]
      unfold record_component
      rw [if_neg h]

/-- The classification fold preserves and extends the invariant that the
collected cycle edges are exactly the edges of `g0` whose endpoints lie in
one already-collected cycle component. -/
theorem record_fold_cycle_edges (g0 : Graph) (adj : List (String × List String)) :
    ∀ (sccs : List (List String)) (gacc : Graph),
      (∀ e, e ∈ gacc.cycle_edges ↔
        e ∈ g0.edges ∧ ∃ comp ∈ gacc.cycle_components, e.1 ∈ comp ∧ e.2 ∈ comp) →
      ∀ e, e ∈ (sccs.foldl (record_component g0 adj) gacc).cycle_edges ↔
        e ∈ g0.edges ∧
          ∃ comp ∈ (sccs.foldl (record_component g0 adj) gacc).cycle_components,
            e.1 ∈ comp ∧ e.2 ∈ comp := by
  intro sccs
  induction sccs with
  | nil =>
    intro gacc h
    exact h
  | cons hd tl ih =>
    intro gacc h
    rw [List.foldl_cons]
    refine ih _ ?_
    intro e
    unfold record_component
    split_ifs with hc
    · simp only
      rw [cycle_edge_fold_mem hd g0.edges gacc.cycle_edges e, h e]
      constructor
      · rintro (⟨hg, comp, hcmem, hends⟩ | ⟨hg, hends⟩)
        · exact ⟨hg, comp, List.mem_append_left _ hcmem, hends⟩
        · refine ⟨hg, sortL strLe hd, List.mem_append_right _ (by simp), ?_⟩
          rw [mem_sortL, mem_sortL]
          exact hends
      · rintro ⟨hg, comp, hcmem, hends⟩
        rcases List.mem_append.mp hcmem with hin | hin
        · exact Or.inl ⟨hg, comp, hin, hends⟩
        · have : comp = sortL strLe hd := by simpa using hin
          subst this
          rw [mem_sortL, mem_sortL] at hends
          exact Or.inr ⟨hg, hends⟩
    · exact h e

/-- C5: after `mark_cycles`, the recorded cycle-edge set is exactly the
set of edges whose two endpoints lie in the same recorded cycle component;
in Scenario B (`X→Y`, `Y→X`) the one component is `[X, Y]` and both edges
are flagged. -/
theorem C5_cycle_edges_are_intra_component_edges (g : Graph) :
    (∀ e, e ∈ (mark_cycles g).cycle_edges ↔
      e ∈ g.edges ∧
        ∃ comp ∈ (mark_cycles g).cycle_components, e.1 ∈ comp ∧ e.2 ∈ comp) ∧
    (mark_cycles gB).cycle_components = [["X", "Y"]] ∧
    (mark_cycles gB).cycle_edges = [("X", "Y"), ("Y", "X")] ∧
    ("X", "Y") ∈ (mark_cycles gB).cycle_edges ∧
    ("Y", "X") ∈ (mark_cycles gB).cycle_edges := by
  refine ⟨?_, by decide, by decide, by decide, by decide⟩
  intro e
  unfold mark_cycles
  exact record_fold_cycle_edges g (_build_adjacency g) (tarjan_sccs g)
    { g with cycle_nodes := [], cycle_edges := [], cycle_components := [] }
    (by intro e'; simp) e

/-! ### Order properties of the comparators -/

theorem listLe_total : ∀ a b : List Char, listLe a b = true ∨ listLe b a = true := by
  intro a
  induction a with
  | nil =>
    intro b
    exact Or.inl rfl
  | cons x xs ih =>
    intro b
    cases b with
    | nil => exact Or.inr rfl
    | cons y ys =>
      rcases lt_trichotomy x y with h | h | h
      · left
        simp [listLe, h]
      · subst h
        rcases ih ys with h' | h'
        · left
          simp [listLe, lt_irrefl, h']
        · right
          simp [listLe, lt_irrefl, h']
      · right
        simp [listLe, h]

theorem listLe_trans :
    ∀ a b c : List Char, listLe a b = true → listLe b c = true → listLe a c = true := by
  intro a
  induction a with
  | nil =>
    intro b c _ _
    rfl
  | cons x xs ih =>
    intro b c hab hbc
    cases b with
    | nil => simp [listLe] at hab
    | cons y ys =>
      cases c with
      | nil => simp [listLe] at hbc
      | cons z zs =>
        rcases lt_trichotomy x y with h1 | h1 | h1
        · rcases lt_trichotomy y z with h2 | h2 | h2
          · simp [listLe, lt_trans h1 h2]
          · subst h2
            simp [listLe, h1]
          · simp only [listLe, if_pos h2] at hbc
            rw [if_neg (asymm h2)] at hbc
            simp at hbc
        · subst h1
          rcases lt_trichotomy x z with h2 | h2 | h2
          · simp [listLe, h2]
          · subst h2
            simp only [listLe, lt_irrefl, if_neg (lt_irrefl x)] at hab hbc ⊢
            exact ih ys zs hab hbc
          · simp only [listLe] at hbc
            rw [if_neg (asymm h2), if_pos h2] at hbc
            simp at hbc
        · simp only [listLe] at hab
          rw [if_neg (asymm h1), if_pos h1] at hab
          simp at hab

theorem listLe_antisymm :
    ∀ a b : List Char, listLe a b = true → listLe b a = true → a = b := by
  intro a
  induction a with
  | nil =>
    intro b _ hba
    cases b with
    | nil => rfl
    | cons y ys => simp [listLe] at hba
  | cons x xs ih =>
    intro b hab hba
    cases b with
    | nil => simp [listLe] at hab
    | cons y ys =>
      rcases lt_trichotomy x y with h | h | h
      · simp only [listLe] at hba
        rw [if_neg (asymm h), if_pos h] at hba
        simp at hba
      · subst h
        simp only [listLe, if_neg (lt_irrefl x)] at hab hba
        rw [ih ys hab hba]
      · simp only [listLe] at hab
        rw [if_neg (asymm h), if_pos h] at hab
        simp at hab

theorem strLe_total (a b : String) : strLe a b = true ∨ strLe b a = true :=
  listLe_total a.toList b.toList

theorem strLe_trans (a b c : String) :
    strLe a b = true → strLe b c = true → strLe a c = true :=
  listLe_trans a.toList b.toList c.toList

theorem strLe_antisymm (a b : String) :
    strLe a b = true → strLe b a = true → a = b := by
  intro hab hba
  exact String.ext (listLe_antisymm a.toList b.toList hab hba)

theorem pairLe_total (a b : String × String) : pairLe a b = true ∨ pairLe b a = true := by
  unfold pairLe
  by_cases h : a.1 = b.1
  · rw [if_pos h, if_pos h.symm]
    exact strLe_total a.2 b.2
  · rw [if_neg h, if_neg (fun h' => h h'.symm)]
    exact strLe_total a.1 b.1

theorem pairLe_trans (a b c : String × String) :
    pairLe a b = true → pairLe b c = true → pairLe a c = true := by
  unfold pairLe
  by_cases h1 : a.1 = b.1 <;> by_cases h2 : b.1 = c.1
  · rw [if_pos h1, if_pos h2, if_pos (h1.trans h2)]
    exact strLe_trans a.2 b.2 c.2
  · rw [if_pos h1, if_neg h2, if_neg (fun h => h2 (h1.symm.trans h))]
    intro _ hbc
    rw [h1]
    exact hbc
  · rw [if_neg h1, if_pos h2, if_neg (fun h => h1 (h.trans h2.symm))]
    intro hab _
    rw [← h2]
    exact hab
  · rw [if_neg h1, if_neg h2]
    intro hab hbc
    have h3 : a.1 ≠ c.1 := by
      intro h
      exact h1 (strLe_antisymm a.1 b.1 hab (h ▸ hbc))
    rw [if_neg h3]
    exact strLe_trans a.1 b.1 c.1 hab hbc

theorem pairLe_antisymm (a b : String × String) :
    pairLe a b = true → pairLe b a = true → a = b := by
  unfold pairLe
  by_cases h : a.1 = b.1
  · rw [if_pos h, if_pos h.symm]
    intro hab hba
    exact Prod.ext h (strLe_antisymm a.2 b.2 hab hba)
  · rw [if_neg h, if_neg (fun h' => h h'.symm)]
    intro hab hba
    exact absurd (strLe_antisymm a.1 b.1 hab hba) h

/-! ### Sortedness of `sortL` -/

theorem insExt_pairwise {α : Type} (le : α → α → Bool)
    (htot : ∀ a b, le a b = true ∨ le b a = true)
    (htrans : ∀ a b c, le a b = true → le b c = true → le a c = true) (x : α) :
    ∀ l, List.Pairwise (fun a b => le a b = true) l →
      List.Pairwise (fun a b => le a b = true) (insExt le x l) := by
  intro l
  induction l with
  | nil =>
    intro _
    simp [insExt]
  | cons y ys ih =>
    intro h
    unfold insExt
    split_ifs with hxy
    · refine List.Pairwise.cons ?_ h
      intro z hz
      rcases List.mem_cons.mp hz with rfl | hz
      · exact hxy
      · exact htrans x y z hxy (List.rel_of_pairwise_cons h hz)
    · refine List.Pairwise.cons ?_ (ih (List.Pairwise.of_cons h))
      intro z hz
      rcases List.mem_cons.mp ((insExt_perm le x ys).mem_iff.mp hz) with hzx | hz
      · rw [hzx]
        rcases htot x y with h' | h'
        · exact absurd h' hxy
        · exact h'
      · exact List.rel_of_pairwise_cons h hz

theorem sortL_pairwise {α : Type} (le : α → α → Bool)
    (htot : ∀ a b, le a b = true ∨ le b a = true)
    (htrans : ∀ a b c, le a b = true → le b c = true → le a c = true) (xs : List α) :
    List.Pairwise (fun a b => le a b = true) (sortL le xs) := by
  induction xs with
  | nil => simp [sortL]
  | cons x ys ih => exact insExt_pairwise le htot htrans x (sortL le ys) ih

/-- Sorting with an antisymmetric total comparator maps permuted lists to
the same list. -/
theorem sortL_eq_of_perm {α : Type} (le : α → α → Bool)
    (htot : ∀ a b, le a b = true ∨ le b a = true)
    (htrans : ∀ a b c, le a b = true → le b c = true → le a c = true)
    (hanti : ∀ a b, le a b = true → le b a = true → a = b)
    {l1 l2 : List α} (h : l1.Perm l2) : sortL le l1 = sortL le l2 := by
  refine List.Perm.eq_of_sorted (fun a b _ _ hab hba => hanti a b hab hba)
    (sortL_pairwise le htot htrans l1) (sortL_pairwise le htot htrans l2) ?_
  exact (sortL_perm le l1).trans (h.trans (sortL_perm le l2).symm)

/-! ### Construction-phase membership and duplicate-freedom -/

theorem add_lib_target_nodes (g : Graph) (n : String) (s : Option String)
    (sys : Bool) (e : Option String) :
    (add_lib g n s sys e).target_nodes = g.target_nodes := by
  cases s with
  | none => simp [add_lib]
  | some s' =>
    by_cases hs : s' = "" <;> simp [add_lib, hs]

theorem add_lib_lib_nodes (g : Graph) (n : String) (s : Option String)
    (sys : Bool) (e : Option String) :
    (add_lib g n s sys e).lib_nodes = setAdd g.lib_nodes n := by
  cases s with
  | none => simp [add_lib]
  | some s' =>
    by_cases hs : s' = "" <;> simp [add_lib, hs]

theorem add_lib_edges (g : Graph) (n : String) (s : Option String)
    (sys : Bool) (e : Option String) :
    (add_lib g n s sys e).edges = g.edges := by
  cases s with
  | none => simp [add_lib]
  | some s' =>
    by_cases hs : s' = "" <;> simp [add_lib, hs]

theorem add_edge_target_nodes (g : Graph) (a b : String) :
    (add_edge g a b).target_nodes = g.target_nodes := by
  unfold add_edge
  split_ifs <;> rfl

theorem add_edge_lib_nodes (g : Graph) (a b : String) :
    (add_edge g a b).lib_nodes = g.lib_nodes := by
  unfold add_edge
  split_ifs <;> rfl

theorem runFact_target_mem (g : Graph) (f : Fact) (x : String) :
    x ∈ (runFact g f).target_nodes ↔
      x ∈ g.target_nodes ∨ f = Fact.addTargetF x := by
  cases f with
  | addTargetF n =>
    simp [runFact, add_target, mem_setAdd, eq_comm]
  | addLibF n s sys e =>
    simp [runFact, add_lib_target_nodes]
  | addEdgeF a b =>
    simp [runFact, add_edge_target_nodes]

theorem runFact_lib_mem (g : Graph) (f : Fact) (x : String) :
    x ∈ (runFact g f).lib_nodes ↔
      x ∈ g.lib_nodes ∨ ∃ s sys e, f = Fact.addLibF x s sys e := by
  cases f with
  | addTargetF n =>
    simp [runFact, add_target]
  | addLibF n s sys e =>
    rw [show runFact g (Fact.addLibF n s sys e) = add_lib g n s sys e from rfl,
      add_lib_lib_nodes, mem_setAdd]
    constructor
    · rintro (hx | rfl)
      · exact Or.inl hx
      · exact Or.inr ⟨s, sys, e, rfl⟩
    · rintro (hx | ⟨s', sys', e', heq⟩)
      · exact Or.inl hx
      · obtain ⟨h1, -, -, -⟩ := Fact.addLibF.inj heq
        exact Or.inr h1.symm
  | addEdgeF a b =>
    simp [runFact, add_edge_lib_nodes]

theorem add_edge_edges_mem (g : Graph) (a b : String) (p : String × String) :
    p ∈ (add_edge g a b).edges ↔
      p ∈ g.edges ∨ (a ≠ "" ∧ b ≠ "" ∧ p = (a, b)) := by
  unfold add_edge
  split_ifs with h
  · rw [mem_setAdd]
    constructor
    · rintro (hx | rfl)
      · exact Or.inl hx
      · exact Or.inr ⟨h.1, h.2, rfl⟩
    · rintro (hx | ⟨-, -, rfl⟩)
      · exact Or.inl hx
      · exact Or.inr rfl
  · constructor
    · exact Or.inl
    · rintro (hx | ⟨ha, hb, -⟩)
      · exact hx
      · exact absurd ⟨ha, hb⟩ h

theorem runFact_edge_mem (g : Graph) (f : Fact) (p : String × String) :
    p ∈ (runFact g f).edges ↔
      p ∈ g.edges ∨ (p.1 ≠ "" ∧ p.2 ≠ "" ∧ f = Fact.addEdgeF p.1 p.2) := by
  cases f with
  | addTargetF n =>
    simp [runFact, add_target]
  | addLibF n s sys e =>
    simp [runFact, add_lib_edges]
  | addEdgeF a b =>
    rw [show runFact g (Fact.addEdgeF a b) = add_edge g a b from rfl,
      add_edge_edges_mem]
    constructor
    · rintro (hx | ⟨ha, hb, rfl⟩)
      · exact Or.inl hx
      · exact Or.inr ⟨ha, hb, rfl⟩
    · rintro (hx | ⟨ha, hb, heq⟩)
      · exact Or.inl hx
      · obtain ⟨h1, h2⟩ := Fact.addEdgeF.inj heq
        exact Or.inr ⟨by rw [h1]; exact ha, by rw [h2]; exact hb,
          Prod.ext h1.symm h2.symm⟩

theorem runFacts_target_mem :
    ∀ (fs : List Fact) (g : Graph) (x : String),
      x ∈ (fs.foldl runFact g).target_nodes ↔
        x ∈ g.target_nodes ∨ Fact.addTargetF x ∈ fs := by
  intro fs
  induction fs with
  | nil =>
    intro g x
    simp
  | cons hd tl ih =>
    intro g x
    rw [List.foldl_cons, ih, runFact_target_mem]
    simp only [List.mem_cons]
    constructor
    · rintro ((hx | rfl) | hx)
      · exact Or.inl hx
      · exact Or.inr (Or.inl rfl)
      · exact Or.inr (Or.inr hx)
    · rintro (hx | (heq | hx))
      · exact Or.inl (Or.inl hx)
      · exact Or.inl (Or.inr heq.symm)
      · exact Or.inr hx

theorem runFacts_lib_mem :
    ∀ (fs : List Fact) (g : Graph) (x : String),
      x ∈ (fs.foldl runFact g).lib_nodes ↔
        x ∈ g.lib_nodes ∨ ∃ s sys e, Fact.addLibF x s sys e ∈ fs := by
  intro fs
  induction fs with
  | nil =>
    intro g x
    simp
  | cons hd tl ih =>
    intro g x
    rw [List.foldl_cons, ih, runFact_lib_mem]
    simp only [List.mem_cons]
    constructor
    · rintro ((hx | ⟨s, sys, e, rfl⟩) | ⟨s, sys, e, hx⟩)
      · exact Or.inl hx
      · exact Or.inr ⟨s, sys, e, Or.inl rfl⟩
      · exact Or.inr ⟨s, sys, e, Or.inr hx⟩
    · rintro (hx | ⟨s, sys, e, (heq | hx)⟩)
      · exact Or.inl (Or.inl hx)
      · exact Or.inl (Or.inr ⟨s, sys, e, heq.symm⟩)
      · exact Or.inr ⟨s, sys, e, hx⟩

theorem runFacts_edge_mem :
    ∀ (fs : List Fact) (g : Graph) (p : String × String),
      p ∈ (fs.foldl runFact g).edges ↔
        p ∈ g.edges ∨ (p.1 ≠ "" ∧ p.2 ≠ "" ∧ Fact.addEdgeF p.1 p.2 ∈ fs) := by
  intro fs
  induction fs with
  | nil =>
    intro g p
    simp
  | cons hd tl ih =>
    intro g p
    rw [List.foldl_cons, ih, runFact_edge_mem]
    simp only [List.mem_cons]
    constructor
    · rintro ((hx | ⟨h1, h2, rfl⟩) | ⟨h1, h2, hx⟩)
      · exact Or.inl hx
      · exact Or.inr ⟨h1, h2, Or.inl rfl⟩
      · exact Or.inr ⟨h1, h2, Or.inr hx⟩
    · rintro (hx | ⟨h1, h2, (heq | hx)⟩)
      · exact Or.inl (Or.inl hx)
      · exact Or.inl (Or.inr ⟨h1, h2, heq.symm⟩)
      · exact Or.inr ⟨h1, h2, hx⟩

theorem setAdd_nodup {α : Type} [DecidableEq α] {xs : List α} (h : xs.Nodup)
    (x : α) : (setAdd xs x).Nodup := by
  unfold setAdd
  split_ifs with hx
  · exact h
  · rw [List.nodup_append]
    exact ⟨h, List.nodup_singleton x, by simp [hx]⟩

theorem runFacts_nodup :
    ∀ (fs : List Fact) (g : Graph), g.target_nodes.Nodup → g.lib_nodes.Nodup →
      g.edges.Nodup →
      (fs.foldl runFact g).target_nodes.Nodup ∧
      (fs.foldl runFact g).lib_nodes.Nodup ∧
      (fs.foldl runFact g).edges.Nodup := by
  intro fs
  induction fs with
  | nil =>
    intro g h1 h2 h3
    exact ⟨h1, h2, h3⟩
  | cons hd tl ih =>
    intro g h1 h2 h3
    rw [List.foldl_cons]
    refine ih _ ?_ ?_ ?_
    · cases hd with
      | addTargetF n => exact setAdd_nodup h1 n
      | addLibF n s sys e => rw [show (runFact g (Fact.addLibF n s sys e)) = add_lib g n s sys e from rfl, add_lib_target_nodes]; exact h1
      | addEdgeF a b => rw [show (runFact g (Fact.addEdgeF a b)) = add_edge g a b from rfl, add_edge_target_nodes]; exact h1
    · cases hd with
      | addTargetF n => exact h2
      | addLibF n s sys e => rw [show (runFact g (Fact.addLibF n s sys e)) = add_lib g n s sys e from rfl, add_lib_lib_nodes]; exact setAdd_nodup h2 n
      | addEdgeF a b => rw [show (runFact g (Fact.addEdgeF a b)) = add_edge g a b from rfl, add_edge_lib_nodes]; exact h2
    · cases hd with
      | addTargetF n => exact h3
      | addLibF n s sys e => rw [show (runFact g (Fact.addLibF n s sys e)) = add_lib g n s sys e from rfl, add_lib_edges]; exact h3
      | addEdgeF a b =>
        rw [show (runFact g (Fact.addEdgeF a b)) = add_edge g a b from rfl]
        unfold add_edge
        split_ifs with h
        · exact setAdd_nodup h3 (a, b)
        · exact h3

/-- Target membership after replaying a fact list on a fresh graph. -/
theorem runFacts_target_mem_iff (fs : List Fact) (x : String) :
    x ∈ (runFacts fs).target_nodes ↔ Fact.addTargetF x ∈ fs := by
  have h := runFacts_target_mem fs Graph.empty x
  simp only [Graph.empty, List.not_mem_nil, false_or] at h
  exact h

/-- Library membership after replaying a fact list on a fresh graph. -/
theorem runFacts_lib_mem_iff (fs : List Fact) (x : String) :
    x ∈ (runFacts fs).lib_nodes ↔ ∃ s sys e, Fact.addLibF x s sys e ∈ fs := by
  have h := runFacts_lib_mem fs Graph.empty x
  simp only [Graph.empty, List.not_mem_nil, false_or] at h
  exact h

/-- Edge membership after replaying a fact list on a fresh graph. -/
theorem runFacts_edge_mem_iff (fs : List Fact) (p : String × String) :
    p ∈ (runFacts fs).edges ↔
      p.1 ≠ "" ∧ p.2 ≠ "" ∧ Fact.addEdgeF p.1 p.2 ∈ fs := by
  have h := runFacts_edge_mem fs Graph.empty p
  simp only [Graph.empty, List.not_mem_nil, false_or] at h
  exact h

/-- The constructed node and edge lists are duplicate-free. -/
theorem runFacts_nodup_all (fs : List Fact) :
    (runFacts fs).target_nodes.Nodup ∧ (runFacts fs).lib_nodes.Nodup ∧
      (runFacts fs).edges.Nodup :=
  runFacts_nodup fs Graph.empty (by simp [Graph.empty]) (by simp [Graph.empty])
    (by simp [Graph.empty])

/-! ### Claim C8: determinism of the exports -/

/-- C8 counterexample: over the identical fact set, a different insertion
order reorders the exported `cycles.components` list even at a fixed
generation time, and the same run exported at two different wall-clock
instants yields different DOT bytes — the exports are not byte-identical
as claimed. -/
theorem C8_counterexample :
    factsOrd1.Perm factsOrd2 ∧
    pipelinePayload factsOrd1 "2024-01-01T00:00:00" ≠
      pipelinePayload factsOrd2 "2024-01-01T00:00:00" ∧
    (pipelinePayload factsOrd1 "2024-01-01T00:00:00").cycles_components =
      [["A", "B"], ["C", "D"]] ∧
    (pipelinePayload factsOrd2 "2024-01-01T00:00:00").cycles_components =
      [["C", "D"], ["A", "B"]] ∧
    pipelineDot factsOrd1 "2024-01-01 00:00:00" ≠
      pipelineDot factsOrd1 "2024-01-01 00:00:01" := by
  exact ⟨by decide, by decide, by decide, by decide,
    by set_option maxRecDepth 8192 in decide⟩

/-- C8 (amended): every exported node list is sorted by name and every
exported edge list by `(from, to)`; at a fixed generation time the
pipeline is a pure function of the fact sequence, and reordering the
fact sequence leaves the sorted target, library and edge lists of the
constructed graph unchanged (the cycle-components list order and the
embedded generation time are the only order-of-run-dependent parts). -/
theorem C8_sorted_exports_and_insertion_order
    (g : Graph) (t r : String) (fm : FiltersMeta) (c : List (String × String))
    (fs1 fs2 : List Fact) (hperm : fs1.Perm fs2) :
    List.Pairwise (fun a b => strLe a b = true) (export_json g t r fm c).targets ∧
    List.Pairwise (fun a b => strLe a.name b.name = true)
      (export_json g t r fm c).libraries ∧
    List.Pairwise (fun a b => pairLe a b = true) (export_json g t r fm c).edges ∧
    List.Pairwise (fun a b => pairLe a b = true) (export_json g t r fm c).cycles_edges ∧
    sortL strLe (runFacts fs1).target_nodes = sortL strLe (runFacts fs2).target_nodes ∧
    sortL strLe (runFacts fs1).lib_nodes = sortL strLe (runFacts fs2).lib_nodes ∧
    sortL pairLe (runFacts fs1).edges = sortL pairLe (runFacts fs2).edges := by
  refine ⟨sortL_pairwise strLe strLe_total strLe_trans g.target_nodes, ?_,
    sortL_pairwise pairLe pairLe_total pairLe_trans g.edges,
    sortL_pairwise pairLe pairLe_total pairLe_trans g.cycle_edges, ?_, ?_, ?_⟩
  · rw [show (export_json g t r fm c).libraries =
      (sortL strLe g.lib_nodes).map (fun name =>
        { name := name
          is_system := (((aget g.lib_meta name).getD LibMeta.empty).is_system).getD false
          ext := ((aget g.lib_meta name).getD LibMeta.empty).ext
          subtitle := aget g.annots name
          in_degree := lib_in_degree g name }) from rfl, List.pairwise_map]
    exact sortL_pairwise strLe strLe_total strLe_trans g.lib_nodes
  · refine sortL_eq_of_perm strLe strLe_total strLe_trans strLe_antisymm ?_
    rw [List.perm_ext_iff_of_nodup (runFacts_nodup_all fs1).1 (runFacts_nodup_all fs2).1]
    intro x
    rw [runFacts_target_mem_iff, runFacts_target_mem_iff]
    exact hperm.mem_iff
  · refine sortL_eq_of_perm strLe strLe_total strLe_trans strLe_antisymm ?_
    rw [List.perm_ext_iff_of_nodup (runFacts_nodup_all fs1).2.1
      (runFacts_nodup_all fs2).2.1]
    intro x
    rw [runFacts_lib_mem_iff, runFacts_lib_mem_iff]
    constructor
    · rintro ⟨s, sys, e, hx⟩
      exact ⟨s, sys, e, hperm.mem_iff.mp hx⟩
    · rintro ⟨s, sys, e, hx⟩
      exact ⟨s, sys, e, hperm.mem_iff.mpr hx⟩
  · refine sortL_eq_of_perm pairLe pairLe_total pairLe_trans pairLe_antisymm ?_
    rw [List.perm_ext_iff_of_nodup (runFacts_nodup_all fs1).2.2
      (runFacts_nodup_all fs2).2.2]
    intro p
    rw [runFacts_edge_mem_iff, runFacts_edge_mem_iff, hperm.mem_iff]

/-- Witness for C8 at the concrete permuted fact lists. -/
theorem C8_witness :
    sortL pairLe (runFacts factsOrd1).edges = sortL pairLe (runFacts factsOrd2).edges ∧
    List.Pairwise (fun a b => strLe a b = true)
      (export_json (pipeline factsOrd1) "t" "/repo" fmeta0 []).targets := by
  have h := C8_sorted_exports_and_insertion_order (pipeline factsOrd1) "t" "/repo"
    fmeta0 [] factsOrd1 factsOrd2 (by decide)
  exact ⟨h.2.2.2.2.2.2, h.1⟩

/-! ### Counting and association-list lemmas for the traversal proof -/

theorem length_filter_mono {α : Type} (l : List α) (p q : α → Bool)
    (h : ∀ x ∈ l, p x = true → q x = true) :
    (l.filter p).length ≤ (l.filter q).length := by
  induction l with
  | nil => simp
  | cons a t ih =>
    have ih' := ih (fun x hx => h x (List.mem_cons_of_mem a hx))
    rw [List.filter_cons, List.filter_cons]
    by_cases hpa : p a = true
    · rw [if_pos hpa, if_pos (h a (List.mem_cons_self a t) hpa)]
      simpa using ih'
    · rw [if_neg hpa]
      by_cases hqa : q a = true
      · rw [if_pos hqa]
        exact le_trans ih' (by simp)
      · rw [if_neg hqa]
        exact ih'

theorem length_filter_lt {α : Type} [DecidableEq α] (l : List α) (p q : α → Bool)
    (h : ∀ x ∈ l, p x = true → q x = true) (x : α) (hx : x ∈ l)
    (hpx : p x = false) (hqx : q x = true) :
    (l.filter p).length < (l.filter q).length := by
  induction l with
  | nil => simp at hx
  | cons a t ih =>
    have hmono : ∀ y ∈ t, p y = true → q y = true :=
      fun y hy => h y (List.mem_cons_of_mem a hy)
    rw [List.filter_cons, List.filter_cons]
    by_cases hax : a = x
    · subst hax
      rw [if_neg (by simp [hpx]), if_pos hqx]
      exact Nat.lt_succ_of_le (length_filter_mono t p q hmono)
    · have hxt : x ∈ t := by
        rcases List.mem_cons.mp hx with h' | h'
        · exact absurd h'.symm hax
        · exact h'
      have ih' := ih hmono hxt
      by_cases hpa : p a = true
      · rw [if_pos hpa, if_pos (h a (List.mem_cons_self a t) hpa)]
        simpa using ih'
      · rw [if_neg hpa]
        by_cases hqa : q a = true
        · rw [if_pos hqa]
          exact Nat.lt_succ_of_le (le_of_lt ih')
        · rw [if_neg hqa]
          exact ih'

theorem aget_append_of_some {β : Type} {m1 : List (String × β)}
    (m2 : List (String × β)) {k : String} {v : β} (h : aget m1 k = some v) :
    aget (m1 ++ m2) k = some v := by
  induction m1 with
  | nil => simp [aget] at h
  | cons hd t ih =>
    obtain ⟨k', v'⟩ := hd
    by_cases hk : k = k'
    · simp only [aget, if_pos hk] at h
      simp only [List.cons_append, aget, if_pos hk]
      exact h
    · simp only [aget, if_neg hk] at h
      simp only [List.cons_append, aget, if_neg hk]
      exact ih h

theorem aget_append_of_none {β : Type} {m1 : List (String × β)}
    (m2 : List (String × β)) {k : String} (h : aget m1 k = none) :
    aget (m1 ++ m2) k = aget m2 k := by
  induction m1 with
  | nil => simp
  | cons hd t ih =>
    obtain ⟨k', v'⟩ := hd
    by_cases hk : k = k'
    · simp only [aget, if_pos hk] at h
      exact absurd h (by simp)
    · simp only [aget, if_neg hk] at h
      simp only [List.cons_append, aget, if_neg hk]
      exact ih h

theorem aget_mem_keys {β : Type} {m : List (String × β)} {k : String}
    (h : (aget m k).isSome) : k ∈ m.map Prod.fst := by
  induction m with
  | nil => simp [aget] at h
  | cons hd t ih =>
    obtain ⟨k', v'⟩ := hd
    by_cases hk : k = k'
    · simp [hk]
    · simp only [aget, if_neg hk] at h
      simp [ih h]

theorem aget_of_mem_keys {β : Type} {m : List (String × β)} {k : String}
    (h : k ∈ m.map Prod.fst) : (aget m k).isSome := by
  induction m with
  | nil => simp at h
  | cons hd t ih =>
    obtain ⟨k', v'⟩ := hd
    by_cases hk : k = k'
    · simp [aget, hk]
    · simp only [List.map_cons, List.mem_cons] at h
      rcases h with h | h
      · exact absurd h hk
      · simp only [aget, if_neg hk]
        exact ih h

theorem map_fst_aset_of_some {β : Type} {m : List (String × β)} {k : String}
    (h : (aget m k).isSome) (v : β) :
    (aset m k v).map Prod.fst = m.map Prod.fst := by
  induction m with
  | nil => simp [aget] at h
  | cons hd t ih =>
    obtain ⟨k', v'⟩ := hd
    by_cases hk : k = k'
    · simp [aset, hk]
    · simp only [aget, if_neg hk] at h
      simp [aset, hk, ih h]

/-! ### Characterizing `_build_adjacency` -/

theorem adjGet_adjAdd (adj : List (String × List String)) (k v x : String) :
    adjGet (adjAdd adj k v) x =
      if x = k then setAdd (adjGet adj k) v else adjGet adj x := by
  unfold adjAdd adjGet
  cases h : aget adj k with
  | some vs =>
    by_cases hx : x = k
    · subst hx
      rw [if_pos rfl, aget_aset_self]
      rfl
    · rw [if_neg hx, aget_aset_ne _ _ hx]
  | none =>
    by_cases hx : x = k
    · subst hx
      rw [if_pos rfl, aget_append_of_none _ h]
      simp [aget, setAdd]
    · rw [if_neg hx]
      cases h2 : aget adj x with
      | some vs2 => rw [aget_append_of_some _ h2]
      | none =>
        rw [aget_append_of_none _ h2]
        simp [aget, hx]

theorem adjGet_adjEnsure (adj : List (String × List String)) (k x : String) :
    adjGet (adjEnsure adj k) x = adjGet adj x := by
  unfold adjEnsure adjGet
  cases h : aget adj k with
  | some vs => rfl
  | none =>
    by_cases hx : x = k
    · subst hx
      rw [aget_append_of_none _ h, h]
      simp [aget]
    · cases h2 : aget adj x with
      | some vs2 => rw [aget_append_of_some _ h2]
      | none =>
        rw [aget_append_of_none _ h2]
        simp [aget, hx]

theorem adjKeys_adjAdd (adj : List (String × List String)) (k v x : String) :
    x ∈ adjKeys (adjAdd adj k v) ↔ x ∈ adjKeys adj ∨ x = k := by
  unfold adjAdd adjKeys
  cases h : aget adj k with
  | some vs =>
    rw [map_fst_aset_of_some (by simp [h]) _]
    constructor
    · exact Or.inl
    · rintro (hx | rfl)
      · exact hx
      · exact aget_mem_keys (by simp [h])
  | none => simp

theorem adjKeys_adjEnsure (adj : List (String × List String)) (k x : String) :
    x ∈ adjKeys (adjEnsure adj k) ↔ x ∈ adjKeys adj ∨ x = k := by
  unfold adjEnsure adjKeys
  cases h : aget adj k with
  | some vs =>
    constructor
    · exact Or.inl
    · rintro (hx | rfl)
      · exact hx
      · exact aget_mem_keys (by simp [h])
  | none => simp

theorem adjGet_edge_fold :
    ∀ (es : List (String × String)) (adj0 : List (String × List String)) (a b : String),
      b ∈ adjGet (es.foldl (fun adj e => adjEnsure (adjAdd adj e.1 e.2) e.2) adj0) a ↔
        b ∈ adjGet adj0 a ∨ (a, b) ∈ es := by
  intro es
  induction es with
  | nil =>
    intro adj0 a b
    simp
  | cons hd tl ih =>
    intro adj0 a b
    rw [List.foldl_cons, ih]
    rw [adjGet_adjEnsure, adjGet_adjAdd]
    by_cases ha : a = hd.1
    · subst ha
      rw [if_pos rfl, mem_setAdd]
      simp only [List.mem_cons, Prod.ext_iff]
      constructor
      · rintro ((hx | rfl) | hx)
        · exact Or.inl hx
        · exact Or.inr (Or.inl ⟨trivial, rfl⟩)
        · exact Or.inr (Or.inr hx)
      · rintro (hx | ⟨h1, h2⟩ | hx)
        · exact Or.inl (Or.inl hx)
        · exact Or.inl (Or.inr h2)
        · exact Or.inr hx
    · rw [if_neg ha]
      simp only [List.mem_cons, Prod.ext_iff]
      constructor
      · rintro (hx | hx)
        · exact Or.inl hx
        · exact Or.inr (Or.inr hx)
      · rintro (hx | ⟨h1, h2⟩ | hx)
        · exact Or.inl hx
        · exact absurd h1 ha
        · exact Or.inr hx

theorem adjKeys_edge_fold :
    ∀ (es : List (String × String)) (adj0 : List (String × List String)) (x : String),
      x ∈ adjKeys (es.foldl (fun adj e => adjEnsure (adjAdd adj e.1 e.2) e.2) adj0) ↔
        x ∈ adjKeys adj0 ∨ ∃ e ∈ es, x = e.1 ∨ x = e.2 := by
  intro es
  induction es with
  | nil =>
    intro adj0 x
    simp
  | cons hd tl ih =>
    intro adj0 x
    rw [List.foldl_cons, ih, adjKeys_adjEnsure, adjKeys_adjAdd]
    simp only [List.mem_cons, exists_eq_or_imp]
    aesop

theorem adjGet_ensure_fold :
    ∀ (ns : List String) (adj0 : List (String × List String)) (a : String),
      adjGet (ns.foldl adjEnsure adj0) a = adjGet adj0 a := by
  intro ns
  induction ns with
  | nil =>
    intro adj0 a
    rfl
  | cons hd tl ih =>
    intro adj0 a
    rw [List.foldl_cons, ih, adjGet_adjEnsure]

theorem adjKeys_ensure_fold :
    ∀ (ns : List String) (adj0 : List (String × List String)) (x : String),
      x ∈ adjKeys (ns.foldl adjEnsure adj0) ↔ x ∈ adjKeys adj0 ∨ x ∈ ns := by
  intro ns
  induction ns with
  | nil =>
    intro adj0 x
    simp
  | cons hd tl ih =>
    intro adj0 x
    rw [List.foldl_cons, ih, adjKeys_adjEnsure]
    simp only [List.mem_cons]
    tauto

/-- Successor membership in the built adjacency is edge membership. -/
theorem adjGet_build (g : Graph) (a b : String) :
    b ∈ adjGet (_build_adjacency g) a ↔ (a, b) ∈ g.edges := by
  unfold _build_adjacency
  rw [adjGet_ensure_fold, adjGet_edge_fold]
  simp [adjGet, aget]

/-- The built adjacency's keys are the edge endpoints and the known
nodes. -/
theorem adjKeys_build (g : Graph) (x : String) :
    x ∈ adjKeys (_build_adjacency g) ↔
      (∃ e ∈ g.edges, x = e.1 ∨ x = e.2) ∨ x ∈ g.target_nodes ∨ x ∈ g.lib_nodes := by
  unfold _build_adjacency
  rw [adjKeys_ensure_fold, adjKeys_edge_fold]
  simp only [adjKeys, List.map_nil, List.not_mem_nil, false_or, List.mem_append]

/-- Adjacency edge steps of the built adjacency are graph edges. -/
theorem adjE_build_iff (g : Graph) (a b : String) :
    AdjE (_build_adjacency g) a b ↔ EdgeStep g a b := by
  unfold AdjE EdgeStep
  exact adjGet_build g a b

/-- Adjacency reachability of the built adjacency is graph reachability. -/
theorem adjReach_build_iff (g : Graph) (u v : String) :
    AdjReach (_build_adjacency g) u v ↔ Reaches g u v := by
  constructor
  · intro h
    exact Relation.ReflTransGen.mono (fun a b => (adjE_build_iff g a b).mp) h
  · intro h
    exact Relation.ReflTransGen.mono (fun a b => (adjE_build_iff g a b).mpr) h

/-- Successors of the built adjacency are keys. -/
theorem adjE_build_closed (g : Graph) (a b : String)
    (h : AdjE (_build_adjacency g) a b) : b ∈ adjKeys (_build_adjacency g) := by
  rw [adjKeys_build]
  rw [AdjE, adjGet_build] at h
  exact Or.inl ⟨(a, b), h, Or.inr rfl⟩

/-! ### Small state lemmas for the traversal proof -/

theorem idxOf_mono_eq {st st' : TarjanSt}
    (h : ∀ x n, aget st.indices x = some n → aget st'.indices x = some n)
    {x : String} (hx : (aget st.indices x).isSome) : idxOf st' x = idxOf st x := by
  unfold idxOf
  obtain ⟨n, hn⟩ := Option.isSome_iff_exists.mp hx
  rw [hn, h x n hn]

theorem visited_mono {st st' : TarjanSt}
    (h : ∀ x n, aget st.indices x = some n → aget st'.indices x = some n)
    {x : String} (hx : (aget st.indices x).isSome) : (aget st'.indices x).isSome := by
  obtain ⟨n, hn⟩ := Option.isSome_iff_exists.mp hx
  rw [h x n hn]
  rfl

theorem count_mono_le (adj : List (String × List String)) {st st' : TarjanSt}
    (h : ∀ x n, aget st.indices x = some n → aget st'.indices x = some n) :
    unvisitedCount adj st' ≤ unvisitedCount adj st := by
  unfold unvisitedCount
  refine length_filter_mono _ _ _ ?_
  intro x _ hx
  rw [Option.isNone_iff_eq_none] at hx ⊢
  cases hq : aget st.indices x with
  | none => rfl
  | some n =>
    rw [h x n hq] at hx
    exact Option.noConfusion hx

theorem count_strict (adj : List (String × List String)) {st st' : TarjanSt}
    (h : ∀ x n, aget st.indices x = some n → aget st'.indices x = some n)
    {v : String} (hv : v ∈ adjKeys adj) (hnone : aget st.indices v = none)
    (hsome : (aget st'.indices v).isSome) :
    unvisitedCount adj st' < unvisitedCount adj st := by
  unfold unvisitedCount
  refine length_filter_lt _ _ _ ?_ v hv ?_ ?_
  · intro x _ hx
    rw [Option.isNone_iff_eq_none] at hx ⊢
    cases hq : aget st.indices x with
    | none => rfl
    | some n =>
      rw [h x n hq] at hx
      exact Option.noConfusion hx
  · obtain ⟨n, hn⟩ := Option.isSome_iff_exists.mp hsome
    rw [hn]
    rfl
  · rw [hnone]
    rfl

theorem unvisited_pos (adj : List (String × List String)) (st : TarjanSt) (v : String)
    (hv : v ∈ adjKeys adj) (hnone : aget st.indices v = none) :
    0 < unvisitedCount adj st := by
  unfold unvisitedCount
  rw [List.length_pos]
  intro hemp
  have hmem : v ∈ (adjKeys adj).filter fun x => (aget st.indices x).isNone := by
    rw [List.mem_filter]
    exact ⟨hv, by rw [hnone]; rfl⟩
  rw [hemp] at hmem
  exact List.not_mem_nil v hmem

theorem count_init_le (adj : List (String × List String)) :
    unvisitedCount adj TarjanSt.init ≤ (adjKeys adj).length :=
  List.length_filter_le _ _

theorem TInv_init (adj : List (String × List String)) : TInv adj TarjanSt.init := by
  constructor <;> simp [TarjanSt.init, aget, idxOf, lowOf, AdjE]

theorem popUntil_spec (v : String) :
    ∀ (r0 rest acc : List String), v ∉ r0 →
      popUntil v (r0 ++ v :: rest) acc = (acc ++ (r0 ++ [v]), rest) := by
  intro r0
  induction r0 with
  | nil =>
    intro rest acc _
    simp [popUntil]
  | cons a t ih =>
    intro rest acc hv
    have hav : a ≠ v := fun h => hv (h ▸ List.mem_cons_self a t)
    simp only [List.cons_append, popUntil, List.append_eq]
    rw [if_neg hav, ih rest (acc ++ [a]) (fun h => hv (List.mem_cons_of_mem a h))]
    simp

/-- The push step at the head of `strongconnect` establishes the loop
invariant. -/
theorem scPush_scloop (adj : List (String × List String)) (st : TarjanSt) (v : String)
    (hst : TInv adj st) (hv : v ∈ adjKeys adj) (hnone : aget st.indices v = none) :
    SCLoop adj st v (scPush v st) := by
  have hvstack : v ∉ st.stack := by
    intro h
    have h2 := hst.stack_visited v h
    rw [hnone] at h2
    exact Bool.noConfusion h2
  have hidx : ∀ x, x ≠ v → aget (scPush v st).indices x = aget st.indices x :=
    fun x hx => aget_aset_ne st.indices st.index hx
  have hidxv : aget (scPush v st).indices v = some st.index :=
    aget_aset_self st.indices v st.index
  have hlow : ∀ x, x ≠ v → aget (scPush v st).low x = aget st.low x :=
    fun x hx => aget_aset_ne st.low st.index hx
  have hlowv : aget (scPush v st).low v = some st.index :=
    aget_aset_self st.low v st.index
  have hvisne : ∀ x, (aget st.indices x).isSome → x ≠ v := by
    intro x hx hxv
    rw [hxv, hnone] at hx
    exact Bool.noConfusion hx
  have hmono : ∀ x n, aget st.indices x = some n → aget (scPush v st).indices x = some n := by
    intro x n hx
    rw [hidx x (hvisne x (by rw [hx]; rfl))]
    exact hx
  have hidxOld : ∀ x, (aget st.indices x).isSome → idxOf (scPush v st) x = idxOf st x := by
    intro x hx
    unfold idxOf
    rw [hidx x (hvisne x hx)]
  have hvis1 : ∀ x, (aget st.indices x).isSome → (aget (scPush v st).indices x).isSome := by
    intro x hx
    rw [hidx x (hvisne x hx)]
    exact hx
  have hidxOfv : idxOf (scPush v st) v = st.index := by
    unfold idxOf
    rw [hidxv]
    rfl
  have hlowOfv : lowOf (scPush v st) v = st.index := by
    unfold lowOf
    rw [hlowv]
    rfl
  have hstackvis : ∀ x ∈ st.stack, (aget st.indices x).isSome := hst.stack_visited
  have hidxlt : ∀ x ∈ st.stack, idxOf st x < st.index := by
    intro x hx
    obtain ⟨n, hn⟩ := Option.isSome_iff_exists.mp (hstackvis x hx)
    have hlt := hst.idx_lt x n hn
    unfold idxOf
    rw [hn]
    exact hlt
  refine ⟨⟨?_, ?_, ?_, ?_, ?_, ?_, ?_, ?_, ?_, ?_, ?_, ?_, ?_, ?_⟩,
    hmono, ?_, ?_, ?_, hnone, hidxv, ?_, ?_, ?_, ?_, ?_, ?_⟩
  · -- idx_lt
    intro x n hx
    show n < st.index + 1
    by_cases hxv : x = v
    · subst hxv
      rw [hidxv] at hx
      injection hx with hx
      omega
    · rw [hidx x hxv] at hx
      exact Nat.lt_succ_of_lt (hst.idx_lt x n hx)
  · -- idx_inj
    intro x y n hx hy
    by_cases hxv : x = v <;> by_cases hyv : y = v
    · rw [hxv, hyv]
    · subst hxv
      rw [hidxv] at hx
      injection hx with hx
      rw [hidx y hyv] at hy
      exfalso
      have := hst.idx_lt y n hy
      omega
    · subst hyv
      rw [hidxv] at hy
      injection hy with hy
      rw [hidx x hxv] at hx
      exfalso
      have := hst.idx_lt x n hx
      omega
    · rw [hidx x hxv] at hx
      rw [hidx y hyv] at hy
      exact hst.idx_inj x y n hx hy
  · -- idx_keys
    intro x hx
    by_cases hxv : x = v
    · subst hxv
      exact hv
    · rw [hidx x hxv] at hx
      exact hst.idx_keys x hx
  · -- stack_visited
    intro x hx
    rcases List.mem_cons.mp hx with rfl | hx
    · rw [hidxv]
      rfl
    · exact hvis1 x (hstackvis x hx)
  · -- onstack_iff
    intro x
    show x ∈ setAdd st.onstack v ↔ x ∈ v :: st.stack
    rw [mem_setAdd, List.mem_cons, hst.onstack_iff x]
    tauto
  · -- stack_nodup
    exact List.nodup_cons.mpr ⟨hvstack, hst.stack_nodup⟩
  · -- stack_sorted
    show List.Pairwise (fun a b => idxOf (scPush v st) b < idxOf (scPush v st) a)
      (v :: st.stack)
    rw [List.pairwise_cons]
    constructor
    · intro b hb
      rw [hidxOld b (hstackvis b hb), hidxOfv]
      exact hidxlt b hb
    · exact List.Pairwise.imp_of_mem
        (fun ha hb hab => by
          rw [hidxOld _ (hstackvis _ ha), hidxOld _ (hstackvis _ hb)]
          exact hab)
        hst.stack_sorted
  · -- scc_visited
    intro C hC x hx
    exact hvis1 x (hst.scc_visited C hC x hx)
  · -- scc_stack_disjoint
    intro C hC x hx hmem
    rcases List.mem_cons.mp hmem with rfl | hxs
    · exact hvisne x (hst.scc_visited C hC x hx) rfl
    · exact hst.scc_stack_disjoint C hC x hx hxs
  · -- visited_split
    intro x hx
    by_cases hxv : x = v
    · subst hxv
      exact Or.inl (List.mem_cons_self _ _)
    · rw [hidx x hxv] at hx
      rcases hst.visited_split x hx with h | h
      · exact Or.inl (List.mem_cons_of_mem _ h)
      · exact Or.inr h
  · -- scc_closed
    exact hst.scc_closed
  · -- scc_nodup
    exact hst.scc_nodup
  · -- scc_exact
    exact hst.scc_exact
  · -- low_inv
    intro x hx
    rcases List.mem_cons.mp hx with rfl | hxs
    · refine ⟨le_of_eq (by rw [hlowOfv, hidxOfv]), x, List.mem_cons_self _ _, ?_,
        Relation.ReflTransGen.refl⟩
      rw [hidxOfv, hlowOfv]
    · have hxv := hvisne x (hstackvis x hxs)
      have hlowx : lowOf (scPush v st) x = lowOf st x := by
        unfold lowOf
        rw [hlow x hxv]
      obtain ⟨h1, y, hy, hyeq, hyr⟩ := hst.low_inv x hxs
      refine ⟨?_, y, List.mem_cons_of_mem _ hy, ?_, hyr⟩
      · rw [hlowx, hidxOld x (hstackvis x hxs)]
        exact h1
      · rw [hlowx, hidxOld y (hstackvis y hy)]
        exact hyeq
  · -- low_pres
    intro x hx
    exact hlow x (hvisne x hx)
  · -- index_mono
    show st.index < st.index + 1
    omega
  · -- sccs_ext
    exact ⟨[], by simp [scPush]⟩
  · -- new_idx_ge
    intro w hwn hws
    by_cases hwv : w = v
    · subst hwv
      rw [hidxOfv]
    · exfalso
      rw [hidx w hwv, hwn] at hws
      exact Bool.noConfusion hws
  · -- new_reach
    intro w hwn hws
    by_cases hwv : w = v
    · subst hwv
      exact Relation.ReflTransGen.refl
    · exfalso
      rw [hidx w hwv, hwn] at hws
      exact Bool.noConfusion hws
  · -- new_succs_vis
    intro p hpn hps hpv
    exfalso
    rw [hidx p hpv, hpn] at hps
    exact Bool.noConfusion hps
  · -- new_old_low
    intro p hpn hps hpv
    exfalso
    rw [hidx p hpv, hpn] at hps
    exact Bool.noConfusion hps
  · -- stack_rest
    refine ⟨[], by simp [scPush], ?_, ?_, ?_⟩
    · intro w hw
      simp at hw
      subst hw
      exact hnone
    · intro w hw
      simp at hw
      subst hw
      exact Nat.le_refl _
    · intro w hw hwv
      simp at hw
      exact absurd hw hwv
  · -- count_lt
    exact count_strict adj hmono hv hnone (by rw [hidxv]; rfl)

/-- Updating `low[v]` to a justified value preserves the state
invariant. -/
theorem TInv_set_lowv (adj : List (String × List String)) (st : TarjanSt)
    (v : String) (m : Nat) (hst : TInv adj st) (hub : m ≤ idxOf st v)
    (hwit : ∃ y ∈ st.stack, idxOf st y = m ∧ AdjReach adj v y) :
    TInv adj { st with low := aset st.low v m } := by
  have hlowne : ∀ x, x ≠ v →
      lowOf { st with low := aset st.low v m } x = lowOf st x := by
    intro x hx
    unfold lowOf
    show (aget (aset st.low v m) x).getD 0 = _
    rw [aget_aset_ne _ _ hx]
  have hlowv : lowOf { st with low := aset st.low v m } v = m := by
    unfold lowOf
    show (aget (aset st.low v m) v).getD 0 = m
    rw [aget_aset_self]
    rfl
  have hidxeq : ∀ x, idxOf { st with low := aset st.low v m } x = idxOf st x :=
    fun _ => rfl
  refine ⟨hst.idx_lt, hst.idx_inj, hst.idx_keys, hst.stack_visited, hst.onstack_iff,
    hst.stack_nodup, hst.stack_sorted, hst.scc_visited, hst.scc_stack_disjoint,
    hst.visited_split, hst.scc_closed, hst.scc_nodup, hst.scc_exact, ?_⟩
  intro x hx
  by_cases hxv : x = v
  · subst hxv
    obtain ⟨y, hy, hyeq, hyr⟩ := hwit
    refine ⟨?_, y, hy, ?_, hyr⟩
    · rw [hlowv, hidxeq]
      exact hub
    · rw [hidxeq, hlowv]
      exact hyeq
  · obtain ⟨h1, y, hy, hyeq, hyr⟩ := hst.low_inv x hx
    refine ⟨?_, y, hy, ?_, hyr⟩
    · rw [hlowne x hxv, hidxeq]
      exact h1
    · rw [hidxeq, hlowne x hxv]
      exact hyeq

/-- Effect of a successor-loop step on a not-yet-visited successor: the
nested call followed by the `low[v]` update preserves the loop
invariant. -/
theorem scStep_new (adj : List (String × List String)) (st stc st' : TarjanSt)
    (v w : String) (hw : AdjE adj v w)
    (hL : SCLoop adj st v stc) (hnw : aget stc.indices w = none)
    (hP : SCPost adj stc w st') (stc' : TarjanSt)
    (hdef : stc' = { st' with
      low := aset st'.low v (min (lowOf st' v) (lowOf st' w)) }) :
    SCLoop adj st v stc' ∧
    (∀ x n, aget stc.indices x = some n → aget stc'.indices x = some n) ∧
    lowOf stc' v ≤ lowOf stc v ∧
    (aget stc'.indices w).isSome := by
  subst hdef
  have hlowne : ∀ x, x ≠ v →
      lowOf { st' with low := aset st'.low v (min (lowOf st' v) (lowOf st' w)) } x
        = lowOf st' x := by
    intro x hx
    unfold lowOf
    show (aget (aset st'.low v (min (lowOf st' v) (lowOf st' w))) x).getD 0 = _
    rw [aget_aset_ne _ _ hx]
  have hlowvNew :
      lowOf { st' with low := aset st'.low v (min (lowOf st' v) (lowOf st' w)) } v
        = min (lowOf st' v) (lowOf st' w) := by
    unfold lowOf
    show (aget (aset st'.low v (min (lowOf st' v) (lowOf st' w))) v).getD 0 = _
    rw [aget_aset_self]
    rfl
  have hvvis : (aget stc.indices v).isSome := by
    rw [hL.v_idx]
    rfl
  have hlowOfv' : lowOf st' v = lowOf stc v := by
    unfold lowOf
    rw [hP.low_pres v hvvis]
  have hidxv' : aget st'.indices v = some st.index := hP.idx_mono v st.index hL.v_idx
  have hidxOfvstc : idxOf stc v = st.index := by
    unfold idxOf
    rw [hL.v_idx]
    rfl
  have hidxOfv' : idxOf st' v = st.index := by
    unfold idxOf
    rw [hidxv']
    rfl
  obtain ⟨r0, hr, hnew0, hlow0, hlt0⟩ := hL.stack_rest
  have hvstc : v ∈ stc.stack := by
    rw [hr]
    exact List.mem_append_left _ (List.mem_append_right _ (List.mem_singleton.mpr rfl))
  have hstsub : ∀ y ∈ st.stack, y ∈ stc.stack := fun y hy => by
    rw [hr]
    exact List.mem_append_right _ hy
  obtain ⟨rest, hrest, hrnew, hrlow, hrlt, hrsh⟩ := hP.stack_rest
  have hvst' : v ∈ st'.stack := by
    rw [hrest]
    exact List.mem_append_right _ hvstc
  have hlowle : lowOf stc v ≤ idxOf stc v := (hL.inv.low_inv v hvstc).1
  have hminle : min (lowOf st' v) (lowOf st' w) ≤ idxOf st' v := by
    rw [hidxOfv']
    calc min (lowOf st' v) (lowOf st' w) ≤ lowOf st' v := min_le_left _ _
      _ = lowOf stc v := hlowOfv'
      _ ≤ idxOf stc v := hlowle
      _ = st.index := hidxOfvstc
  have hwit : ∃ y ∈ st'.stack, idxOf st' y = min (lowOf st' v) (lowOf st' w) ∧
      AdjReach adj v y := by
    by_cases hc : lowOf st' v ≤ lowOf st' w
    · rw [min_eq_left hc]
      obtain ⟨_, y, hy, hyeq, hyr⟩ := hL.inv.low_inv v hvstc
      have hyvis := hL.inv.stack_visited y hy
      refine ⟨y, ?_, ?_, hyr⟩
      · rw [hrest]
        exact List.mem_append_right _ hy
      · rw [idxOf_mono_eq hP.idx_mono hyvis, hyeq, hlowOfv']
    · push_neg at hc
      rw [min_eq_right (le_of_lt hc)]
      by_cases hws : w ∈ st'.stack
      · obtain ⟨_, y, hy, hyeq, hyr⟩ := hP.inv.low_inv w hws
        exact ⟨y, hy, hyeq, Relation.ReflTransGen.head hw hyr⟩
      · exfalso
        have h1 := hP.v_off_stack hws
        have h2 : idxOf st' w = stc.index := hP.idx_v
        rw [h1, h2] at hc
        have h3 : lowOf st' v ≤ st.index := by
          rw [hlowOfv', ← hidxOfvstc]
          exact hlowle
        have h4 := hL.index_mono
        omega
  have hTI : TInv adj
      { st' with low := aset st'.low v (min (lowOf st' v) (lowOf st' w)) } :=
    TInv_set_lowv adj st' v _ hP.inv hminle hwit
  have hvr0 : v ∉ r0 := by
    have hnd := hL.inv.stack_nodup
    rw [hr] at hnd
    have hd := (List.nodup_append.mp (List.nodup_append.mp hnd).1).2.2
    intro hvm
    exact hd hvm (List.mem_singleton.mpr rfl)
  have hrestne : ∀ x ∈ rest, x ≠ v := by
    intro x hx he
    have h2 := hrnew x hx
    rw [he, hL.v_idx] at h2
    exact Option.noConfusion h2
  refine ⟨⟨hTI, ?_, ?_, ?_, ?_, hL.v_new, ?_, ?_, ?_, ?_, ?_, ?_, ?_⟩, ?_, ?_, ?_⟩
  · -- idx_mono
    intro x n hx
    exact hP.idx_mono x n (hL.idx_mono x n hx)
  · -- low_pres
    intro x hx
    have hxv : x ≠ v := by
      intro h
      rw [h, hL.v_new] at hx
      exact Bool.noConfusion hx
    show aget (aset st'.low v (min (lowOf st' v) (lowOf st' w))) x = aget st.low x
    rw [aget_aset_ne _ _ hxv, hP.low_pres x (visited_mono hL.idx_mono hx),
      hL.low_pres x hx]
  · -- index_mono
    show st.index < st'.index
    exact lt_of_lt_of_le hL.index_mono hP.index_mono
  · -- sccs_ext
    obtain ⟨d1, h1⟩ := hL.sccs_ext
    obtain ⟨d2, h2⟩ := hP.sccs_ext
    refine ⟨d1 ++ d2, ?_⟩
    show st'.sccs = st.sccs ++ (d1 ++ d2)
    rw [h2, h1, List.append_assoc]
  · -- v_idx
    exact hidxv'
  · -- new_idx_ge
    intro w' hw'n hw'v
    show st.index ≤ idxOf st' w'
    by_cases hvis : (aget stc.indices w').isSome
    · rw [idxOf_mono_eq hP.idx_mono hvis]
      exact hL.new_idx_ge w' hw'n hvis
    · exact le_trans (le_of_lt hL.index_mono)
        (hP.new_idx_ge w' (Option.not_isSome_iff_eq_none.mp hvis) hw'v)
  · -- new_reach
    intro w' hw'n hw'v
    by_cases hvis : (aget stc.indices w').isSome
    · exact hL.new_reach w' hw'n hvis
    · exact Relation.ReflTransGen.head hw
        (hP.new_reach w' (Option.not_isSome_iff_eq_none.mp hvis) hw'v)
  · -- new_succs_vis
    intro p hpn hpv hpne y hy
    show (aget st'.indices y).isSome
    by_cases hvis : (aget stc.indices p).isSome
    · exact visited_mono hP.idx_mono (hL.new_succs_vis p hpn hvis hpne y hy)
    · exact hP.new_succs_vis p (Option.not_isSome_iff_eq_none.mp hvis) hpv y hy
  · -- new_old_low
    intro p hpn hpv hpne y hy hyst
    have hyvis : (aget stc.indices y).isSome := hL.inv.stack_visited y (hstsub y hyst)
    rw [hlowne p hpne]
    show lowOf st' p ≤ idxOf st' y
    by_cases hvis : (aget stc.indices p).isSome
    · have hlowp : lowOf st' p = lowOf stc p := by
        unfold lowOf
        rw [hP.low_pres p hvis]
      rw [hlowp, idxOf_mono_eq hP.idx_mono hyvis]
      exact hL.new_old_low p hpn hvis hpne y hy hyst
    · exact hP.new_old_low p (Option.not_isSome_iff_eq_none.mp hvis) hpv y hy
        (hstsub y hyst)
  · -- stack_rest
    refine ⟨rest ++ r0, ?_, ?_, ?_, ?_⟩
    · show st'.stack = ((rest ++ r0) ++ [v]) ++ st.stack
      rw [hrest, hr]
      simp [List.append_assoc]
    · intro x hx
      rcases List.mem_append.mp hx with hx | hx
      · rcases List.mem_append.mp hx with hx | hx
        · cases hq : aget st.indices x with
          | none => rfl
          | some n =>
            have h2 := hL.idx_mono x n hq
            rw [hrnew x hx] at h2
            exact Option.noConfusion h2
        · exact hnew0 x (List.mem_append_left _ hx)
      · rw [List.mem_singleton.mp hx]
        exact hL.v_new
    · intro x hx
      rw [hlowvNew]
      rcases List.mem_append.mp hx with hx | hx
      · rcases List.mem_append.mp hx with hx | hx
        · rw [hlowne x (hrestne x hx)]
          exact le_trans (min_le_right _ _) (hrlow x hx)
        · have hxv : x ≠ v := fun he => hvr0 (he ▸ hx)
          rw [hlowne x hxv]
          have hxvis : (aget stc.indices x).isSome := hL.inv.stack_visited x
            (by rw [hr]; exact List.mem_append_left _ (List.mem_append_left _ hx))
          have hlx : lowOf st' x = lowOf stc x := by
            unfold lowOf
            rw [hP.low_pres x hxvis]
          rw [hlx]
          calc min (lowOf st' v) (lowOf st' w) ≤ lowOf st' v := min_le_left _ _
            _ = lowOf stc v := hlowOfv'
            _ ≤ lowOf stc x := hlow0 x (List.mem_append_left _ hx)
      · rw [List.mem_singleton.mp hx, hlowvNew]
    · intro x hx hxv
      rcases List.mem_append.mp hx with hx | hx
      · rcases List.mem_append.mp hx with hx | hx
        · rw [hlowne x (hrestne x hx)]
          show lowOf st' x < idxOf st' x
          by_cases hxw : x = w
          · subst hxw
            have hxs : x ∈ st'.stack := by
              rw [hrest]
              exact List.mem_append_left _ hx
            exact hP.v_stack_low hxs
          · exact hrlt x hx hxw
        · have hxvis : (aget stc.indices x).isSome := hL.inv.stack_visited x
            (by rw [hr]; exact List.mem_append_left _ (List.mem_append_left _ hx))
          rw [hlowne x hxv]
          show lowOf st' x < idxOf st' x
          have hlx : lowOf st' x = lowOf stc x := by
            unfold lowOf
            rw [hP.low_pres x hxvis]
          rw [hlx, idxOf_mono_eq hP.idx_mono hxvis]
          exact hlt0 x (List.mem_append_left _ hx) hxv
      · exact absurd (List.mem_singleton.mp hx) hxv
  · -- count_lt
    exact lt_of_le_of_lt (count_mono_le adj hP.idx_mono) hL.count_lt
  · -- pointwise index preservation
    exact fun x n hx => hP.idx_mono x n hx
  · -- low[v] never increases
    rw [hlowvNew, ← hlowOfv']
    exact min_le_left _ _
  · -- the processed successor is visited
    exact hP.v_vis

/-- Effect of a successor-loop step on a visited on-stack successor. -/
theorem scStep_onstack (adj : List (String × List String)) (st stc : TarjanSt)
    (v w : String) (hw : AdjE adj v w)
    (hL : SCLoop adj st v stc) (hon : w ∈ stc.onstack) (stc' : TarjanSt)
    (hdef : stc' = { stc with
      low := aset stc.low v (min (lowOf stc v) (idxOf stc w)) }) :
    SCLoop adj st v stc' ∧
    (∀ x n, aget stc.indices x = some n → aget stc'.indices x = some n) ∧
    lowOf stc' v ≤ lowOf stc v ∧
    lowOf stc' v ≤ idxOf stc' w := by
  subst hdef
  have hlowne : ∀ x, x ≠ v →
      lowOf { stc with low := aset stc.low v (min (lowOf stc v) (idxOf stc w)) } x
        = lowOf stc x := by
    intro x hx
    unfold lowOf
    show (aget (aset stc.low v (min (lowOf stc v) (idxOf stc w))) x).getD 0 = _
    rw [aget_aset_ne _ _ hx]
  have hlowvNew :
      lowOf { stc with low := aset stc.low v (min (lowOf stc v) (idxOf stc w)) } v
        = min (lowOf stc v) (idxOf stc w) := by
    unfold lowOf
    show (aget (aset stc.low v (min (lowOf stc v) (idxOf stc w))) v).getD 0 = _
    rw [aget_aset_self]
    rfl
  have hidxeq : ∀ x,
      idxOf { stc with low := aset stc.low v (min (lowOf stc v) (idxOf stc w)) } x
        = idxOf stc x := fun _ => rfl
  have hwstack : w ∈ stc.stack := (hL.inv.onstack_iff w).mp hon
  obtain ⟨r0, hr, hnew0, hlow0, hlt0⟩ := hL.stack_rest
  have hvstc : v ∈ stc.stack := by
    rw [hr]
    exact List.mem_append_left _ (List.mem_append_right _ (List.mem_singleton.mpr rfl))
  have hlowle : lowOf stc v ≤ idxOf stc v := (hL.inv.low_inv v hvstc).1
  have hwit : ∃ y ∈ stc.stack, idxOf stc y = min (lowOf stc v) (idxOf stc w) ∧
      AdjReach adj v y := by
    by_cases hc : lowOf stc v ≤ idxOf stc w
    · rw [min_eq_left hc]
      obtain ⟨_, y, hy, hyeq, hyr⟩ := hL.inv.low_inv v hvstc
      exact ⟨y, hy, hyeq, hyr⟩
    · push_neg at hc
      rw [min_eq_right (le_of_lt hc)]
      exact ⟨w, hwstack, rfl, Relation.ReflTransGen.single hw⟩
  have hTI := TInv_set_lowv adj stc v _ hL.inv (le_trans (min_le_left _ _) hlowle) hwit
  refine ⟨⟨hTI, hL.idx_mono, ?_, hL.index_mono, hL.sccs_ext, hL.v_new, hL.v_idx,
    hL.new_idx_ge, hL.new_reach, hL.new_succs_vis, ?_, ?_, hL.count_lt⟩,
    fun x n hx => hx, ?_, ?_⟩
  · -- low_pres
    intro x hx
    have hxv : x ≠ v := by
      intro h
      rw [h, hL.v_new] at hx
      exact Bool.noConfusion hx
    show aget (aset stc.low v (min (lowOf stc v) (idxOf stc w))) x = aget st.low x
    rw [aget_aset_ne _ _ hxv]
    exact hL.low_pres x hx
  · -- new_old_low
    intro p hpn hpv hpne y hy hyst
    rw [hlowne p hpne, hidxeq]
    exact hL.new_old_low p hpn hpv hpne y hy hyst
  · -- stack_rest
    refine ⟨r0, hr, hnew0, ?_, ?_⟩
    · intro x hx
      rw [hlowvNew]
      by_cases hxv : x = v
      · subst hxv
        rw [hlowvNew]
      · rw [hlowne x hxv]
        exact le_trans (min_le_left _ _) (hlow0 x hx)
    · intro x hx hxv
      rw [hlowne x hxv, hidxeq]
      exact hlt0 x hx hxv
  · -- low[v] never increases
    rw [hlowvNew]
    exact min_le_left _ _
  · -- low[v] bounded by the on-stack successor index
    rw [hlowvNew, hidxeq]
    exact min_le_right _ _

/-- One successor-loop iteration preserves the loop invariant; the
processed successor ends visited, `low[v]` never increases, and a
processed successor lying on the entry stack bounds `low[v]`. -/
theorem scStep_spec (adj : List (String × List String))
    (closed : ∀ a b, AdjE adj a b → b ∈ adjKeys adj) (fuel : Nat)
    (IH : ∀ w stc, TInv adj stc → w ∈ adjKeys adj → aget stc.indices w = none →
      unvisitedCount adj stc ≤ fuel → SCPost adj stc w (strongconnect adj fuel w stc))
    (st : TarjanSt) (v : String) (hbud : unvisitedCount adj st ≤ fuel + 1)
    (stc : TarjanSt) (hL : SCLoop adj st v stc) (w : String) (hw : AdjE adj v w) :
    SCLoop adj st v (scStep adj fuel v stc w) ∧
    (∀ x n, aget stc.indices x = some n →
      aget (scStep adj fuel v stc w).indices x = some n) ∧
    lowOf (scStep adj fuel v stc w) v ≤ lowOf stc v ∧
    (aget (scStep adj fuel v stc w).indices w).isSome ∧
    (w ∈ st.stack →
      lowOf (scStep adj fuel v stc w) v ≤ idxOf (scStep adj fuel v stc w) w) := by
  by_cases hnw : aget stc.indices w = none
  · have hbud' : unvisitedCount adj stc ≤ fuel :=
      Nat.lt_succ_iff.mp (lt_of_lt_of_le hL.count_lt hbud)
    have hP : SCPost adj stc w (strongconnect adj fuel w stc) :=
      IH w stc hL.inv (closed v w hw) hnw hbud'
    have hstep : scStep adj fuel v stc w =
        { strongconnect adj fuel w stc with
          low := aset (strongconnect adj fuel w stc).low v
            (min (lowOf (strongconnect adj fuel w stc) v)
              (lowOf (strongconnect adj fuel w stc) w)) } := by
      unfold scStep
      rw [if_pos hnw]
    obtain ⟨h1, h2, h3, h4⟩ := scStep_new adj st stc (strongconnect adj fuel w stc)
      v w hw hL hnw hP (scStep adj fuel v stc w) hstep
    refine ⟨h1, h2, h3, h4, ?_⟩
    intro hwst
    exfalso
    obtain ⟨r0, hr, _, _, _⟩ := hL.stack_rest
    have hvis := hL.inv.stack_visited w (by rw [hr]; exact List.mem_append_right _ hwst)
    rw [hnw] at hvis
    exact Bool.noConfusion hvis
  · by_cases hon : w ∈ stc.onstack
    · have hstep : scStep adj fuel v stc w =
          { stc with low := aset stc.low v (min (lowOf stc v) (idxOf stc w)) } := by
        unfold scStep
        rw [if_neg hnw, if_pos hon]
      obtain ⟨h1, h2, h3, h4⟩ := scStep_onstack adj st stc v w hw hL hon
        (scStep adj fuel v stc w) hstep
      refine ⟨h1, h2, h3, ?_, fun _ => h4⟩
      have hvis : (aget stc.indices w).isSome := Option.ne_none_iff_isSome.mp hnw
      rw [hstep]
      exact hvis
    · have hstep : scStep adj fuel v stc w = stc := by
        unfold scStep
        rw [if_neg hnw, if_neg hon]
      rw [hstep]
      refine ⟨hL, fun x n hx => hx, le_refl _, Option.ne_none_iff_isSome.mp hnw, ?_⟩
      intro hwst
      exfalso
      obtain ⟨r0, hr, _, _, _⟩ := hL.stack_rest
      exact hon ((hL.inv.onstack_iff w).mpr
        (by rw [hr]; exact List.mem_append_right _ hwst))

/-- The successor loop of `strongconnect` preserves the loop invariant,
leaves every processed successor visited, and bounds `low[v]` by the
index of every processed successor that lies on the entry stack. -/
theorem scLoop_fold (adj : List (String × List String))
    (closed : ∀ a b, AdjE adj a b → b ∈ adjKeys adj) (fuel : Nat)
    (IH : ∀ w stc, TInv adj stc → w ∈ adjKeys adj → aget stc.indices w = none →
      unvisitedCount adj stc ≤ fuel → SCPost adj stc w (strongconnect adj fuel w stc))
    (st : TarjanSt) (v : String) (hbud : unvisitedCount adj st ≤ fuel + 1) :
    ∀ (ws : List String), (∀ w ∈ ws, AdjE adj v w) →
    ∀ stc, SCLoop adj st v stc →
      SCLoop adj st v (ws.foldl (scStep adj fuel v) stc) ∧
      (∀ x n, aget stc.indices x = some n →
        aget (ws.foldl (scStep adj fuel v) stc).indices x = some n) ∧
      lowOf (ws.foldl (scStep adj fuel v) stc) v ≤ lowOf stc v ∧
      (∀ w ∈ ws, (aget (ws.foldl (scStep adj fuel v) stc).indices w).isSome) ∧
      (∀ w ∈ ws, w ∈ st.stack →
        lowOf (ws.foldl (scStep adj fuel v) stc) v ≤
          idxOf (ws.foldl (scStep adj fuel v) stc) w) := by
  intro ws
  induction ws with
  | nil =>
    intro _ stc hL
    exact ⟨hL, fun x n hx => hx, le_refl _, by simp, by simp⟩
  | cons w tl ih =>
    intro hws stc hL
    obtain ⟨h1, h2, h3, h4, h5⟩ := scStep_spec adj closed fuel IH st v hbud stc hL w
      (hws w (List.mem_cons_self w tl))
    obtain ⟨g1, g2, g3, g4, g5⟩ := ih (fun x hx => hws x (List.mem_cons_of_mem w hx))
      (scStep adj fuel v stc w) h1
    rw [List.foldl_cons]
    refine ⟨g1, ?_, ?_, ?_, ?_⟩
    · exact fun x n hx => g2 x n (h2 x n hx)
    · exact le_trans g3 h3
    · intro x hx
      rcases List.mem_cons.mp hx with rfl | hx
      · exact visited_mono g2 h4
      · exact g4 x hx
    · intro x hx hxst
      rcases List.mem_cons.mp hx with rfl | hx
      · rw [idxOf_mono_eq g2 h4]
        exact le_trans g3 (h5 hxst)
      · exact g5 x hx hxst

/-- Completing a `strongconnect` call: the final pop step turns the loop
invariant into the call postcondition. -/
theorem scPop_post (adj : List (String × List String)) (st : TarjanSt) (v : String)
    (hst : TInv adj st) (st2 : TarjanSt) (hL : SCLoop adj st v st2)
    (hsv : ∀ w ∈ adjGet adj v, (aget st2.indices w).isSome)
    (hsl : ∀ w ∈ adjGet adj v, w ∈ st.stack → lowOf st2 v ≤ idxOf st2 w) :
    SCPost adj st v (scPop v st2) := by
  obtain ⟨r0, hr, hnew0, hlow0, hlt0⟩ := hL.stack_rest
  have hvstc : v ∈ st2.stack := by
    rw [hr]
    exact List.mem_append_left _ (List.mem_append_right _ (List.mem_singleton.mpr rfl))
  have hidxOfv : idxOf st2 v = st.index := by
    unfold idxOf
    rw [hL.v_idx]
    rfl
  have hvr0 : v ∉ r0 := by
    have hnd := hL.inv.stack_nodup
    rw [hr] at hnd
    have hd := (List.nodup_append.mp (List.nodup_append.mp hnd).1).2.2
    intro hvm
    exact hd hvm (List.mem_singleton.mpr rfl)
  have hvstack : v ∉ st.stack := by
    intro h
    have h2 := hst.stack_visited v h
    rw [hL.v_new] at h2
    exact Bool.noConfusion h2
  have hstack2 : st2.stack = r0 ++ v :: st.stack := by
    rw [hr]
    simp
  have hCdisj : ∀ x ∈ r0 ++ [v], x ∉ st.stack := by
    intro x hx hxs
    have h1 := hnew0 x hx
    have h2 := hst.stack_visited x hxs
    rw [h1] at h2
    exact Bool.noConfusion h2
  have holdidx : ∀ y ∈ st.stack, idxOf st2 y < st.index := by
    intro y hy
    obtain ⟨n, hn⟩ := Option.isSome_iff_exists.mp (hst.stack_visited y hy)
    have hlt := hst.idx_lt y n hn
    unfold idxOf
    rw [hL.idx_mono y n hn]
    exact hlt
  have hlowst2 : ∀ x, (aget st.indices x).isSome → lowOf st2 x = lowOf st x := by
    intro x hx
    unfold lowOf
    rw [hL.low_pres x hx]
  by_cases hpop : lowOf st2 v = idxOf st2 v
  · -- the component rooted at v pops
    have hpopeq : popUntil v st2.stack [] = (r0 ++ [v], st.stack) := by
      rw [hstack2]
      have h := popUntil_spec v r0 st.stack [] hvr0
      simpa using h
    have hstep : scPop v st2 = { st2 with
        stack := st.stack
        onstack := st2.onstack.filter (fun x => x ∉ r0 ++ [v])
        sccs := st2.sccs ++ [r0 ++ [v]] } := by
      unfold scPop
      rw [if_pos hpop, hpopeq]
    have hCstack : ∀ x ∈ r0 ++ [v], x ∈ st2.stack := fun x hx => by
      rw [hr]
      exact List.mem_append_left _ hx
    have hCvis : ∀ x ∈ r0 ++ [v], (aget st2.indices x).isSome :=
      fun x hx => hL.inv.stack_visited x (hCstack x hx)
    have hCreach : ∀ x ∈ r0 ++ [v], AdjReach adj v x :=
      fun x hx => hL.new_reach x (hnew0 x hx) (hCvis x hx)
    have hlowv : lowOf st2 v = st.index := by
      rw [hpop, hidxOfv]
    have hdesc : ∀ x ∈ r0 ++ [v], AdjReach adj x v := by
      have key : ∀ n, ∀ x ∈ r0 ++ [v], idxOf st2 x < n → AdjReach adj x v := by
        intro n
        induction n with
        | zero =>
          intro x _ h
          exact absurd h (Nat.not_lt_zero _)
        | succ n ihn =>
          intro x hx hlt
          by_cases hxv : x = v
          · subst hxv
            exact Relation.ReflTransGen.refl
          · obtain ⟨_, y, hy, hyeq, hyr⟩ := hL.inv.low_inv x (hCstack x hx)
            have hxlow : lowOf st2 x < idxOf st2 x := hlt0 x hx hxv
            have hlowge : st.index ≤ lowOf st2 x := by
              rw [← hlowv]
              exact hlow0 x hx
            have hyC : y ∈ r0 ++ [v] := by
              rw [hstack2] at hy
              rcases List.mem_append.mp hy with h | h
              · exact List.mem_append_left _ h
              · rcases List.mem_cons.mp h with rfl | h
                · exact List.mem_append_right _ (List.mem_singleton.mpr rfl)
                · exfalso
                  have h2 := holdidx y h
                  omega
            have hyn : idxOf st2 y < n := by omega
            exact Relation.ReflTransGen.trans hyr (ihn y hyC hyn)
      intro x hx
      exact key (idxOf st2 x + 1) x hx (Nat.lt_succ_self _)
    have hclosure : ∀ z, AdjReach adj v z →
        z ∈ r0 ++ [v] ∨ ∃ C' ∈ st2.sccs, z ∈ C' := by
      intro z hz
      induction hz with
      | refl => exact Or.inl (List.mem_append_right _ (List.mem_singleton.mpr rfl))
      | @tail b c hab hbc ihz =>
        rcases ihz with hb | ⟨C', hC', hbC'⟩
        · have hbvis := hCvis _ hb
          have hbnew := hnew0 _ hb
          have hcv : (aget st2.indices c).isSome := by
            by_cases hbv : b = v
            · subst hbv
              exact hsv c hbc
            · exact hL.new_succs_vis b hbnew hbvis hbv c hbc
          rcases hL.inv.visited_split c hcv with hcs | hcscc
          · rw [hstack2] at hcs
            rcases List.mem_append.mp hcs with h | h
            · exact Or.inl (List.mem_append_left _ h)
            · rcases List.mem_cons.mp h with hcv2 | hcst
              · exact Or.inl (List.mem_append_right _ (List.mem_singleton.mpr hcv2))
              · exfalso
                have hcidx := holdidx c hcst
                by_cases hbv : b = v
                · subst hbv
                  have h3 := hsl c hbc hcst
                  omega
                · have h3 := hL.new_old_low b hbnew hbvis hbv c hbc hcst
                  have h4 := hlow0 b hb
                  omega
          · exact Or.inr hcscc
        · obtain ⟨C'', hC'', hcC''⟩ := hL.inv.scc_closed C' hC' _ hbC' c hbc
          exact Or.inr ⟨C'', hC'', hcC''⟩
    have hsccprop : ∀ a b, AdjReach adj a b →
        (∃ C' ∈ st2.sccs, a ∈ C') → ∃ C' ∈ st2.sccs, b ∈ C' := by
      intro a b hab
      induction hab with
      | refl => exact id
      | @tail p q hap hpq ihz =>
        intro ha
        obtain ⟨C', hC', hpC'⟩ := ihz ha
        exact hL.inv.scc_closed C' hC' p hpC' q hpq
    have hCexact : ∀ x, x ∈ r0 ++ [v] ↔ AdjReach adj v x ∧ AdjReach adj x v := by
      intro x
      constructor
      · intro hx
        exact ⟨hCreach x hx, hdesc x hx⟩
      · rintro ⟨hvx, hxv⟩
        rcases hclosure x hvx with h | h
        · exact h
        · exfalso
          obtain ⟨C', hC', hvC'⟩ := hsccprop x v hxv h
          exact hL.inv.scc_stack_disjoint C' hC' v hvC' hvstc
    have hCnodup : (r0 ++ [v]).Nodup := by
      have hnd := hL.inv.stack_nodup
      rw [hr] at hnd
      exact (List.nodup_append.mp hnd).1
    rw [hstep]
    refine ⟨⟨hL.inv.idx_lt, hL.inv.idx_inj, hL.inv.idx_keys, ?_, ?_, ?_, ?_, ?_, ?_,
      ?_, ?_, ?_, ?_, ?_⟩, hL.idx_mono, hL.low_pres, le_of_lt hL.index_mono, ?_,
      ?_, hidxOfv, hL.new_idx_ge, hL.new_reach, ?_, ?_, ?_, ?_, ?_,
      le_of_lt hL.count_lt⟩
    · -- stack_visited
      intro x hx
      exact hL.inv.stack_visited x
        (by rw [hstack2]; exact List.mem_append_right _ (List.mem_cons_of_mem _ hx))
    · -- onstack_iff
      intro x
      rw [List.mem_filter]
      constructor
      · rintro ⟨h1, h2⟩
        simp only [decide_eq_true_eq] at h2
        have hx2 := (hL.inv.onstack_iff x).mp h1
        rw [hstack2] at hx2
        rcases List.mem_append.mp hx2 with h | h
        · exact absurd (List.mem_append_left _ h) h2
        · rcases List.mem_cons.mp h with rfl | h
          · exact absurd (List.mem_append_right _ (List.mem_singleton.mpr rfl)) h2
          · exact h
      · intro hxs
        refine ⟨(hL.inv.onstack_iff x).mpr
          (by rw [hstack2]; exact List.mem_append_right _ (List.mem_cons_of_mem _ hxs)), ?_⟩
        simp only [decide_eq_true_eq]
        intro hmem
        exact hCdisj x hmem hxs
    · -- stack_nodup
      have hnd := hL.inv.stack_nodup
      rw [hstack2] at hnd
      exact (List.nodup_cons.mp (List.nodup_append.mp hnd).2.1).2
    · -- stack_sorted
      have hp := hL.inv.stack_sorted
      rw [hstack2] at hp
      exact (List.pairwise_cons.mp (List.pairwise_append.mp hp).2.1).2
    · -- scc_visited
      intro C' hC' x hx
      rcases List.mem_append.mp hC' with h | h
      · exact hL.inv.scc_visited C' h x hx
      · rw [List.mem_singleton.mp h] at hx
        exact hCvis x hx
    · -- scc_stack_disjoint
      intro C' hC' x hx hxs
      rcases List.mem_append.mp hC' with h | h
      · exact hL.inv.scc_stack_disjoint C' h x hx
          (by rw [hstack2]; exact List.mem_append_right _ (List.mem_cons_of_mem _ hxs))
      · rw [List.mem_singleton.mp h] at hx
        exact hCdisj x hx hxs
    · -- visited_split
      intro x hx
      rcases hL.inv.visited_split x hx with h | ⟨C', hC', hxC'⟩
      · rw [hstack2] at h
        rcases List.mem_append.mp h with h | h
        · exact Or.inr ⟨r0 ++ [v], List.mem_append_right _ (List.mem_singleton.mpr rfl),
            List.mem_append_left _ h⟩
        · rcases List.mem_cons.mp h with hxv | h
          · exact Or.inr ⟨r0 ++ [v], List.mem_append_right _ (List.mem_singleton.mpr rfl),
              List.mem_append_right _ (List.mem_singleton.mpr hxv)⟩
          · exact Or.inl h
      · exact Or.inr ⟨C', List.mem_append_left _ hC', hxC'⟩
    · -- scc_closed
      intro C' hC' x hx y hxy
      rcases List.mem_append.mp hC' with h | h
      · obtain ⟨C'', hC'', hyC''⟩ := hL.inv.scc_closed C' h x hx y hxy
        exact ⟨C'', List.mem_append_left _ hC'', hyC''⟩
      · rw [List.mem_singleton.mp h] at hx
        have hvy : AdjReach adj v y := Relation.ReflTransGen.tail (hCreach x hx) hxy
        rcases hclosure y hvy with hy | ⟨C'', hC'', hyC''⟩
        · exact ⟨r0 ++ [v], List.mem_append_right _ (List.mem_singleton.mpr rfl), hy⟩
        · exact ⟨C'', List.mem_append_left _ hC'', hyC''⟩
    · -- scc_nodup
      intro C' hC'
      rcases List.mem_append.mp hC' with h | h
      · exact hL.inv.scc_nodup C' h
      · rw [List.mem_singleton.mp h]
        exact hCnodup
    · -- scc_exact
      intro C' hC'
      rcases List.mem_append.mp hC' with h | h
      · exact hL.inv.scc_exact C' h
      · rw [List.mem_singleton.mp h]
        exact ⟨v, List.mem_append_right _ (List.mem_singleton.mpr rfl), hCexact⟩
    · -- low_inv
      intro x hx
      have hxvis := hst.stack_visited x hx
      obtain ⟨h1, y, hy, hyeq, hyr⟩ := hst.low_inv x hx
      refine ⟨?_, y, hy, ?_, hyr⟩
      · show lowOf st2 x ≤ idxOf st2 x
        rw [hlowst2 x hxvis, idxOf_mono_eq hL.idx_mono hxvis]
        exact h1
      · show idxOf st2 y = lowOf st2 x
        rw [hlowst2 x hxvis, idxOf_mono_eq hL.idx_mono (hst.stack_visited y hy)]
        exact hyeq
    · -- sccs_ext
      obtain ⟨d, hd⟩ := hL.sccs_ext
      refine ⟨d ++ [r0 ++ [v]], ?_⟩
      show st2.sccs ++ [r0 ++ [v]] = st.sccs ++ (d ++ [r0 ++ [v]])
      rw [hd, List.append_assoc]
    · -- v_vis
      show (aget st2.indices v).isSome
      rw [hL.v_idx]
      rfl
    · -- new_succs_vis
      intro p hpn hpv y hy
      by_cases hpvv : p = v
      · subst hpvv
        exact hsv y hy
      · exact hL.new_succs_vis p hpn hpv hpvv y hy
    · -- new_old_low
      intro p hpn hpv y hy hyst
      by_cases hpvv : p = v
      · subst hpvv
        exact hsl y hy hyst
      · exact hL.new_old_low p hpn hpv hpvv y hy hyst
    · -- stack_rest
      refine ⟨[], ?_, ?_, ?_, ?_, Or.inl rfl⟩
      · show st.stack = [] ++ st.stack
        rw [List.nil_append]
      · intro w hw
        exact absurd hw (List.not_mem_nil w)
      · intro w hw
        exact absurd hw (List.not_mem_nil w)
      · intro w hw
        exact absurd hw (List.not_mem_nil w)
    · -- v_stack_low
      intro h
      exact absurd h hvstack
    · -- v_off_stack
      intro _
      exact hpop
  · -- no pop: v stays on the stack
    have hstep : scPop v st2 = st2 := by
      unfold scPop
      rw [if_neg hpop]
    rw [hstep]
    refine ⟨hL.inv, hL.idx_mono, hL.low_pres, le_of_lt hL.index_mono, hL.sccs_ext,
      ?_, hidxOfv, hL.new_idx_ge, hL.new_reach, ?_, ?_, ?_, ?_, ?_,
      le_of_lt hL.count_lt⟩
    · -- v_vis
      rw [hL.v_idx]
      rfl
    · -- new_succs_vis
      intro p hpn hpv y hy
      by_cases hpvv : p = v
      · subst hpvv
        exact hsv y hy
      · exact hL.new_succs_vis p hpn hpv hpvv y hy
    · -- new_old_low
      intro p hpn hpv y hy hyst
      by_cases hpvv : p = v
      · subst hpvv
        exact hsl y hy hyst
      · exact hL.new_old_low p hpn hpv hpvv y hy hyst
    · -- stack_rest
      exact ⟨r0 ++ [v], hr, hnew0, hlow0, hlt0, Or.inr ⟨r0, rfl⟩⟩
    · -- v_stack_low
      intro _
      exact lt_of_le_of_ne (hL.inv.low_inv v hvstc).1 hpop
    · -- v_off_stack
      intro h
      exact absurd hvstc h

/-- Specification of a completed `strongconnect` call, by induction on
the fuel: with fuel at least the number of unvisited keys plus one, a
call on an unvisited key satisfies the postcondition. -/
theorem strongconnect_spec (adj : List (String × List String))
    (closed : ∀ a b, AdjE adj a b → b ∈ adjKeys adj) :
    ∀ (fuel : Nat) (v : String) (st : TarjanSt), TInv adj st → v ∈ adjKeys adj →
      aget st.indices v = none → unvisitedCount adj st ≤ fuel →
      SCPost adj st v (strongconnect adj fuel v st) := by
  intro fuel
  induction fuel with
  | zero =>
    intro v st hst hv hnone hc
    exfalso
    have hp := unvisited_pos adj st v hv hnone
    omega
  | succ fuel ih =>
    intro v st hst hv hnone hc
    rw [strongconnect_eq]
    have hL0 := scPush_scloop adj st v hst hv hnone
    obtain ⟨hL, hmono, hlow, hvis, hslow⟩ := scLoop_fold adj closed fuel ih st v hc
      (adjGet adj v) (fun w hw => hw) (scPush v st) hL0
    exact scPop_post adj st v hst _ hL hvis hslow

/-- The per-key driver loop of `mark_cycles` keeps the invariant and an
empty stack between calls, visits every processed key, and never
increases the unvisited count. -/
theorem tarjan_fold (adj : List (String × List String))
    (closed : ∀ a b, AdjE adj a b → b ∈ adjKeys adj) (fuelN : Nat) :
    ∀ (ks : List String) (st : TarjanSt), TInv adj st → st.stack = [] →
      (∀ k ∈ ks, k ∈ adjKeys adj) → unvisitedCount adj st ≤ fuelN →
      TInv adj (ks.foldl (fun st v => if aget st.indices v = none then
        strongconnect adj fuelN v st else st) st) ∧
      (ks.foldl (fun st v => if aget st.indices v = none then
        strongconnect adj fuelN v st else st) st).stack = [] ∧
      (∀ k ∈ ks, (aget (ks.foldl (fun st v => if aget st.indices v = none then
        strongconnect adj fuelN v st else st) st).indices k).isSome) ∧
      (∀ x n, aget st.indices x = some n →
        aget (ks.foldl (fun st v => if aget st.indices v = none then
          strongconnect adj fuelN v st else st) st).indices x = some n) ∧
      unvisitedCount adj (ks.foldl (fun st v => if aget st.indices v = none then
        strongconnect adj fuelN v st else st) st) ≤ fuelN := by
  intro ks
  induction ks with
  | nil =>
    intro st hst hstk hks hcnt
    exact ⟨hst, hstk, by simp, fun x n hx => hx, hcnt⟩
  | cons k tl ih =>
    intro st hst hstk hks hcnt
    simp only [List.foldl_cons]
    by_cases hnone : aget st.indices k = none
    · rw [if_pos hnone]
      have hpost := strongconnect_spec adj closed fuelN k st hst
        (hks k (List.mem_cons_self k tl)) hnone hcnt
      obtain ⟨rest, hrest, hrnew, hrlow, hrlt, hrsh⟩ := hpost.stack_rest
      have hstack' : (strongconnect adj fuelN k st).stack = [] := by
        rcases hrsh with hre | ⟨q0, hq⟩
        · rw [hrest, hre, hstk]
          rfl
        · exfalso
          have hvmem : k ∈ (strongconnect adj fuelN k st).stack := by
            rw [hrest, hq]
            exact List.mem_append_left _
              (List.mem_append_right _ (List.mem_singleton.mpr rfl))
          have hlt := hpost.v_stack_low hvmem
          obtain ⟨_, y, hy, hyeq, _⟩ :=
            hpost.inv.low_inv k hvmem
          have hyrest : y ∈ rest := by
            rw [hrest, hstk, List.append_nil] at hy
            exact hy
          have hyvis := hpost.inv.stack_visited y
            (by rw [hrest]; exact List.mem_append_left _ hyrest)
          have hyge := hpost.new_idx_ge y (hrnew y hyrest) hyvis
          have hidxv := hpost.idx_v
          omega
      have hcnt' : unvisitedCount adj (strongconnect adj fuelN k st) ≤ fuelN :=
        le_trans hpost.count_le hcnt
      obtain ⟨g1, g2, g3, g4, g5⟩ := ih (strongconnect adj fuelN k st) hpost.inv
        hstack' (fun x hx => hks x (List.mem_cons_of_mem _ hx)) hcnt'
      refine ⟨g1, g2, ?_, fun x n hx => g4 x n (hpost.idx_mono x n hx), g5⟩
      intro x hx
      rcases List.mem_cons.mp hx with rfl | hx
      · exact visited_mono g4 hpost.v_vis
      · exact g3 x hx
    · rw [if_neg hnone]
      have hvisk : (aget st.indices k).isSome := Option.ne_none_iff_isSome.mp hnone
      obtain ⟨g1, g2, g3, g4, g5⟩ := ih st hst hstk
        (fun x hx => hks x (List.mem_cons_of_mem _ hx)) hcnt
      refine ⟨g1, g2, ?_, g4, g5⟩
      intro x hx
      rcases List.mem_cons.mp hx with rfl | hx
      · exact visited_mono g4 hvisk
      · exact g3 x hx

/-- The SCC enumeration of `mark_cycles`: each recorded component is
duplicate free, consists of adjacency keys, and is exactly a mutual
reachability class of one of its members; and every adjacency key appears
in a recorded component. -/
theorem tarjan_sccs_spec (g : Graph) :
    (∀ C ∈ tarjan_sccs g, C.Nodup) ∧
    (∀ C ∈ tarjan_sccs g, ∀ x ∈ C, x ∈ adjKeys (_build_adjacency g)) ∧
    (∀ C ∈ tarjan_sccs g, ∃ u ∈ C, ∀ x, x ∈ C ↔
      AdjReach (_build_adjacency g) u x ∧ AdjReach (_build_adjacency g) x u) ∧
    (∀ x ∈ adjKeys (_build_adjacency g), ∃ C ∈ tarjan_sccs g, x ∈ C) := by
  have hts : tarjan_sccs g = ((adjKeys (_build_adjacency g)).foldl
      (fun st v => if aget st.indices v = none then
        strongconnect (_build_adjacency g)
          ((adjKeys (_build_adjacency g)).length + 1) v st
      else st) TarjanSt.init).sccs := rfl
  obtain ⟨hTI, hstk, hvis, _, _⟩ := tarjan_fold (_build_adjacency g)
    (adjE_build_closed g) ((adjKeys (_build_adjacency g)).length + 1)
    (adjKeys (_build_adjacency g)) TarjanSt.init (TInv_init _) rfl
    (fun _ hk => hk) (le_trans (count_init_le _) (Nat.le_succ _))
  refine ⟨?_, ?_, ?_, ?_⟩
  · intro C hC
    rw [hts] at hC
    exact hTI.scc_nodup C hC
  · intro C hC x hx
    rw [hts] at hC
    exact hTI.idx_keys x (hTI.scc_visited C hC x hx)
  · intro C hC
    rw [hts] at hC
    exact hTI.scc_exact C hC
  · intro x hx
    rcases hTI.visited_split x (hvis x hx) with h | h
    · rw [hstk] at h
      exact absurd h (List.not_mem_nil x)
    · obtain ⟨C, hC, hxC⟩ := h
      refine ⟨C, ?_, hxC⟩
      rw [hts]
      exact hC

/-- `mark_cycles` records exactly the sorted cycle components of the SCC
enumeration, in enumeration order. -/
theorem mark_cycles_components (g : Graph) :
    (mark_cycles g).cycle_components =
      ((tarjan_sccs g).filter (is_cycle_comp (_build_adjacency g))).map
        (sortL strLe) := by
  show ((tarjan_sccs g).foldl (record_component g (_build_adjacency g))
    { g with cycle_nodes := [], cycle_edges := [], cycle_components := [] }).cycle_components = _
  rw [record_fold_components]
  rfl

/-- C1: for every graph, after `mark_cycles` runs, every known target and
library node is included as a vertex; two distinct vertices belong to the
same recorded cycle component iff each is reachable from the other via
directed edges; and the sorted form of an enumerated strongly connected
component is recorded as a cycle component iff it has more than one
member or its single member has a self-loop edge. -/
theorem C1_cycle_components_iff_mutual_reach (g : Graph) :
    (∀ x, x ∈ g.target_nodes ∨ x ∈ g.lib_nodes → x ∈ vertices g) ∧
    (∀ u v, u ∈ vertices g → v ∈ vertices g → u ≠ v →
      ((∃ comp ∈ (mark_cycles g).cycle_components, u ∈ comp ∧ v ∈ comp) ↔
        MutualReach g u v)) ∧
    (∀ comp ∈ tarjan_sccs g,
      (sortL strLe comp ∈ (mark_cycles g).cycle_components ↔
        1 < comp.length ∨ ∃ u, comp = [u] ∧ (u, u) ∈ g.edges)) := by
  obtain ⟨hnodup, hkeys, hexact, hcover⟩ := tarjan_sccs_spec g
  have hcomps := mark_cycles_components g
  refine ⟨?_, ?_, ?_⟩
  · intro x hx
    show x ∈ adjKeys (_build_adjacency g)
    rw [adjKeys_build]
    exact Or.inr hx
  · intro u v hu hv huv
    constructor
    · rintro ⟨comp, hcomp, hucomp, hvcomp⟩
      rw [hcomps] at hcomp
      obtain ⟨C, hC, hCsort⟩ := List.mem_map.mp hcomp
      have hCsccs : C ∈ tarjan_sccs g := (List.mem_filter.mp hC).1
      rw [← hCsort, mem_sortL] at hucomp hvcomp
      obtain ⟨r, hr, hiff⟩ := hexact C hCsccs
      have hu' := (hiff u).mp hucomp
      have hv' := (hiff v).mp hvcomp
      constructor
      · rw [← adjReach_build_iff g u v]
        exact Relation.ReflTransGen.trans hu'.2 hv'.1
      · rw [← adjReach_build_iff g v u]
        exact Relation.ReflTransGen.trans hv'.2 hu'.1
    · rintro ⟨huv1, hvu1⟩
      have hukeys : u ∈ adjKeys (_build_adjacency g) := hu
      obtain ⟨C, hC, huC⟩ := hcover u hukeys
      obtain ⟨r, hr, hiff⟩ := hexact C hC
      have hu' := (hiff u).mp huC
      have hvC : v ∈ C := by
        rw [hiff]
        constructor
        · exact Relation.ReflTransGen.trans hu'.1 ((adjReach_build_iff g u v).mpr huv1)
        · exact Relation.ReflTransGen.trans ((adjReach_build_iff g v u).mpr hvu1) hu'.2
      have hlen : 1 < C.length := by
        rcases C with _ | ⟨a, _ | ⟨b, rest⟩⟩
        · simp at huC
        · rw [List.mem_singleton] at huC hvC
          exact absurd (huC.trans hvC.symm) huv
        · simp only [List.length_cons]
          omega
      have hcyc : is_cycle_comp (_build_adjacency g) C = true := by
        unfold is_cycle_comp
        rw [if_pos hlen]
      refine ⟨sortL strLe C, ?_, ?_, ?_⟩
      · rw [hcomps]
        exact List.mem_map.mpr ⟨C, List.mem_filter.mpr ⟨hC, hcyc⟩, rfl⟩
      · rw [mem_sortL]
        exact huC
      · rw [mem_sortL]
        exact hvC
  · intro comp hcomp
    constructor
    · intro hmem
      rw [hcomps] at hmem
      obtain ⟨C, hC, hCs⟩ := List.mem_map.mp hmem
      obtain ⟨hCsccs, hCcyc⟩ := List.mem_filter.mp hC
      have hperm : comp.Perm C := by
        have h1 := sortL_perm strLe comp
        have h2 := sortL_perm strLe C
        rw [hCs] at h2
        exact h1.symm.trans h2
      unfold is_cycle_comp at hCcyc
      by_cases hlen : C.length > 1
      · left
        rw [hperm.length_eq]
        exact hlen
      · rw [if_neg hlen] at hCcyc
        match C, hCcyc, hperm with
        | [], hCcyc, _ => exact Bool.noConfusion hCcyc
        | [c], hCcyc, hperm =>
          right
          have hcc : c ∈ adjGet (_build_adjacency g) c := by
            simpa using hCcyc
          exact ⟨c, List.perm_singleton.mp hperm, (adjGet_build g c c).mp hcc⟩
        | c :: d :: ds, _, _ =>
          exfalso
          apply hlen
          simp only [List.length_cons]
          omega
    · intro hCond
      have hcyc : is_cycle_comp (_build_adjacency g) comp = true := by
        rcases hCond with hlen | ⟨u, hequ, hself⟩
        · unfold is_cycle_comp
          rw [if_pos hlen]
        · subst hequ
          unfold is_cycle_comp
          rw [if_neg (by simp)]
          show decide (u ∈ adjGet (_build_adjacency g) u) = true
          rw [decide_eq_true_eq]
          exact (adjGet_build g u u).mpr hself
      rw [hcomps]
      exact List.mem_map.mpr ⟨comp, List.mem_filter.mpr ⟨hcomp, hcyc⟩, rfl⟩

/-- Witness for C1: in Scenario B (`X⇄Y`), the pair (X, Y) is mutually
reachable, and the theorem places both in one recorded cycle
component. -/
theorem C1_witness :
    ∃ comp ∈ (mark_cycles gB).cycle_components, "X" ∈ comp ∧ "Y" ∈ comp :=
  ((C1_cycle_components_iff_mutual_reach gB).2.1 "X" "Y" (by decide) (by decide)
    (by decide)).mpr
    ⟨Relation.ReflTransGen.single (show EdgeStep gB "X" "Y" from (by decide :
        ("X", "Y") ∈ gB.edges)),
     Relation.ReflTransGen.single (show EdgeStep gB "Y" "X" from (by decide :
        ("Y", "X") ∈ gB.edges))⟩

end XcodeLibPlot
